import Mathlib

/-!
Verification of the gtui task-graph executor.

We give a shallow embedding of the core of the repository:
`gtui/task.py` (Task, TaskGraph, cycle detection) and
`gtui/executor.py` (the multi-threaded Executor), and prove the
specified properties about it.

Python dictionaries keyed by `Task` objects use name-based hashing and
equality (`Task.__hash__` / `Task.__eq__`), so they are embedded as
association lists keyed by the task name.  Failing dictionary lookups
(Python `KeyError`) are embedded with `Except String`, carrying the
missing key.  The bounded-depth DFS of `has_cycle` is embedded with
explicit fuel; we prove the fuel is never exhausted.
-/

namespace Gtui

/-- Embeds `gtui.task.TaskStatus`. -/
inductive TaskStatus where
  | Waiting
  | Running
  | Success
  | Failure
deriving Repr, DecidableEq

/-- Embeds `gtui.task.Task`: a name plus an invocable body.  The body
(`func`, `args`, `kwargs`) is opaque to the scheduler, so it is embedded
as an opaque numeric identifier; what the body does when run is supplied
separately to the executor model as a `body` function.  Equality of
Python `Task` objects compares names only (`Task.__eq__`), embedded as
`pyEq` below; Lean's structural equality distinguishes objects that
differ in `func`, matching Python object identity distinctions. -/
structure Task where
  name : String
  func : Nat
deriving Repr, DecidableEq

/-- Embeds `Task.__eq__`: two tasks are equal iff their names are equal. -/
def Task.pyEq (a b : Task) : Bool := a.name == b.name

/-- Association-list embedding of a Python dict keyed by task name. -/
def dictGet {α : Type} (d : List (String × α)) (k : String) : Option α :=
  (d.find? (fun p => p.1 == k)).map (fun p => p.2)

/-- Python `d[k] = v`: updates the value in place when the key is
present (iteration order preserved), appends a new entry otherwise. -/
def dictSet {α : Type} (d : List (String × α)) (k : String) (v : α) :
    List (String × α) :=
  if (d.find? (fun p => p.1 == k)).isSome then
    d.map (fun p => if p.1 == k then (k, v) else p)
  else d ++ [(k, v)]

/-- Embeds `gtui.task.TaskGraph`: the ordered list of registered tasks and
the `task2waiting_for` dict from each task (keyed by name) to the list of
tasks it waits for. -/
structure TaskGraph where
  tasks : List Task
  task2waiting_for : List (String × List Task)
deriving Repr, DecidableEq

/-- The empty graph, as built by `TaskGraph.__init__`. -/
def TaskGraph.empty : TaskGraph := ⟨[], []⟩

/-- The dynamically-typed `waiting_for` argument of `add_task` /
`add_dependency`: a `Task`, a `list` of tasks, or a value of any other
runtime type (tuple, set, generator, ...), of which only its Python
truthiness is relevant to the code. -/
inductive WaitingFor where
  | task (t : Task)
  | list (ts : List Task)
  | other (truthy : Bool)
deriving Repr

/-- Python truthiness of a `waiting_for` value: a `Task` object is truthy,
a list is truthy iff non-empty, other values carry their own truthiness. -/
def WaitingFor.truthy : WaitingFor → Bool
  | .task _ => true
  | .list ts => !ts.isEmpty
  | .other b => b

/-- Embeds `TaskGraph.add_dependency`.  The two `isinstance` branches
append the task (resp. the list) to `task2waiting_for[task]`; a value of
any other type matches neither branch and the method returns with the
dict untouched.  The dict subscript raises `KeyError` (embedded as
`.error`) when `task` is not a registered key. -/
def TaskGraph.add_dependency (g : TaskGraph) (task : Task) (w : WaitingFor) :
    Except String TaskGraph :=
  match w with
  | .task t =>
      match dictGet g.task2waiting_for task.name with
      | none => .error task.name
      | some ds =>
          .ok { g with task2waiting_for :=
                  dictSet g.task2waiting_for task.name (ds ++ [t]) }
  | .list ts =>
      match dictGet g.task2waiting_for task.name with
      | none => .error task.name
      | some ds =>
          .ok { g with task2waiting_for :=
                  dictSet g.task2waiting_for task.name (ds ++ ts) }
  | .other _ => .ok g

/-- Embeds `TaskGraph.add_task`: registers the task if no task of equal
name is present (`if task not in self.tasks`, membership via
`Task.__eq__`), then, if `waiting_for` is truthy, delegates to
`add_dependency`. -/
def TaskGraph.add_task (g : TaskGraph) (task : Task)
    (waiting_for : Option WaitingFor) : Except String TaskGraph :=
  let g1 := if g.tasks.any (fun u => u.pyEq task) then g
            else { tasks := g.tasks ++ [task],
                   task2waiting_for := g.task2waiting_for ++ [(task.name, [])] }
  match waiting_for with
  | none => .ok g1
  | some w => if w.truthy then g1.add_dependency task w else .ok g1

/-- The registered task names, in insertion order. -/
def TaskGraph.names (g : TaskGraph) : List String := g.tasks.map (fun t => t.name)

/-- The dependency list of a registered task name
(`task2waiting_for[name]`). -/
def TaskGraph.depsOf (g : TaskGraph) (n : String) : Option (List Task) :=
  dictGet g.task2waiting_for n

/-- Well-formedness of a graph as maintained by the `TaskGraph` API:
the dict keys are exactly the registered names in order, names are
distinct, and every dependency names a registered task. -/
structure TaskGraph.WF (g : TaskGraph) : Prop where
  keys : g.task2waiting_for.map (fun p => p.1) = g.names
  nodup : g.names.Nodup
  deps_registered : ∀ n ds, g.depsOf n = some ds → ∀ d ∈ ds, d.name ∈ g.names

example : TaskGraph.empty.add_task ⟨"a", 0⟩ none =
    .ok ⟨[⟨"a", 0⟩], [("a", [])]⟩ := by rfl

/-! ## Cycle detection: `TaskGraph.has_cycle`

The source runs a depth-first search with three dicts keyed by task:
`task2visited`, `task2on_stack` and `task2on_stack_dep` (the neighbour
currently being explored from each task), plus a `nonlocal cycle`
variable.  The nested `dfs` recursion is embedded with explicit fuel
(`noFuel` is proved unreachable below); the `while` loop that
reconstructs the cycle path is likewise fuelled by the number of
keys of `task2on_stack_dep`. -/

/-- Errors of the embedded DFS: a Python `KeyError` carrying the missing
key, or exhaustion of the embedding fuel (proved unreachable). -/
inductive DfsErr where
  | keyError (k : String)
  | noFuel
deriving Repr, DecidableEq

/-- Python `d[k]` on a dict: the value, or `KeyError` when absent. -/
def lookupOrKey {α : Type} (d : List (String × α)) (k : String) :
    Except DfsErr α :=
  match dictGet d k with
  | some v => .ok v
  | none => .error (.keyError k)

/-- The mutable state of `has_cycle`: the three dicts and the
`nonlocal cycle` variable.  `cycle` is `none` for Python `None`; the
source also briefly holds the empty list but always extends it to a
non-empty list before it is next inspected, so `Option` is faithful. -/
structure DfsState where
  visited : List (String × Bool)
  on_stack : List (String × Bool)
  on_stack_dep : List (String × Option Task)
  cycle : Option (List Task)
deriving Repr

/-- Embeds the cycle-reconstruction loop of `has_cycle`:
`v = w; while v != t: cycle.append(v); v = task2on_stack_dep[v]`.
Inequality `v != t` is `Task.__eq__`, i.e. name comparison.  If
`task2on_stack_dep[v]` were `None` the next iteration of the source
loop would subscript the dict with `None` and raise `KeyError`; that
branch is embedded as `keyError` and proved unreachable. -/
def cycleWalk (dep : List (String × Option Task)) :
    Nat → Task → Task → List Task → Except DfsErr (List Task)
  | 0, _, _, _ => .error .noFuel
  | fuel + 1, v, t, acc =>
      if v.pyEq t then .ok acc
      else
        match dictGet dep v.name with
        | none => .error (.keyError v.name)
        | some none => .error (.keyError "None")
        | some (some v2) => cycleWalk dep fuel v2 t (acc ++ [v])

/-- One pass of the `for w in self.task2waiting_for[t]` loop body of
`dfs`, abstracted over the recursive call (`visit`).  Returns the state
together with `true` when the loop ran to completion (so the caller
executes the trailing `task2on_stack[t] = False`), `false` when the
loop exited through the early `return` taken once a cycle is
recorded. -/
def dfsLoop (visit : Task → DfsState → Except DfsErr DfsState) (t : Task) :
    List Task → DfsState → Except DfsErr (DfsState × Bool)
  | [], st => .ok (st, true)
  | w :: ws, st =>
      if st.cycle.isSome then .ok (st, false)
      else
        match lookupOrKey st.visited w.name with
        | .error e => .error e
        | .ok vis =>
            if !vis then
              let st1 := { st with
                on_stack_dep := dictSet st.on_stack_dep t.name (some w) }
              match visit w st1 with
              | .error e => .error e
              | .ok st2 => dfsLoop visit t ws st2
            else
              match lookupOrKey st.on_stack w.name with
              | .error e => .error e
              | .ok onStk =>
                  if onStk then
                    match cycleWalk st.on_stack_dep
                        (st.on_stack_dep.length + 1) w t [] with
                    | .error e => .error e
                    | .ok c =>
                        dfsLoop visit t ws
                          { st with cycle := some (c ++ [t, w]) }
                  else
                    dfsLoop visit t ws st

/-- Embeds the nested `dfs(t)` of `has_cycle`: mark `t` visited and on
the stack, iterate over `task2waiting_for[t]`, and clear the on-stack
mark unless the loop exited via the early `return`. -/
def dfsVisit (g : TaskGraph) : Nat → Task → DfsState → Except DfsErr DfsState
  | 0, _, _ => .error .noFuel
  | fuel + 1, t, st =>
      let st1 : DfsState := { st with
        visited := dictSet st.visited t.name true,
        on_stack := dictSet st.on_stack t.name true }
      match lookupOrKey g.task2waiting_for t.name with
      | .error e => .error e
      | .ok ws =>
          match dfsLoop (dfsVisit g fuel) t ws st1 with
          | .error e => .error e
          | .ok r =>
              if r.2 then
                .ok { r.1 with on_stack := dictSet r.1.on_stack t.name false }
              else .ok r.1

/-- The initial DFS state: every registered task mapped to
not-visited, not-on-stack, no on-stack dependency, and no cycle. -/
def dfsInit (g : TaskGraph) : DfsState :=
  { visited := g.tasks.map (fun t => (t.name, false)),
    on_stack := g.tasks.map (fun t => (t.name, false)),
    on_stack_dep := g.tasks.map (fun t => (t.name, (none : Option Task))),
    cycle := none }

/-- The outer `for t in self.tasks: if not task2visited[t]: dfs(t)`
loop of `has_cycle`. -/
def dfsOuter (g : TaskGraph) : List Task → DfsState → Except DfsErr DfsState
  | [], st => .ok st
  | t :: ts, st =>
      match lookupOrKey st.visited t.name with
      | .error e => .error e
      | .ok vis =>
          if vis then dfsOuter g ts st
          else
            match dfsVisit g (g.tasks.length + 1) t st with
            | .error e => .error e
            | .ok st1 => dfsOuter g ts st1

/-- Embeds `TaskGraph.has_cycle`: returns the recorded cycle (a list of
tasks) or `none` when the graph is acyclic. -/
def TaskGraph.has_cycle (g : TaskGraph) : Except DfsErr (Option (List Task)) :=
  (dfsOuter g g.tasks (dfsInit g)).map (fun st => st.cycle)

/-! ## The Executor

`gtui/executor.py` binds one `IORedirectedThread` per task at
construction time and thereafter runs a reactive scheduler: each
thread's completion spawns a watcher that runs
`check_finish_status_and_schedule_task_to_run`.  We embed the executor
as an interleaved transition system.  A `Worker` carries the fields of
the per-task `IORedirectedThread` that the scheduler observes
(`thread2started`, liveness, `error`, `traceback`) together with the
program counter of its watcher:

* `phase = 0`: the watcher has not run (the thread may not even have
  finished yet);
* `phase = 1`: the watcher has executed the `if_any_failed_task`
  check (and possibly invoked the user callback with `False`);
* `phase = 2`: it has also executed the `if_all_tasks_success` check
  (possibly invoking the callback with `True`);
* `phase = 3`: it has also executed the lock-protected section that
  starts every ready task.

The body of a task is abstracted by a function
`body : String → Option String`: `none` means the body returns
normally, `some e` means it raises exception `e`.  `startLog` records
the order in which workers were started, and `log` the arguments of
the user-callback invocations; both are event logs that the Python
state does not store explicitly but that the traces determine. -/

/-- The scheduler-visible state of one task's `IORedirectedThread`. -/
structure Worker where
  started : Bool
  finished : Bool
  error : Option String
  traceback : Option String
  phase : Nat
deriving Repr, DecidableEq

/-- A fresh worker: thread constructed but never started. -/
def Worker.fresh : Worker :=
  { started := false, finished := false, error := none,
    traceback := none, phase := 0 }

/-- Embeds `Thread.is_alive`: true from `start()` until `run()`
returns. -/
def Worker.is_alive (w : Worker) : Bool := w.started && !w.finished

/-- The state of an `Executor` between transitions. -/
structure ExecState where
  execStarted : Bool
  workers : List (String × Worker)
  startLog : List String
  log : List Bool
deriving Repr, DecidableEq

/-- The state right after `Executor.__init__`: one fresh worker per
registered task (`task2thread`), nothing started. -/
def initState (g : TaskGraph) : ExecState :=
  { execStarted := false,
    workers := g.tasks.map (fun t => (t.name, Worker.fresh)),
    startLog := [], log := [] }

/-- The worker of a task name (`task2thread[task]`). -/
def workerOf (s : ExecState) (n : String) : Option Worker :=
  dictGet s.workers n

/-- Update the value of an existing key of a dict, in place.  The
executor's per-worker updates always target keys fixed at
`Executor.__init__`. -/
def dictUpd {α : Type} (d : List (String × α)) (k : String) (f : α → α) :
    List (String × α) :=
  d.map (fun p => if p.1 == k then (k, f p.2) else p)

/-- Embeds `Executor.get_task_status`: `Running` while the thread is
alive, `Waiting` when never started, `Failure` when an error was
captured, `Success` otherwise; `KeyError` for an unregistered name. -/
def get_task_status (s : ExecState) (n : String) : Except String TaskStatus :=
  match workerOf s n with
  | none => .error n
  | some w =>
      .ok (if w.is_alive then .Running
           else if !w.started then .Waiting
           else if w.error.isSome then .Failure
           else .Success)

/-- The list comprehension `[get_task_status(t) for t in tasks]`: the
statuses in order, or the first `KeyError` raised. -/
def statusList (s : ExecState) : List Task → Except String (List TaskStatus)
  | [] => .ok []
  | t :: ts =>
      match get_task_status s t.name with
      | .error e => .error e
      | .ok st =>
          match statusList s ts with
          | .error e => .error e
          | .ok rest => .ok (st :: rest)

/-- Embeds `Executor.if_all_tasks_success` on an explicit task list
(`all([...])` evaluates every status before aggregating, so the first
`KeyError` in list order propagates). -/
def if_all_tasks_success (s : ExecState) (ts : List Task) :
    Except String Bool :=
  match statusList s ts with
  | .error e => .error e
  | .ok sts => .ok (sts.all (fun x => x == TaskStatus.Success))

/-- Embeds `Executor.if_any_failed_task` over the whole graph. -/
def if_any_failed_task (g : TaskGraph) (s : ExecState) :
    Except String Bool :=
  match statusList s g.tasks with
  | .error e => .error e
  | .ok sts => .ok (sts.any (fun x => x == TaskStatus.Failure))

/-- The condition of the comprehension of
`Executor.get_tasks_ready_to_run` for one task:
`self.get_task_status(task) == TaskStatus.Waiting and
self.if_all_tasks_success(waiting_for)` — the `and` short-circuits, so
the dependency statuses are only read when the task is `Waiting`. -/
def readyCond (s : ExecState) (n : String) (ws : List Task) :
    Except String Bool :=
  match get_task_status s n with
  | .error e => .error e
  | .ok st =>
      match st with
      | TaskStatus.Waiting => if_all_tasks_success s ws
      | _ => .ok false

/-- Embeds the list comprehension of `Executor.get_tasks_ready_to_run`:
tasks (dict iteration order) whose status is `Waiting` and whose whole
dependency list is `Success`. -/
def readyFilter (s : ExecState) :
    List (String × List Task) → Except String (List String)
  | [] => .ok []
  | (n, ws) :: rest =>
      match readyCond s n ws with
      | .error e => .error e
      | .ok cond =>
          match readyFilter s rest with
          | .error e => .error e
          | .ok tail => .ok (if cond then n :: tail else tail)

/-- Embeds `Executor.get_tasks_ready_to_run`. -/
def get_tasks_ready_to_run (g : TaskGraph) (s : ExecState) :
    Except String (List String) :=
  readyFilter s g.task2waiting_for

/-- Starting one worker: `thread.start();
self.thread2started[thread] = True`, recorded in the start log. -/
def startWorker (s : ExecState) (n : String) : ExecState :=
  { s with
    workers := dictUpd s.workers n (fun w => { w with started := true }),
    startLog := s.startLog ++ [n] }

/-- The lock-protected section shared by `start_execution` and
`check_finish_status_and_schedule_task_to_run`: compute the ready set
and start each ready worker.  The `RLock` makes the whole section
atomic with respect to the other lock takers, so it is one
transition. -/
def startReady (g : TaskGraph) (s : ExecState) : Except String ExecState :=
  match get_tasks_ready_to_run g s with
  | .error e => .error e
  | .ok ready => .ok (ready.foldl startWorker s)

/-- Embeds `Executor.start_execution` (the log-collector installation
has no scheduler-visible effect). -/
def start_execution (g : TaskGraph) (s : ExecState) : Except String ExecState :=
  match startReady g s with
  | .error e => .error e
  | .ok s1 => .ok { s1 with execStarted := true }

/-- A task's thread finishing its `run`: the body's exception, if any,
is captured on the thread (`self.error`, `self.traceback`) and the
thread stops being alive. -/
def finishStep (body : String → Option String) (s : ExecState) (n : String) :
    ExecState :=
  { s with
    workers := dictUpd s.workers n
      (fun w =>
        { w with
          finished := true,
          error := body n,
          traceback := (body n).map (fun e => String.append "Traceback: " e) }) }

/-- Set a worker's watcher program counter. -/
def setPhase (s : ExecState) (n : String) (ph : Nat) : ExecState :=
  { s with workers := dictUpd s.workers n (fun w => { w with phase := ph }) }

/-- First statement of
`check_finish_status_and_schedule_task_to_run`:
`if self.if_any_failed_task() and self.callback: self.callback(False)`. -/
def failCheckStep (g : TaskGraph) (hasCb : Bool) (s : ExecState) (n : String) :
    Except String ExecState :=
  match if_any_failed_task g s with
  | .error e => .error e
  | .ok b =>
      let s1 := setPhase s n 1
      .ok (if b && hasCb then { s1 with log := s1.log ++ [false] } else s1)

/-- Second statement: `if self.if_all_tasks_success() and self.callback:
self.callback(True)`. -/
def succCheckStep (g : TaskGraph) (hasCb : Bool) (s : ExecState) (n : String) :
    Except String ExecState :=
  match if_all_tasks_success s g.tasks with
  | .error e => .error e
  | .ok b =>
      let s1 := setPhase s n 2
      .ok (if b && hasCb then { s1 with log := s1.log ++ [true] } else s1)

/-- Third statement: the lock-protected rescheduling section. -/
def lockSectionStep (g : TaskGraph) (s : ExecState) (n : String) :
    Except String ExecState :=
  match startReady g s with
  | .error e => .error e
  | .ok s1 => .ok (setPhase s1 n 3)

/-- One interleaved transition of the executor.  `startExec` is the
single external `start_execution()` call; `finish` is a started
thread's `run` completing (capturing the body's exception);
`failCheck` / `succCheck` / `lockSection` are the three statements of
the watcher-run `check_finish_status_and_schedule_task_to_run`, which
the watcher executes in order after joining the finished thread. -/
inductive Step (g : TaskGraph) (body : String → Option String) (hasCb : Bool) :
    ExecState → ExecState → Prop
  | startExec (s s' : ExecState) :
      s.execStarted = false → start_execution g s = .ok s' →
      Step g body hasCb s s'
  | finish (s : ExecState) (n : String) (w : Worker) :
      workerOf s n = some w → w.started = true → w.finished = false →
      Step g body hasCb s (finishStep body s n)
  | failCheck (s s' : ExecState) (n : String) (w : Worker) :
      workerOf s n = some w → w.finished = true → w.phase = 0 →
      failCheckStep g hasCb s n = .ok s' →
      Step g body hasCb s s'
  | succCheck (s s' : ExecState) (n : String) (w : Worker) :
      workerOf s n = some w → w.finished = true → w.phase = 1 →
      succCheckStep g hasCb s n = .ok s' →
      Step g body hasCb s s'
  | lockSection (s s' : ExecState) (n : String) (w : Worker) :
      workerOf s n = some w → w.finished = true → w.phase = 2 →
      lockSectionStep g s n = .ok s' →
      Step g body hasCb s s'

/-- The states an execution can reach from the freshly constructed
executor. -/
inductive Reachable (g : TaskGraph) (body : String → Option String)
    (hasCb : Bool) : ExecState → Prop
  | init : Reachable g body hasCb (initState g)
  | step {s s' : ExecState} : Reachable g body hasCb s →
      Step g body hasCb s s' → Reachable g body hasCb s'

/-- Embeds the execution-entry prefix of `TaskGraph.run`: outcome of
calling the helper.  `has_cycle` raising `KeyError` propagates; a
detected cycle raises `ValueError` whose message joins the task names
of the cycle; otherwise the visualizer is constructed, which builds the
`Executor` and later calls `start_execution` — embedded as `launched`
carrying the executor's initial state. -/
inductive RunOutcome where
  | keyError (k : String)
  | internalNoFuel
  | valueError (cycleNames : List String)
  | launched (s : ExecState)
deriving Repr

/-- Embeds `TaskGraph.run` up to the hand-off to the visualizer. -/
def TaskGraph.run (g : TaskGraph) : RunOutcome :=
  match g.has_cycle with
  | .error (.keyError k) => .keyError k
  | .error .noFuel => .internalNoFuel
  | .ok (some c) => .valueError (c.map (fun t => t.name))
  | .ok none => .launched (initState g)

/-! ## The waits-for relation -/

/-- The waits-for edge relation on task names: `x` directly waits for
`y`. -/
def EdgeN (g : TaskGraph) (x y : String) : Prop :=
  ∃ ds, g.depsOf x = some ds ∧ ∃ d ∈ ds, d.name = y

/-- Transitive closure of the waits-for relation: `x` transitively
waits for `y`. -/
inductive WaitsFor (g : TaskGraph) : String → String → Prop
  | direct {x y : String} : EdgeN g x y → WaitsFor g x y
  | trans {x y z : String} : EdgeN g x y → WaitsFor g y z → WaitsFor g x z

/-- Acyclicity of the waits-for relation. -/
def Acyclic (g : TaskGraph) : Prop := ∀ x, ¬ WaitsFor g x x

/-! ## Concrete graphs used as test inputs -/

/-- Task named `A`. -/
def tA : Task := ⟨"A", 0⟩
/-- Task named `B`. -/
def tB : Task := ⟨"B", 0⟩
/-- Task named `C`. -/
def tC : Task := ⟨"C", 0⟩
/-- Task named `D`. -/
def tD : Task := ⟨"D", 0⟩
/-- A task that is never registered anywhere. -/
def tU : Task := ⟨"U", 0⟩

/-- The single 3-cycle: `A` waits for `B`, `B` waits for `C`, `C` waits
for `A`. -/
def g3 : TaskGraph := ⟨[tA, tB, tC], [("A", [tB]), ("B", [tC]), ("C", [tA])]⟩

/-- A 3-cycle plus an independent dependency-free task `D`. -/
def gCyc : TaskGraph :=
  ⟨[tA, tB, tC, tD], [("A", [tB]), ("B", [tC]), ("C", [tA]), ("D", [])]⟩

/-- The linear chain `B` waits for `A`, `C` waits for `B`. -/
def gChain : TaskGraph := ⟨[tA, tB, tC], [("A", []), ("B", [tA]), ("C", [tB])]⟩

/-- The diamond: `D` waits for `B` and `C`, each of which waits for
`A`. -/
def gDia : TaskGraph :=
  ⟨[tA, tB, tC, tD],
   [("A", []), ("B", [tA]), ("C", [tA]), ("D", [tB, tC])]⟩

/-- Two independent tasks `A` and `B`. -/
def gPair : TaskGraph := ⟨[tA, tB], [("A", []), ("B", [])]⟩

/-- A 2-cycle `B`/`C` registered first, then `A` waiting for the
unregistered task `U`. -/
def gMask : TaskGraph := ⟨[tB, tC, tA], [("B", [tC]), ("C", [tB]), ("A", [tU])]⟩

/-- A graph already holding a task named `n`. -/
def gDup : TaskGraph := ⟨[⟨"n", 0⟩], [("n", [])]⟩

/-- A body under which every task succeeds. -/
def bodyOk : String → Option String := fun _ => none

/-- A body under which exactly task `A` raises `boom`. -/
def bodyAFails : String → Option String :=
  fun n => if n == "A" then some "boom" else none

/-- The status the derivation of `get_task_status` assigns to a
worker. -/
def Worker.status (w : Worker) : TaskStatus :=
  if w.is_alive then .Running
  else if !w.started then .Waiting
  else if w.error.isSome then .Failure
  else .Success

/-- No step of the executor is enabled: the execution has come to
rest. -/
def Maximal (g : TaskGraph) (body : String → Option String) (hasCb : Bool)
    (s : ExecState) : Prop :=
  ∀ s', ¬ Step g body hasCb s s'

/-- A scheduling decision of one interleaved execution, used to build
concrete traces. -/
inductive Act where
  | aStart
  | aFinish (n : String)
  | aFail (n : String)
  | aSucc (n : String)
  | aLock (n : String)
deriving Repr

/-- Execute one act when its step is enabled. -/
def applyAct (g : TaskGraph) (body : String → Option String) (hasCb : Bool)
    (a : Act) (s : ExecState) : Option ExecState :=
  match a with
  | .aStart =>
      if s.execStarted then none else (start_execution g s).toOption
  | .aFinish n =>
      match workerOf s n with
      | some w =>
          if w.started && !w.finished then some (finishStep body s n) else none
      | none => none
  | .aFail n =>
      match workerOf s n with
      | some w =>
          if w.finished && w.phase == 0 then (failCheckStep g hasCb s n).toOption
          else none
      | none => none
  | .aSucc n =>
      match workerOf s n with
      | some w =>
          if w.finished && w.phase == 1 then (succCheckStep g hasCb s n).toOption
          else none
      | none => none
  | .aLock n =>
      match workerOf s n with
      | some w =>
          if w.finished && w.phase == 2 then (lockSectionStep g s n).toOption
          else none
      | none => none

/-- Execute a list of acts in order. -/
def runScript (g : TaskGraph) (body : String → Option String) (hasCb : Bool)
    (acts : List Act) (s : ExecState) : Option ExecState :=
  match acts with
  | [] => some s
  | a :: rest => (applyAct g body hasCb a s).bind (runScript g body hasCb rest)

/-- The inductive invariant of the executor transition system, proved
to hold in every reachable state of a well-formed graph. -/
structure Inv (g : TaskGraph) (body : String → Option String) (hasCb : Bool)
    (s : ExecState) : Prop where
  keys : s.workers.map (fun p => p.1) = g.names
  fresh_not_started : s.execStarted = false →
    (∀ n w, workerOf s n = some w → w = Worker.fresh) ∧
    s.startLog = [] ∧ s.log = []
  fin_start : ∀ n w, workerOf s n = some w → w.finished = true →
    w.started = true
  phase_fin : ∀ n w, workerOf s n = some w → 0 < w.phase →
    w.finished = true
  phase_le : ∀ n w, workerOf s n = some w → w.phase ≤ 3
  err_fin : ∀ n w, workerOf s n = some w → w.finished = true →
    w.error = body n ∧
    w.traceback = (body n).map (fun e => String.append "Traceback: " e)
  err_not_fin : ∀ n w, workerOf s n = some w → w.finished = false →
    w.error = none ∧ w.traceback = none
  started_deps : ∀ n w, workerOf s n = some w → w.started = true →
    ∀ ds, g.depsOf n = some ds → ∀ d ∈ ds,
      get_task_status s d.name = .ok .Success
  start_count : ∀ n w, workerOf s n = some w →
    s.startLog.count n = (if w.started then 1 else 0)
  start_count_none : ∀ n, workerOf s n = none → s.startLog.count n = 0
  log_no_cb : hasCb = false → s.log = []
  log_false_sound : false ∈ s.log →
    ∃ n, get_task_status s n = .ok .Failure
  log_true_sound : true ∈ s.log →
    ∀ t ∈ g.tasks, get_task_status s t.name = .ok .Success
  false_complete : hasCb = true →
    ∀ n w, workerOf s n = some w → w.error.isSome = true → 0 < w.phase →
    false ∈ s.log
  true_complete : hasCb = true → g.tasks ≠ [] →
    (∀ t ∈ g.tasks, get_task_status s t.name = .ok .Success) →
    (∀ n w, workerOf s n = some w → 2 ≤ w.phase) →
    true ∈ s.log
  ready_pending : s.execStarted = true →
    ∀ n w, workerOf s n = some w → w.started = false →
    ∀ ds, g.depsOf n = some ds →
    (∀ d ∈ ds, get_task_status s d.name = .ok .Success) →
    ∃ m wm, workerOf s m = some wm ∧ wm.finished = true ∧ wm.phase < 3

/-- A worker that ran to completion successfully and whose watcher has
finished all three phases. -/
def wDone : Worker :=
  { started := true, finished := true, error := none, traceback := none,
    phase := 3 }

/-- The worker of a task whose body raised `boom`, after its watcher
finished. -/
def wFailA : Worker :=
  { started := true, finished := true, error := some "boom",
    traceback := some "Traceback: boom", phase := 3 }

/-- `gChain` under `bodyOk` after `A` ran and its watcher started `B`. -/
def sChainW : ExecState :=
  { execStarted := true,
    workers := [("A", wDone),
                ("B", { started := true, finished := false, error := none,
                        traceback := none, phase := 0 }),
                ("C", Worker.fresh)],
    startLog := ["A", "B"], log := [] }

/-- `gChain` under `bodyAFails` after `A` failed and its watcher ran:
`B` and `C` remain waiting. -/
def sChainFail : ExecState :=
  { execStarted := true,
    workers := [("A", wFailA), ("B", Worker.fresh), ("C", Worker.fresh)],
    startLog := ["A"], log := [] }

/-- `gPair` under `bodyAFails` with a callback, after both tasks
finished and both watchers ran their failure check: the callback was
invoked twice with `False`. -/
def sPair2 : ExecState :=
  { execStarted := true,
    workers := [("A", { started := true, finished := true,
                        error := some "boom",
                        traceback := some "Traceback: boom", phase := 1 }),
                ("B", { started := true, finished := true, error := none,
                        traceback := none, phase := 1 })],
    startLog := ["A", "B"], log := [false, false] }

/-- The diamond graph run to completion: every worker done, every
watcher done. -/
def sDiaF : ExecState :=
  { execStarted := true,
    workers := [("A", wDone), ("B", wDone), ("C", wDone), ("D", wDone)],
    startLog := ["A", "B", "C", "D"], log := [] }

/-! ## Theorems -/

/-- The graph whose only task `A` waits for the never-registered task
`U`: validation raises `KeyError(\'U\')` before anything runs. -/
def gUnk : TaskGraph := ⟨[tA], [("A", [tU])]⟩

/-! ## Predicates supporting the DFS correctness proofs -/

/-- A name is marked visited in a DFS state. -/
def visN (st : DfsState) (n : String) : Prop :=
  dictGet st.visited n = some true

/-- The keys of the three DFS dicts are exactly the registered names. -/
def KeysOK (g : TaskGraph) (st : DfsState) : Prop :=
  st.visited.map (fun p => p.1) = g.names ∧
  st.on_stack.map (fun p => p.1) = g.names ∧
  st.on_stack_dep.map (fun p => p.1) = g.names

/-- The number of registered names not yet marked visited. -/
def unvis (g : TaskGraph) (st : DfsState) : Nat :=
  g.names.countP (fun n => decide (dictGet st.visited n ≠ some true))

/-- The `task2on_stack_dep` pointers chain consecutive entries of the
DFS recursion stack, each pointer following a waits-for edge. -/
def StackChain (g : TaskGraph) (dep : List (String × Option Task)) :
    List Task → Prop
  | [] => True
  | [_] => True
  | a :: b :: rest =>
      dictGet dep a.name = some (some b) ∧ EdgeN g a.name b.name ∧
        StackChain g dep (b :: rest)

/-- A chain of `task2on_stack_dep` pointers from `v` through the tasks
of `l`, ending at a task named like `t`: the walk performed by the
cycle-reconstruction loop. -/
def DepChainTo (dep : List (String × Option Task)) (t : Task) :
    Task → List Task → Prop
  | v, [] => v.name = t.name
  | v, v2 :: rest =>
      v.name ≠ t.name ∧ dictGet dep v.name = some (some v2) ∧
        DepChainTo dep t v2 rest

/-- A name is finished ("black"): visited and off the stack. -/
def BlackN (st : DfsState) (n : String) : Prop :=
  visN st n ∧ dictGet st.on_stack n = some false

/-- Finishing ranks: finished nodes only have edges to finished nodes
of strictly smaller rank. -/
def BlackRank (g : TaskGraph) (st : DfsState) : Prop :=
  ∃ rank : String → Nat, ∀ n, BlackN st n →
    ∀ m, EdgeN g n m → BlackN st m ∧ rank m < rank n

/-- Precondition of the embedded `dfs(t)` call: dict keys are the
registered names, `t` is registered and unvisited, the fuel exceeds
the number of unvisited names, a recorded cycle is a genuine one, and
while no cycle is recorded the on-stack marks are exactly the
recursion stack `σ ++ [t]`, chained by `task2on_stack_dep`. -/
abbrev VisitPre (g : TaskGraph) (fuel : Nat) (t : Task) (st : DfsState)
    (σ : List Task) : Prop :=
  KeysOK g st ∧ t.name ∈ g.names ∧
  dictGet st.visited t.name = some false ∧
  unvis g st < fuel ∧
  (st.cycle.isSome = true → ∃ n, WaitsFor g n n) ∧
  (st.cycle = none →
    (∀ n, n ∈ g.names →
      (dictGet st.on_stack n = some true ↔ n ∈ σ.map Task.name)) ∧
    (∀ u ∈ σ, visN st u.name) ∧
    (σ.map Task.name).Nodup ∧
    (∀ u ∈ σ, u.name ∈ g.names) ∧
    StackChain g st.on_stack_dep (σ ++ [t]) ∧
    BlackRank g st)

/-- Postcondition of the embedded `dfs(t)` call. -/
abbrev VisitPost (g : TaskGraph) (t : Task) (st st2 : DfsState) : Prop :=
  KeysOK g st2 ∧
  (∀ n, visN st n → visN st2 n) ∧
  visN st2 t.name ∧
  unvis g st2 < unvis g st ∧
  (∀ c, st.cycle = some c → st2.cycle = some c) ∧
  (st2.cycle.isSome = true → ∃ n, WaitsFor g n n) ∧
  (st2.cycle = none →
    (∀ n, dictGet st2.on_stack n = dictGet st.on_stack n) ∧
    (∀ n, visN st n →
      dictGet st2.on_stack_dep n = dictGet st.on_stack_dep n) ∧
    BlackRank g st2 ∧
    BlackN st2 t.name)

/-- Precondition of the dependency loop of `dfs(t)`, running over the
remaining dependencies `ws` with recursion stack `σ ++ [t]`. -/
abbrev LoopPre (g : TaskGraph) (fuel : Nat) (t : Task) (ws : List Task)
    (st : DfsState) (σ : List Task) : Prop :=
  KeysOK g st ∧ t.name ∈ g.names ∧
  visN st t.name ∧
  unvis g st < fuel ∧
  (∀ w ∈ ws, w.name ∈ g.names ∧ EdgeN g t.name w.name) ∧
  (st.cycle.isSome = true → ∃ n, WaitsFor g n n) ∧
  (st.cycle = none →
    (∀ n, n ∈ g.names →
      (dictGet st.on_stack n = some true ↔ n ∈ (σ ++ [t]).map Task.name)) ∧
    (∀ u ∈ σ ++ [t], visN st u.name) ∧
    ((σ ++ [t]).map Task.name).Nodup ∧
    (∀ u ∈ σ ++ [t], u.name ∈ g.names) ∧
    StackChain g st.on_stack_dep (σ ++ [t]) ∧
    BlackRank g st)

/-- Postcondition of the dependency loop of `dfs(t)`. -/
abbrev LoopPost (g : TaskGraph) (t : Task) (st st2 : DfsState)
    (flag : Bool) (ws : List Task) : Prop :=
  KeysOK g st2 ∧
  (∀ n, visN st n → visN st2 n) ∧
  unvis g st2 ≤ unvis g st ∧
  (∀ c, st.cycle = some c → st2.cycle = some c) ∧
  (st2.cycle.isSome = true → ∃ n, WaitsFor g n n) ∧
  (flag = false → st2.cycle.isSome = true) ∧
  (st2.cycle = none →
    (∀ n, dictGet st2.on_stack n = dictGet st.on_stack n) ∧
    (∀ n, visN st n → n ≠ t.name →
      dictGet st2.on_stack_dep n = dictGet st.on_stack_dep n) ∧
    BlackRank g st2 ∧
    (∀ w ∈ ws, BlackN st2 w.name))

/-- Invariant of the outer loop of `has_cycle`: between top-level
`dfs` calls the stack is empty and finished nodes carry ranks. -/
abbrev OuterInv (g : TaskGraph) (st : DfsState) : Prop :=
  KeysOK g st ∧
  (st.cycle.isSome = true → ∃ n, WaitsFor g n n) ∧
  (st.cycle = none →
    (∀ n, n ∈ g.names → dictGet st.on_stack n = some false) ∧
    BlackRank g st)

/-- All dependencies of `n` are recorded and each one is itself a key
of the visited dict (used to show a completed traversal touched every
dependency). -/
def depsKeyed (g : TaskGraph) (st : DfsState) (n : String) : Prop :=
  ∃ ds, g.depsOf n = some ds ∧
    ∀ d ∈ ds, d.name ∈ st.visited.map (fun p => p.1)

/-- C9 counterexample: registering a second, distinct task object with
the already-taken name `n` does not fail — `add_task` returns normally
and the new object is silently discarded, the graph keeping the first
registration. -/
theorem C9_counterexample :
    gDup.add_task ⟨"n", 1⟩ none = .ok gDup ∧ (⟨"n", 1⟩ : Task) ∉ gDup.tasks :=
  ⟨rfl, by decide⟩

/-- C9 (amended): registering, in a graph already holding a task named
`n`, a second distinct task object also named `n` is silently ignored —
`add_task` raises no error and leaves the graph unchanged, keeping the
first registration and discarding the second object. -/
theorem C9_amended_duplicate_name_silently_ignored
    (g : TaskGraph) (t t' : Task) (ht : t ∈ g.tasks)
    (hname : t'.name = t.name) :
    g.add_task t' none = .ok g := by
  have hany : g.tasks.any (fun u => u.pyEq t') = true :=
    List.any_eq_true.mpr ⟨t, ht, by simp [Task.pyEq, hname]⟩
  simp [TaskGraph.add_task, hany]

/-- C9 witness: the amended statement at the concrete duplicate
registration. -/
theorem C9_witness : gDup.add_task ⟨"n", 1⟩ none = .ok gDup :=
  C9_amended_duplicate_name_silently_ignored gDup ⟨"n", 0⟩ ⟨"n", 1⟩
    (by decide) rfl

/-- C10: for a registered task `t`, passing a `waiting_for` value that
is neither a `Task` nor a `list` (a tuple, set, generator, ...) to
`add_dependency` — or to `add_task` — returns normally, raises no
error, and records no dependency edge: the graph is unchanged. -/
theorem C10_nonlist_dependency_silently_ignored
    (g : TaskGraph) (t : Task) (b : Bool) (ht : t ∈ g.tasks) :
    g.add_dependency t (.other b) = .ok g ∧
    g.add_task t (some (.other b)) = .ok g := by
  have hany : g.tasks.any (fun u => u.pyEq t) = true :=
    List.any_eq_true.mpr ⟨t, ht, by simp [Task.pyEq]⟩
  refine ⟨rfl, ?_⟩
  simp only [TaskGraph.add_task, hany, if_true]
  cases b <;> simp [WaitingFor.truthy, TaskGraph.add_dependency]

/-- C10 witness: the statement at a concrete registered task. -/
theorem C10_witness :
    gPair.add_dependency tA (.other true) = .ok gPair ∧
    gPair.add_task tA (some (.other true)) = .ok gPair :=
  C10_nonlist_dependency_silently_ignored gPair tA true (by decide)

/-- C4 counterexample: `gCyc` contains the cycle `A → B → C → A`, yet
calling `Executor.start_execution` on it raises nothing — it returns
normally and starts the worker of the dependency-free task `D`.  The
cycle check lives in `TaskGraph.run`, not in the executor. -/
theorem C4_counterexample :
    gCyc.has_cycle = .ok (some [tA, tB, tC, tA]) ∧
    start_execution gCyc (initState gCyc) =
      .ok { execStarted := true,
            workers := [("A", Worker.fresh), ("B", Worker.fresh),
                        ("C", Worker.fresh),
                        ("D", { Worker.fresh with started := true })],
            startLog := ["D"], log := [] } :=
  ⟨rfl, rfl⟩

/-- C4 (amended): the cycle refusal lives in the `TaskGraph.run` entry
point: whenever `has_cycle` reports a cycle, `run` raises `ValueError`
carrying the cycle path (the task names in order) and never hands off
to the visualizer, so no task worker is started;
`Executor.start_execution` itself performs no cycle validation. -/
theorem C4_amended_run_refuses_cyclic_graph
    (g : TaskGraph) (c : List Task) (h : g.has_cycle = .ok (some c)) :
    g.run = .valueError (c.map (fun t => t.name)) ∧
    ∀ s, g.run ≠ .launched s := by
  constructor
  · simp [TaskGraph.run, h]
  · intro s
    simp [TaskGraph.run, h]

/-- C4 witness: the amended statement at the concrete cyclic graph. -/
theorem C4_witness :
    gCyc.run = .valueError ["A", "B", "C", "A"] ∧
    ∀ s, gCyc.run ≠ .launched s :=
  C4_amended_run_refuses_cyclic_graph gCyc [tA, tB, tC, tA] rfl


/-! ### Dictionary and worker-update lemmas -/

theorem dictGet_dictUpd {α : Type} (d : List (String × α)) (k n : String)
    (f : α → α) :
    dictGet (dictUpd d k f) n =
      if n = k then (dictGet d n).map f else dictGet d n := by
  unfold dictGet dictUpd
  rw [List.find?_map]
  have hpred :
      ((fun p : String × α => p.1 == n) ∘
        (fun p : String × α => if p.1 == k then (k, f p.2) else p)) =
      (fun p : String × α => p.1 == n) := by
    funext p
    by_cases h : p.1 = k <;> simp [h]
  rw [hpred]
  rcases hfind : d.find? (fun p => p.1 == n) with _ | p0
  · simp [hfind]
  · have hp0 := List.find?_some hfind
    have hp0' : p0.1 = n := by simpa using hp0
    by_cases hnk : n = k
    · subst hnk
      rw [hfind]
      simp [hp0']
    · rw [hfind]
      simp [hp0', hnk]

theorem map_fst_dictUpd {α : Type} (d : List (String × α)) (k : String)
    (f : α → α) :
    (dictUpd d k f).map (fun p => p.1) = d.map (fun p => p.1) := by
  unfold dictUpd
  rw [List.map_map]
  congr 1
  funext p
  by_cases h : p.1 = k <;> simp [h]

theorem dictGet_some_of_mem_keys {α : Type} (d : List (String × α))
    (k : String) (h : k ∈ d.map (fun p => p.1)) :
    ∃ v, dictGet d k = some v := by
  induction d with
  | nil => simp at h
  | cons p rest ih =>
      by_cases hp : p.1 = k
      · exact ⟨p.2, by simp [dictGet, List.find?, hp]⟩
      · have : k ∈ rest.map (fun p => p.1) := by
          simp at h
          rcases h with h | h
          · exact absurd h.symm hp
          · simpa using h
        rcases ih this with ⟨v, hv⟩
        refine ⟨v, ?_⟩
        simp only [dictGet, List.find?] at *
        rw [show (p.1 == k) = false by simpa using hp]
        exact hv

theorem mem_values_of_dictGet {α : Type} (d : List (String × α))
    (k : String) (v : α) (h : dictGet d k = some v) :
    v ∈ d.map (fun p => p.2) := by
  induction d with
  | nil => simp [dictGet] at h
  | cons p rest ih =>
      by_cases hp : p.1 = k
      · simp [dictGet, List.find?, hp] at h
        simp [h]
      · simp only [dictGet, List.find?] at h
        rw [show (p.1 == k) = false by simpa using hp] at h
        simp only [List.map_cons, List.mem_cons]
        exact Or.inr (ih h)

/-! ### Worker status classification -/

theorem status_waiting_iff (w : Worker) :
    w.status = .Waiting ↔ w.started = false := by
  rcases w with ⟨st, fin, err, tb, ph⟩
  cases st <;> cases fin <;> cases err <;>
    simp [Worker.status, Worker.is_alive]

theorem status_running_iff (w : Worker) :
    w.status = .Running ↔ w.started = true ∧ w.finished = false := by
  rcases w with ⟨st, fin, err, tb, ph⟩
  cases st <;> cases fin <;> cases err <;>
    simp [Worker.status, Worker.is_alive]

theorem status_success_iff (w : Worker) :
    w.status = .Success ↔
      w.started = true ∧ w.finished = true ∧ w.error = none := by
  rcases w with ⟨st, fin, err, tb, ph⟩
  cases st <;> cases fin <;> cases err <;>
    simp [Worker.status, Worker.is_alive]

theorem status_failure_iff (w : Worker) :
    w.status = .Failure ↔
      w.started = true ∧ w.finished = true ∧ w.error.isSome = true := by
  rcases w with ⟨st, fin, err, tb, ph⟩
  cases st <;> cases fin <;> cases err <;>
    simp [Worker.status, Worker.is_alive]

theorem get_task_status_eq_status (s : ExecState) (n : String) (w : Worker)
    (h : workerOf s n = some w) :
    get_task_status s n = .ok w.status := by
  simp [get_task_status, h, Worker.status]

theorem get_task_status_ok_elim (s : ExecState) (n : String)
    (st : TaskStatus) (h : get_task_status s n = .ok st) :
    ∃ w, workerOf s n = some w ∧ w.status = st := by
  rcases hw : workerOf s n with _ | w
  · simp [get_task_status, hw] at h
  · refine ⟨w, rfl, ?_⟩
    have := get_task_status_eq_status s n w hw
    rw [this] at h
    exact (Except.ok.injEq _ _).mp h.symm |>.symm


/-! ### Effects of the executor's transitions on single workers -/

theorem workerOf_startWorker (s : ExecState) (m n : String) :
    workerOf (startWorker s m) n =
      if n = m then (workerOf s n).map (fun w => { w with started := true })
      else workerOf s n := by
  simpa [workerOf, startWorker] using
    dictGet_dictUpd s.workers m n (fun w => { w with started := true })

theorem workerOf_finishStep (body : String → Option String) (s : ExecState)
    (m n : String) :
    workerOf (finishStep body s m) n =
      if n = m then
        (workerOf s n).map (fun w =>
          { w with
            finished := true
            error := body m
            traceback := (body m).map (fun e => String.append "Traceback: " e) })
      else workerOf s n := by
  simpa [workerOf, finishStep] using
    dictGet_dictUpd s.workers m n (fun w =>
      { w with
        finished := true
        error := body m
        traceback := (body m).map (fun e => String.append "Traceback: " e) })

theorem workerOf_setPhase (s : ExecState) (m : String) (ph : Nat)
    (n : String) :
    workerOf (setPhase s m ph) n =
      if n = m then (workerOf s n).map (fun w => { w with phase := ph })
      else workerOf s n := by
  simpa [workerOf, setPhase] using
    dictGet_dictUpd s.workers m n (fun w => { w with phase := ph })

theorem keys_startWorker (s : ExecState) (m : String) :
    (startWorker s m).workers.map (fun p => p.1) =
      s.workers.map (fun p => p.1) := by
  simpa [startWorker] using
    map_fst_dictUpd s.workers m (fun w => { w with started := true })

theorem keys_finishStep (body : String → Option String) (s : ExecState)
    (m : String) :
    (finishStep body s m).workers.map (fun p => p.1) =
      s.workers.map (fun p => p.1) := by
  simpa [finishStep] using
    map_fst_dictUpd s.workers m (fun w =>
      { w with
        finished := true
        error := body m
        traceback := (body m).map (fun e => String.append "Traceback: " e) })

theorem keys_setPhase (s : ExecState) (m : String) (ph : Nat) :
    (setPhase s m ph).workers.map (fun p => p.1) =
      s.workers.map (fun p => p.1) := by
  simpa [setPhase] using
    map_fst_dictUpd s.workers m (fun w => { w with phase := ph })

theorem workerOf_foldl_start (l : List String) (s : ExecState) (n : String) :
    workerOf (l.foldl startWorker s) n =
      if n ∈ l then (workerOf s n).map (fun w => { w with started := true })
      else workerOf s n := by
  induction l generalizing s with
  | nil => simp
  | cons m rest ih =>
      simp only [List.foldl_cons]
      rw [ih]
      by_cases hmem : n ∈ rest
      · rw [if_pos hmem, if_pos (List.mem_cons.mpr (Or.inr hmem))]
        rw [workerOf_startWorker]
        by_cases hnm : n = m
        · rcases hw : workerOf s n with _ | w <;> simp [hnm, hw]
        · simp [hnm]
      · rw [if_neg hmem, workerOf_startWorker]
        by_cases hnm : n = m
        · simp [hnm]
        · simp [hnm, hmem]

theorem startLog_foldl_start (l : List String) (s : ExecState) :
    (l.foldl startWorker s).startLog = s.startLog ++ l := by
  induction l generalizing s with
  | nil => simp
  | cons m rest ih =>
      simp only [List.foldl_cons, ih, startWorker]
      simp

theorem log_foldl_start (l : List String) (s : ExecState) :
    (l.foldl startWorker s).log = s.log := by
  induction l generalizing s with
  | nil => rfl
  | cons m rest ih => simp only [List.foldl_cons, ih, startWorker]

theorem exec_foldl_start (l : List String) (s : ExecState) :
    (l.foldl startWorker s).execStarted = s.execStarted := by
  induction l generalizing s with
  | nil => rfl
  | cons m rest ih => simp only [List.foldl_cons, ih, startWorker]

theorem keys_foldl_start (l : List String) (s : ExecState) :
    (l.foldl startWorker s).workers.map (fun p => p.1) =
      s.workers.map (fun p => p.1) := by
  induction l generalizing s with
  | nil => rfl
  | cons m rest ih =>
      simp only [List.foldl_cons]
      rw [ih, keys_startWorker]

theorem workerOf_foldl_cases (ready : List String) (s : ExecState)
    (n : String) (w : Worker)
    (hw : workerOf (ready.foldl startWorker s) n = some w) :
    (∃ w0, workerOf s n = some w0 ∧ n ∈ ready ∧
      w = { w0 with started := true }) ∨
    (workerOf s n = some w ∧ n ∉ ready) := by
  rw [workerOf_foldl_start] at hw
  by_cases hn : n ∈ ready
  · rw [if_pos hn] at hw
    rcases hws : workerOf s n with _ | w0
    · rw [hws] at hw; cases hw
    · rw [hws] at hw
      simp only [Option.map_some'] at hw
      exact Or.inl ⟨w0, rfl, hn, (Option.some.inj hw).symm⟩
  · rw [if_neg hn] at hw
    exact Or.inr ⟨hw, hn⟩

theorem workerOf_finish_cases (body : String → Option String) (s : ExecState)
    (n0 n : String) (w : Worker)
    (hw : workerOf (finishStep body s n0) n = some w) :
    (∃ w0, workerOf s n = some w0 ∧ n = n0 ∧
      w = { w0 with
            finished := true
            error := body n0
            traceback := (body n0).map
              (fun e => String.append "Traceback: " e) }) ∨
    (workerOf s n = some w ∧ n ≠ n0) := by
  rw [workerOf_finishStep] at hw
  by_cases hn : n = n0
  · rw [if_pos hn] at hw
    rcases hws : workerOf s n with _ | w0
    · rw [hws] at hw; cases hw
    · rw [hws] at hw
      simp only [Option.map_some'] at hw
      exact Or.inl ⟨w0, rfl, hn, (Option.some.inj hw).symm⟩
  · rw [if_neg hn] at hw
    exact Or.inr ⟨hw, hn⟩

theorem workerOf_setPhase_cases (s : ExecState) (n0 : String) (ph : Nat)
    (n : String) (w : Worker)
    (hw : workerOf (setPhase s n0 ph) n = some w) :
    (∃ w0, workerOf s n = some w0 ∧ n = n0 ∧ w = { w0 with phase := ph }) ∨
    (workerOf s n = some w ∧ n ≠ n0) := by
  rw [workerOf_setPhase] at hw
  by_cases hn : n = n0
  · rw [if_pos hn] at hw
    rcases hws : workerOf s n with _ | w0
    · rw [hws] at hw; cases hw
    · rw [hws] at hw
      simp only [Option.map_some'] at hw
      exact Or.inl ⟨w0, rfl, hn, (Option.some.inj hw).symm⟩
  · rw [if_neg hn] at hw
    exact Or.inr ⟨hw, hn⟩

/-! ### Aggregate status queries -/

theorem statusList_ok_of_workers (s : ExecState) (ts : List Task)
    (h : ∀ t ∈ ts, ∃ w, workerOf s t.name = some w) :
    ∃ sts, statusList s ts = .ok sts := by
  induction ts with
  | nil => exact ⟨[], rfl⟩
  | cons t rest ih =>
      rcases h t (List.mem_cons_self t rest) with ⟨w, hw⟩
      rcases ih (fun u hu => h u (List.mem_cons_of_mem t hu)) with ⟨sts, hsts⟩
      refine ⟨w.status :: sts, ?_⟩
      simp [statusList, get_task_status_eq_status s t.name w hw, hsts]

theorem statusList_all_success (s : ExecState) (ts : List Task)
    (sts : List TaskStatus) (h : statusList s ts = .ok sts) :
    sts.all (fun x => x == TaskStatus.Success) = true ↔
      ∀ t ∈ ts, get_task_status s t.name = .ok .Success := by
  induction ts generalizing sts with
  | nil =>
      simp [statusList] at h
      subst h; simp
  | cons t rest ih =>
      rcases hst : get_task_status s t.name with e | st
      · simp [statusList, hst] at h
      · rcases hrest : statusList s rest with e | sts'
        · simp [statusList, hst, hrest] at h
        · simp only [statusList, hst, hrest] at h
          have hsts : sts = st :: sts' := by
            cases h; rfl
          subst hsts
          have ihr := ih sts' hrest
          simp only [List.all_cons, Bool.and_eq_true, List.mem_cons]
          constructor
          · rintro ⟨h1, h2⟩ u (rfl | hu)
            · rw [hst]
              have : st = TaskStatus.Success := by simpa using h1
              rw [this]
            · exact (ihr.mp h2) u hu
          · intro hall
            have ht := hall t (Or.inl rfl)
            rw [hst] at ht
            have h1 : st = TaskStatus.Success := by
              injection ht
            refine ⟨by simp [h1], ihr.mpr (fun u hu => hall u (Or.inr hu))⟩

theorem statusList_any_failure (s : ExecState) (ts : List Task)
    (sts : List TaskStatus) (h : statusList s ts = .ok sts) :
    sts.any (fun x => x == TaskStatus.Failure) = true ↔
      ∃ t ∈ ts, get_task_status s t.name = .ok .Failure := by
  induction ts generalizing sts with
  | nil =>
      simp [statusList] at h
      subst h; simp
  | cons t rest ih =>
      rcases hst : get_task_status s t.name with e | st
      · simp [statusList, hst] at h
      · rcases hrest : statusList s rest with e | sts'
        · simp [statusList, hst, hrest] at h
        · simp only [statusList, hst, hrest] at h
          have hsts : sts = st :: sts' := by
            cases h; rfl
          subst hsts
          have ihr := ih sts' hrest
          simp only [List.any_cons, Bool.or_eq_true, List.mem_cons]
          constructor
          · rintro (h1 | h2)
            · refine ⟨t, Or.inl rfl, ?_⟩
              rw [hst]
              have : st = TaskStatus.Failure := by simpa using h1
              rw [this]
            · rcases ihr.mp h2 with ⟨u, hu, hs⟩
              exact ⟨u, Or.inr hu, hs⟩
          · rintro ⟨u, (rfl | hu), hs⟩
            · rw [hst] at hs
              have h1 : st = TaskStatus.Failure := by injection hs
              exact Or.inl (by simp [h1])
            · exact Or.inr (ihr.mpr ⟨u, hu, hs⟩)

theorem if_all_ok_iff (s : ExecState) (ts : List Task) (b : Bool)
    (h : if_all_tasks_success s ts = .ok b) :
    b = true ↔ ∀ t ∈ ts, get_task_status s t.name = .ok .Success := by
  rcases hsts : statusList s ts with e | sts
  · simp [if_all_tasks_success, hsts] at h
  · simp only [if_all_tasks_success, hsts] at h
    have hb : b = sts.all (fun x => x == TaskStatus.Success) := by cases h; rfl
    subst hb
    exact statusList_all_success s ts sts hsts

theorem if_all_ok_of_workers (s : ExecState) (ts : List Task)
    (h : ∀ t ∈ ts, ∃ w, workerOf s t.name = some w) :
    ∃ b, if_all_tasks_success s ts = .ok b := by
  rcases statusList_ok_of_workers s ts h with ⟨sts, hsts⟩
  refine ⟨sts.all (fun x => x == TaskStatus.Success), ?_⟩
  simp [if_all_tasks_success, hsts]

theorem if_any_ok_iff (g : TaskGraph) (s : ExecState) (b : Bool)
    (h : if_any_failed_task g s = .ok b) :
    b = true ↔ ∃ t ∈ g.tasks, get_task_status s t.name = .ok .Failure := by
  rcases hsts : statusList s g.tasks with e | sts
  · simp [if_any_failed_task, hsts] at h
  · simp only [if_any_failed_task, hsts] at h
    have hb : b = sts.any (fun x => x == TaskStatus.Failure) := by cases h; rfl
    subst hb
    exact statusList_any_failure s g.tasks sts hsts

theorem if_any_ok_of_workers (g : TaskGraph) (s : ExecState)
    (h : ∀ t ∈ g.tasks, ∃ w, workerOf s t.name = some w) :
    ∃ b, if_any_failed_task g s = .ok b := by
  rcases statusList_ok_of_workers s g.tasks h with ⟨sts, hsts⟩
  refine ⟨sts.any (fun x => x == TaskStatus.Failure), ?_⟩
  simp [if_any_failed_task, hsts]

/-! ### Ready-set computation -/

theorem dictGet_pair_mem {α : Type} (d : List (String × α)) (k : String)
    (v : α) (h : dictGet d k = some v) : (k, v) ∈ d := by
  unfold dictGet at h
  rcases hfind : d.find? (fun p => p.1 == k) with _ | p0
  · rw [hfind] at h; simp at h
  · rw [hfind] at h
    simp at h
    have hk := List.find?_some hfind
    have hk' : p0.1 = k := by simpa using hk
    have hmem := List.mem_of_find?_eq_some hfind
    have : p0 = (k, v) := by
      rcases p0 with ⟨a, b⟩
      simp at hk' h
      simp [hk', h]
    rw [this] at hmem
    exact hmem

theorem dictGet_eq_of_mem {α : Type} (d : List (String × α)) (k : String)
    (v : α) (hnd : (d.map (fun p => p.1)).Nodup) (hmem : (k, v) ∈ d) :
    dictGet d k = some v := by
  induction d with
  | nil => simp at hmem
  | cons p rest ih =>
      rcases List.mem_cons.mp hmem with rfl | hmem'
      · simp [dictGet, List.find?_cons_of_pos]
      · have hne : p.1 ≠ k := by
          intro he
          have : k ∈ rest.map (fun q => q.1) :=
            List.mem_map.mpr ⟨(k, v), hmem', rfl⟩
          rw [List.map_cons] at hnd
          exact (List.nodup_cons.mp hnd).1 (he ▸ this)
        have hrest := ih (List.nodup_cons.mp (by simpa using hnd)).2 hmem'
        unfold dictGet at *
        rw [List.find?_cons_of_neg]
        · exact hrest
        · simp [hne]

theorem readyCond_ok_true_iff (s : ExecState) (n : String) (ws : List Task) :
    readyCond s n ws = .ok true ↔
      get_task_status s n = .ok .Waiting ∧
      if_all_tasks_success s ws = .ok true := by
  constructor
  · intro h
    rcases hst : get_task_status s n with e | st
    · simp [readyCond, hst] at h
    · cases st
      case Waiting =>
        exact ⟨rfl, by simpa [readyCond, hst] using h⟩
      case Running => simp [readyCond, hst] at h
      case Success => simp [readyCond, hst] at h
      case Failure => simp [readyCond, hst] at h
  · rintro ⟨h1, h2⟩
    simp [readyCond, h1, h2]

theorem readyCond_ok_of_workers (s : ExecState) (n : String) (ws : List Task)
    (hn : ∃ w, workerOf s n = some w)
    (hds : ∀ d ∈ ws, ∃ w, workerOf s d.name = some w) :
    ∃ b, readyCond s n ws = .ok b := by
  rcases hn with ⟨w, hw⟩
  have hst := get_task_status_eq_status s n w hw
  cases hwst : w.status
  case Waiting =>
      rcases if_all_ok_of_workers s ws hds with ⟨b, hb⟩
      exact ⟨b, by simp [readyCond, hst, hwst, hb]⟩
  case Running => exact ⟨false, by simp [readyCond, hst, hwst]⟩
  case Success => exact ⟨false, by simp [readyCond, hst, hwst]⟩
  case Failure => exact ⟨false, by simp [readyCond, hst, hwst]⟩

theorem readyFilter_mem_iff (s : ExecState) (items : List (String × List Task))
    (r : List String) (h : readyFilter s items = .ok r) (n : String) :
    n ∈ r ↔ ∃ ws, (n, ws) ∈ items ∧ get_task_status s n = .ok .Waiting ∧
      if_all_tasks_success s ws = .ok true := by
  induction items generalizing r with
  | nil =>
      simp [readyFilter] at h
      subst h; simp
  | cons p rest ih =>
      rcases p with ⟨m, ws'⟩
      rcases hc : readyCond s m ws' with e | cond
      · simp [readyFilter, hc] at h
      · rcases htail : readyFilter s rest with e | tail
        · simp [readyFilter, hc, htail] at h
        · have hr : r = if cond then m :: tail else tail := by
            simp only [readyFilter, hc, htail] at h
            exact (Except.ok.inj h).symm
          have ihr := ih tail htail
          subst hr
          constructor
          · intro hn
            cases cond with
            | true =>
                rw [if_pos rfl] at hn
                rcases List.mem_cons.mp hn with rfl | hn'
                · rcases (readyCond_ok_true_iff s n ws').mp hc with ⟨hw, ha⟩
                  exact ⟨ws', List.mem_cons_self _ _, hw, ha⟩
                · rcases ihr.mp hn' with ⟨ws, hmem, hw, ha⟩
                  exact ⟨ws, List.mem_cons_of_mem _ hmem, hw, ha⟩
            | false =>
                rw [if_neg (by simp)] at hn
                rcases ihr.mp hn with ⟨ws, hmem, hw, ha⟩
                exact ⟨ws, List.mem_cons_of_mem _ hmem, hw, ha⟩
          · rintro ⟨ws, hmem, hw, ha⟩
            rcases List.mem_cons.mp hmem with he | hmem'
            · have hn : n = m := congrArg Prod.fst he
              have hws : ws = ws' := congrArg Prod.snd he
              subst hn; subst hws
              have : readyCond s n ws = .ok true :=
                (readyCond_ok_true_iff s n ws).mpr ⟨hw, ha⟩
              rw [this] at hc
              have hcond : cond = true := (Except.ok.inj hc).symm
              subst hcond
              simp
            · have hn' := ihr.mpr ⟨ws, hmem', hw, ha⟩
              cases cond <;> simp [hn']

theorem readyFilter_sublist (s : ExecState)
    (items : List (String × List Task)) (r : List String)
    (h : readyFilter s items = .ok r) :
    r.Sublist (items.map (fun p => p.1)) := by
  induction items generalizing r with
  | nil =>
      simp [readyFilter] at h
      subst h; simp
  | cons p rest ih =>
      rcases p with ⟨m, ws'⟩
      rcases hc : readyCond s m ws' with e | cond
      · simp [readyFilter, hc] at h
      · rcases htail : readyFilter s rest with e | tail
        · simp [readyFilter, hc, htail] at h
        · have hr : r = if cond then m :: tail else tail := by
            simp only [readyFilter, hc, htail] at h
            exact (Except.ok.inj h).symm
          subst hr
          have ihr := ih tail htail
          cases cond with
          | true => simpa using List.Sublist.cons₂ m ihr
          | false => simpa using List.Sublist.cons m ihr

theorem readyFilter_ok_of_workers (s : ExecState)
    (items : List (String × List Task))
    (h : ∀ p ∈ items, (∃ w, workerOf s p.1 = some w) ∧
         ∀ d ∈ p.2, ∃ w, workerOf s d.name = some w) :
    ∃ r, readyFilter s items = .ok r := by
  induction items with
  | nil => exact ⟨[], rfl⟩
  | cons p rest ih =>
      rcases p with ⟨m, ws'⟩
      rcases h (m, ws') (List.mem_cons_self _ _) with ⟨hm, hds⟩
      rcases ih (fun q hq => h q (List.mem_cons_of_mem _ hq)) with ⟨tail, htail⟩
      rcases readyCond_ok_of_workers s m ws' hm hds with ⟨b, hb⟩
      exact ⟨if b then m :: tail else tail, by simp [readyFilter, hb, htail]⟩

/-! ### Status preservation under the lock-section fold -/

theorem worker_exists_of_name (s : ExecState) (g : TaskGraph)
    (hkeys : s.workers.map (fun p => p.1) = g.names) (n : String)
    (hn : n ∈ g.names) : ∃ w, workerOf s n = some w :=
  dictGet_some_of_mem_keys s.workers n (by rw [hkeys]; exact hn)

theorem status_setPhase (s : ExecState) (m : String) (ph : Nat) (n : String) :
    get_task_status (setPhase s m ph) n = get_task_status s n := by
  rw [get_task_status, get_task_status, workerOf_setPhase]
  by_cases h : n = m
  · subst h
    rcases workerOf s n with _ | w
    · simp
    · simp [Worker.is_alive]
  · rw [if_neg h]

theorem status_foldl_not_mem (ready : List String) (s : ExecState)
    (n : String) (h : n ∉ ready) :
    get_task_status (ready.foldl startWorker s) n = get_task_status s n := by
  rw [get_task_status, get_task_status, workerOf_foldl_start, if_neg h]

theorem status_foldl_mem (ready : List String) (s : ExecState) (n : String)
    (w : Worker) (h : n ∈ ready) (hw : workerOf s n = some w)
    (hnf : w.finished = false) :
    get_task_status (ready.foldl startWorker s) n = .ok .Running := by
  rw [get_task_status, workerOf_foldl_start, if_pos h, hw]
  simp [Worker.is_alive, hnf]

theorem success_foldl_iff (ready : List String) (s : ExecState) (n : String)
    (hready : ∀ m ∈ ready, get_task_status s m = .ok .Waiting)
    (hfs : ∀ m w, workerOf s m = some w → w.finished = true →
      w.started = true) :
    get_task_status (ready.foldl startWorker s) n = .ok .Success ↔
      get_task_status s n = .ok .Success := by
  by_cases h : n ∈ ready
  · have hwait := hready n h
    rcases get_task_status_ok_elim s n _ hwait with ⟨w, hw, hst⟩
    have hnst : w.started = false := (status_waiting_iff w).mp hst
    have hnf : w.finished = false := by
      by_contra hc
      rw [Bool.not_eq_false] at hc
      rw [hfs n w hw hc] at hnst
      cases hnst
    rw [status_foldl_mem ready s n w h hw hnf, hwait]
    constructor <;> intro hx <;> cases hx
  · rw [status_foldl_not_mem ready s n h]

theorem failure_foldl_iff (ready : List String) (s : ExecState) (n : String)
    (hready : ∀ m ∈ ready, get_task_status s m = .ok .Waiting)
    (hfs : ∀ m w, workerOf s m = some w → w.finished = true →
      w.started = true) :
    get_task_status (ready.foldl startWorker s) n = .ok .Failure ↔
      get_task_status s n = .ok .Failure := by
  by_cases h : n ∈ ready
  · have hwait := hready n h
    rcases get_task_status_ok_elim s n _ hwait with ⟨w, hw, hst⟩
    have hnst : w.started = false := (status_waiting_iff w).mp hst
    have hnf : w.finished = false := by
      by_contra hc
      rw [Bool.not_eq_false] at hc
      rw [hfs n w hw hc] at hnst
      cases hnst
    rw [status_foldl_mem ready s n w h hw hnf, hwait]
    constructor <;> intro hx <;> cases hx
  · rw [status_foldl_not_mem ready s n h]

theorem waiting_foldl (ready : List String) (s : ExecState) (n : String)
    (hready : ∀ m ∈ ready, get_task_status s m = .ok .Waiting)
    (hfs : ∀ m w, workerOf s m = some w → w.finished = true →
      w.started = true)
    (h : get_task_status (ready.foldl startWorker s) n = .ok .Waiting) :
    n ∉ ready ∧ get_task_status s n = .ok .Waiting := by
  by_cases hmem : n ∈ ready
  · have hwait := hready n hmem
    rcases get_task_status_ok_elim s n _ hwait with ⟨w, hw, hst⟩
    have hnst : w.started = false := (status_waiting_iff w).mp hst
    have hnf : w.finished = false := by
      by_contra hc
      rw [Bool.not_eq_false] at hc
      rw [hfs n w hw hc] at hnst
      cases hnst
    rw [status_foldl_mem ready s n w hmem hw hnf] at h
    cases h
  · rw [status_foldl_not_mem ready s n hmem] at h
    exact ⟨hmem, h⟩

/-! ### The lock-protected section -/

theorem startReady_spec (g : TaskGraph) (s : ExecState) (hwf : g.WF)
    (hkeys : s.workers.map (fun p => p.1) = g.names) :
    ∃ ready, get_tasks_ready_to_run g s = .ok ready ∧
      startReady g s = .ok (ready.foldl startWorker s) ∧
      ready.Nodup ∧
      (∀ n, n ∈ ready ↔ ∃ ws, g.depsOf n = some ws ∧
        get_task_status s n = .ok .Waiting ∧
        if_all_tasks_success s ws = .ok true) := by
  have hkeysnd : (g.task2waiting_for.map (fun p => p.1)).Nodup := by
    rw [hwf.keys]; exact hwf.nodup
  have hworkers : ∀ p ∈ g.task2waiting_for,
      (∃ w, workerOf s p.1 = some w) ∧
      ∀ d ∈ p.2, ∃ w, workerOf s d.name = some w := by
    intro p hp
    constructor
    · apply worker_exists_of_name s g hkeys
      rw [← hwf.keys]
      exact List.mem_map.mpr ⟨p, hp, rfl⟩
    · intro d hd
      apply worker_exists_of_name s g hkeys
      have hdget : g.depsOf p.1 = some p.2 :=
        dictGet_eq_of_mem g.task2waiting_for p.1 p.2 hkeysnd hp
      exact hwf.deps_registered p.1 p.2 hdget d hd
  rcases readyFilter_ok_of_workers s g.task2waiting_for hworkers
    with ⟨ready, hready⟩
  refine ⟨ready, hready, ?_, ?_, ?_⟩
  · rw [startReady, get_tasks_ready_to_run, hready]
  · exact (readyFilter_sublist s _ ready hready).nodup
      (by rw [hwf.keys]; exact hwf.nodup)
  · intro n
    rw [readyFilter_mem_iff s _ ready hready n]
    constructor
    · rintro ⟨ws, hmem, hw, ha⟩
      exact ⟨ws, dictGet_eq_of_mem _ _ _ hkeysnd hmem, hw, ha⟩
    · rintro ⟨ws, hget, hw, ha⟩
      exact ⟨ws, dictGet_pair_mem _ _ _ hget, hw, ha⟩

theorem no_ready_after_fold (g : TaskGraph) (s : ExecState)
    (ready : List String)
    (hfs : ∀ m w, workerOf s m = some w → w.finished = true →
      w.started = true)
    (hkeys : s.workers.map (fun p => p.1) = g.names)
    (hdr : ∀ n ds, g.depsOf n = some ds → ∀ d ∈ ds, d.name ∈ g.names)
    (hmem : ∀ n, n ∈ ready ↔ ∃ ws, g.depsOf n = some ws ∧
      get_task_status s n = .ok .Waiting ∧
      if_all_tasks_success s ws = .ok true)
    (n : String) (ds : List Task) (hds : g.depsOf n = some ds)
    (hwait : get_task_status (ready.foldl startWorker s) n = .ok .Waiting)
    (hsucc : ∀ d ∈ ds, get_task_status (ready.foldl startWorker s) d.name =
      .ok .Success) :
    False := by
  have hready : ∀ m ∈ ready, get_task_status s m = .ok .Waiting := by
    intro m hm
    rcases (hmem m).mp hm with ⟨ws, _, hw, _⟩
    exact hw
  rcases waiting_foldl ready s n hready hfs hwait with ⟨hnot, hwaits⟩
  have hsuccs : ∀ d ∈ ds, get_task_status s d.name = .ok .Success := by
    intro d hd
    exact (success_foldl_iff ready s d.name hready hfs).mp (hsucc d hd)
  have hall : if_all_tasks_success s ds = .ok true := by
    have hok : ∃ b, if_all_tasks_success s ds = .ok b := by
      apply if_all_ok_of_workers
      intro d hd
      exact worker_exists_of_name s g hkeys d.name (hdr n ds hds d hd)
    rcases hok with ⟨b, hb⟩
    have := (if_all_ok_iff s ds b hb).mpr hsuccs
    rw [this] at hb
    exact hb
  exact hnot ((hmem n).mpr ⟨ds, hds, hwaits, hall⟩)


theorem exec_started_of_worker (g : TaskGraph) (body : String → Option String)
    (hasCb : Bool) (s : ExecState) (hinv : Inv g body hasCb s)
    (n : String) (w : Worker) (hw : workerOf s n = some w)
    (hst : w.started = true) : s.execStarted = true := by
  by_contra h
  rw [Bool.not_eq_true] at h
  have hfresh := (hinv.fresh_not_started h).1 n w hw
  rw [hfresh] at hst
  simp [Worker.fresh] at hst

theorem started_deps_fold (g : TaskGraph) (body : String → Option String)
    (hasCb : Bool) (s : ExecState) (hinv : Inv g body hasCb s)
    (ready : List String)
    (hmem : ∀ n, n ∈ ready ↔ ∃ ws, g.depsOf n = some ws ∧
      get_task_status s n = .ok .Waiting ∧
      if_all_tasks_success s ws = .ok true) :
    ∀ n w, workerOf (ready.foldl startWorker s) n = some w →
      w.started = true → ∀ ds, g.depsOf n = some ds → ∀ d ∈ ds,
      get_task_status (ready.foldl startWorker s) d.name = .ok .Success := by
  have hready : ∀ m ∈ ready, get_task_status s m = .ok .Waiting := by
    intro m hm
    rcases (hmem m).mp hm with ⟨ws, _, hw, _⟩
    exact hw
  intro n w hw hst ds hds d hd
  rw [workerOf_foldl_start] at hw
  have hsucc_s : get_task_status s d.name = .ok .Success := by
    by_cases hn : n ∈ ready
    · rcases (hmem n).mp hn with ⟨ws, hws, _, hall⟩
      rw [hds] at hws
      have hws' : ws = ds := (Option.some.inj hws).symm
      subst hws'
      exact (if_all_ok_iff s ws true hall).mp rfl d hd
    · rw [if_neg hn] at hw
      exact hinv.started_deps n w hw hst ds hds d hd
  exact (success_foldl_iff ready s d.name hready hinv.fin_start).mpr hsucc_s

theorem start_count_fold (g : TaskGraph) (body : String → Option String)
    (hasCb : Bool) (s : ExecState) (hinv : Inv g body hasCb s)
    (ready : List String) (hnodup : ready.Nodup)
    (hmem : ∀ n, n ∈ ready ↔ ∃ ws, g.depsOf n = some ws ∧
      get_task_status s n = .ok .Waiting ∧
      if_all_tasks_success s ws = .ok true) :
    (∀ n w, workerOf (ready.foldl startWorker s) n = some w →
      (ready.foldl startWorker s).startLog.count n =
        (if w.started then 1 else 0)) ∧
    (∀ n, workerOf (ready.foldl startWorker s) n = none →
      (ready.foldl startWorker s).startLog.count n = 0) := by
  constructor
  · intro n w hw
    rw [startLog_foldl_start, List.count_append]
    rcases workerOf_foldl_cases ready s n w hw with
      ⟨w0, hws, hn, rfl⟩ | ⟨hws, hn⟩
    · rcases (hmem n).mp hn with ⟨ws, _, hwait, _⟩
      rcases get_task_status_ok_elim s n _ hwait with ⟨w1, hww1, hwst⟩
      rw [hws] at hww1
      have hw1 : w1 = w0 := (Option.some.inj hww1).symm
      subst hw1
      have hnst : w1.started = false := (status_waiting_iff w1).mp hwst
      rw [hinv.start_count n w1 hws, hnst,
        List.count_eq_one_of_mem hnodup hn]
      simp
    · rw [hinv.start_count n w hws, List.count_eq_zero_of_not_mem hn]
      simp
  · intro n hw
    rw [workerOf_foldl_start] at hw
    by_cases hn : n ∈ ready
    · rw [if_pos hn] at hw
      rcases (hmem n).mp hn with ⟨ws, _, hwait, _⟩
      rcases get_task_status_ok_elim s n _ hwait with ⟨w1, hww1, _⟩
      rw [hww1] at hw
      cases hw
    · rw [if_neg hn] at hw
      rw [startLog_foldl_start, List.count_append,
        hinv.start_count_none n hw, List.count_eq_zero_of_not_mem hn]


theorem inv_step_startExec (g : TaskGraph) (body : String → Option String)
    (hasCb : Bool) (hwf : g.WF) (s s' : ExecState)
    (hinv : Inv g body hasCb s) (hexec : s.execStarted = false)
    (heq : start_execution g s = .ok s') : Inv g body hasCb s' := by
  rcases startReady_spec g s hwf hinv.keys with
    ⟨ready, hready, hsr, hnodup, hmem⟩
  rw [start_execution, hsr] at heq
  have hs' : s' = { ready.foldl startWorker s with execStarted := true } :=
    (Except.ok.inj heq).symm
  subst hs'
  rcases hinv.fresh_not_started hexec with ⟨hfresh, hsl, hlg⟩
  have hlog : ({ ready.foldl startWorker s with
      execStarted := true } : ExecState).log = s.log := log_foldl_start ready s
  refine
    { keys := ?_, fresh_not_started := ?_, fin_start := ?_, phase_fin := ?_
      phase_le := ?_, err_fin := ?_, err_not_fin := ?_, started_deps := ?_
      start_count := ?_, start_count_none := ?_, log_no_cb := ?_
      log_false_sound := ?_, log_true_sound := ?_, false_complete := ?_
      true_complete := ?_, ready_pending := ?_ }
  · show (ready.foldl startWorker s).workers.map (fun p => p.1) = g.names
    rw [keys_foldl_start]
    exact hinv.keys
  · intro h
    simp at h
  · intro n w hw hfin
    rcases workerOf_foldl_cases ready s n w hw with ⟨w0, _, _, rfl⟩ | ⟨hws, _⟩
    · rfl
    · exact hinv.fin_start n w hws hfin
  · intro n w hw hph
    rcases workerOf_foldl_cases ready s n w hw with
      ⟨w0, hws, _, rfl⟩ | ⟨hws, _⟩
    · exact hinv.phase_fin n w0 hws hph
    · exact hinv.phase_fin n w hws hph
  · intro n w hw
    rcases workerOf_foldl_cases ready s n w hw with
      ⟨w0, hws, _, rfl⟩ | ⟨hws, _⟩
    · exact hinv.phase_le n w0 hws
    · exact hinv.phase_le n w hws
  · intro n w hw hfin
    rcases workerOf_foldl_cases ready s n w hw with
      ⟨w0, hws, _, rfl⟩ | ⟨hws, _⟩
    · exact hinv.err_fin n w0 hws hfin
    · exact hinv.err_fin n w hws hfin
  · intro n w hw hfin
    rcases workerOf_foldl_cases ready s n w hw with
      ⟨w0, hws, _, rfl⟩ | ⟨hws, _⟩
    · exact hinv.err_not_fin n w0 hws hfin
    · exact hinv.err_not_fin n w hws hfin
  · exact started_deps_fold g body hasCb s hinv ready hmem
  · exact (start_count_fold g body hasCb s hinv ready hnodup hmem).1
  · exact (start_count_fold g body hasCb s hinv ready hnodup hmem).2
  · intro hcb
    rw [hlog]
    exact hinv.log_no_cb hcb
  · intro hb
    rw [hlog, hlg] at hb
    simp at hb
  · intro hb
    rw [hlog, hlg] at hb
    simp at hb
  · intro hcb n w hw herr hph
    rcases workerOf_foldl_cases ready s n w hw with
      ⟨w0, hws, _, rfl⟩ | ⟨hws, _⟩
    · rw [hfresh n w0 hws] at hph
      simp [Worker.fresh] at hph
    · rw [hfresh n w hws] at hph
      simp [Worker.fresh] at hph
  · intro hcb hne hsucc hph
    rcases List.exists_mem_of_ne_nil g.tasks hne with ⟨t, ht⟩
    have hnm : t.name ∈ g.names := List.mem_map.mpr ⟨t, ht, rfl⟩
    have hkeys' : ({ ready.foldl startWorker s with
        execStarted := true } : ExecState).workers.map (fun p => p.1) =
        g.names := by
      show (ready.foldl startWorker s).workers.map (fun p => p.1) = g.names
      rw [keys_foldl_start]; exact hinv.keys
    rcases worker_exists_of_name _ g hkeys' t.name hnm with ⟨w, hw⟩
    have := hph t.name w hw
    rcases workerOf_foldl_cases ready s t.name w hw with
      ⟨w0, hws, _, rfl⟩ | ⟨hws, _⟩
    · rw [hfresh t.name w0 hws] at this
      simp [Worker.fresh] at this
    · rw [hfresh t.name w hws] at this
      simp [Worker.fresh] at this
  · intro _ n w hw hnst ds hds hsucc
    exfalso
    have hwait : get_task_status (ready.foldl startWorker s) n =
        .ok .Waiting := by
      have h2 := get_task_status_eq_status _ n w hw
      rw [(status_waiting_iff w).mpr hnst] at h2
      exact h2
    exact no_ready_after_fold g s ready hinv.fin_start hinv.keys
      hwf.deps_registered hmem n ds hds hwait hsucc


theorem inv_step_finish (g : TaskGraph) (body : String → Option String)
    (hasCb : Bool) (s : ExecState) (hinv : Inv g body hasCb s)
    (n0 : String) (w0 : Worker) (hw0 : workerOf s n0 = some w0)
    (hst0 : w0.started = true) (hnf0 : w0.finished = false) :
    Inv g body hasCb (finishStep body s n0) := by
  have hexec : s.execStarted = true :=
    exec_started_of_worker g body hasCb s hinv n0 w0 hw0 hst0
  have hrun : get_task_status s n0 = .ok .Running := by
    rw [get_task_status_eq_status s n0 w0 hw0,
      (status_running_iff w0).mpr ⟨hst0, hnf0⟩]
  have hph0 : w0.phase = 0 := by
    by_contra h
    have := hinv.phase_fin n0 w0 hw0 (Nat.pos_of_ne_zero h)
    rw [this] at hnf0
    cases hnf0
  have hos : ∀ m, m ≠ n0 →
      get_task_status (finishStep body s n0) m = get_task_status s m := by
    intro m hm
    rw [get_task_status, get_task_status, workerOf_finishStep, if_neg hm]
  have hpresS : ∀ m, get_task_status s m = .ok .Success →
      get_task_status (finishStep body s n0) m = .ok .Success := by
    intro m hsm
    by_cases hm : m = n0
    · subst hm
      rw [hrun] at hsm
      cases hsm
    · rw [hos m hm]
      exact hsm
  have hpresF : ∀ m, get_task_status s m = .ok .Failure →
      get_task_status (finishStep body s n0) m = .ok .Failure := by
    intro m hsm
    by_cases hm : m = n0
    · subst hm
      rw [hrun] at hsm
      cases hsm
    · rw [hos m hm]
      exact hsm
  have hwn0 : workerOf (finishStep body s n0) n0 =
      some { w0 with
             finished := true
             error := body n0
             traceback := (body n0).map
               (fun e => String.append "Traceback: " e) } := by
    rw [workerOf_finishStep, if_pos rfl, hw0]
    rfl
  refine
    { keys := ?_, fresh_not_started := ?_, fin_start := ?_, phase_fin := ?_
      phase_le := ?_, err_fin := ?_, err_not_fin := ?_, started_deps := ?_
      start_count := ?_, start_count_none := ?_, log_no_cb := ?_
      log_false_sound := ?_, log_true_sound := ?_, false_complete := ?_
      true_complete := ?_, ready_pending := ?_ }
  · rw [keys_finishStep]
    exact hinv.keys
  · intro h
    rw [show (finishStep body s n0).execStarted = s.execStarted from rfl,
      hexec] at h
    cases h
  · intro n w hw hfin
    rcases workerOf_finish_cases body s n0 n w hw with
      ⟨w1, hws, rfl, rfl⟩ | ⟨hws, _⟩
    · rw [hws] at hw0
      have : w1 = w0 := Option.some.inj hw0
      subst this
      exact hst0
    · exact hinv.fin_start n w hws hfin
  · intro n w hw hph
    rcases workerOf_finish_cases body s n0 n w hw with
      ⟨w1, hws, rfl, rfl⟩ | ⟨hws, _⟩
    · rfl
    · exact hinv.phase_fin n w hws hph
  · intro n w hw
    rcases workerOf_finish_cases body s n0 n w hw with
      ⟨w1, hws, rfl, rfl⟩ | ⟨hws, _⟩
    · exact hinv.phase_le n w1 hws
    · exact hinv.phase_le n w hws
  · intro n w hw hfin
    rcases workerOf_finish_cases body s n0 n w hw with
      ⟨w1, hws, rfl, rfl⟩ | ⟨hws, hn⟩
    · exact ⟨rfl, rfl⟩
    · exact hinv.err_fin n w hws hfin
  · intro n w hw hfin
    rcases workerOf_finish_cases body s n0 n w hw with
      ⟨w1, hws, rfl, rfl⟩ | ⟨hws, hn⟩
    · cases hfin
    · exact hinv.err_not_fin n w hws hfin
  · intro n w hw hst ds hds d hd
    rcases workerOf_finish_cases body s n0 n w hw with
      ⟨w1, hws, rfl, rfl⟩ | ⟨hws, hn⟩
    · rw [hws] at hw0
      have : w1 = w0 := Option.some.inj hw0
      subst this
      exact hpresS d.name (hinv.started_deps n w1 hws hst0 ds hds d hd)
    · exact hpresS d.name (hinv.started_deps n w hws hst ds hds d hd)
  · intro n w hw
    rcases workerOf_finish_cases body s n0 n w hw with
      ⟨w1, hws, rfl, rfl⟩ | ⟨hws, hn⟩
    · rw [show (finishStep body s n).startLog = s.startLog from rfl]
      exact hinv.start_count n w1 hws
    · rw [show (finishStep body s n0).startLog = s.startLog from rfl]
      exact hinv.start_count n w hws
  · intro n hw
    rw [workerOf_finishStep] at hw
    rw [show (finishStep body s n0).startLog = s.startLog from rfl]
    by_cases hn : n = n0
    · rw [if_pos hn] at hw
      subst hn
      rw [hw0] at hw
      cases hw
    · rw [if_neg hn] at hw
      exact hinv.start_count_none n hw
  · intro hcb
    exact hinv.log_no_cb hcb
  · intro hb
    rcases hinv.log_false_sound hb with ⟨m, hm⟩
    exact ⟨m, hpresF m hm⟩
  · intro hb t ht
    exact hpresS t.name (hinv.log_true_sound hb t ht)
  · intro hcb n w hw herr hph
    rcases workerOf_finish_cases body s n0 n w hw with
      ⟨w1, hws, rfl, rfl⟩ | ⟨hws, hn⟩
    · rw [hws] at hw0
      have he : w1 = w0 := Option.some.inj hw0
      subst he
      simp only [] at hph
      rw [hph0] at hph
      cases hph
    · exact hinv.false_complete hcb n w hws herr hph
  · intro hcb hne hsucc hph
    have := hph n0 _ hwn0
    simp only [] at this
    rw [hph0] at this
    cases this
  · intro _ n w hw hnst ds hds hsucc
    refine ⟨n0, _, hwn0, rfl, ?_⟩
    show w0.phase < 3
    rw [hph0]
    exact Nat.zero_lt_succ 2


theorem inv_watcher_phase (g : TaskGraph) (body : String → Option String)
    (hasCb : Bool) (s : ExecState) (hinv : Inv g body hasCb s)
    (n0 : String) (w0 : Worker) (hw0 : workerOf s n0 = some w0)
    (hfin0 : w0.finished = true) (ph : Nat) (hple : ph ≤ 3)
    (_hphpos : 0 < ph) (hphlt : ph < 3) (app : List Bool)
    (happF : false ∈ app → ∃ m, get_task_status s m = .ok .Failure)
    (happT : true ∈ app →
      ∀ t ∈ g.tasks, get_task_status s t.name = .ok .Success)
    (happCb : hasCb = false → app = [])
    (hfc : hasCb = true → w0.error.isSome = true → false ∈ s.log ++ app)
    (htc : hasCb = true →
      (∀ t ∈ g.tasks, get_task_status s t.name = .ok .Success) →
      2 ≤ ph → true ∈ s.log ++ app) :
    Inv g body hasCb { setPhase s n0 ph with log := s.log ++ app } := by
  have hexec : s.execStarted = true :=
    exec_started_of_worker g body hasCb s hinv n0 w0 hw0
      (hinv.fin_start n0 w0 hw0 hfin0)
  have hstat : ∀ m, get_task_status
      ({ setPhase s n0 ph with log := s.log ++ app } : ExecState) m =
      get_task_status s m := by
    intro m
    have h1 : get_task_status
        ({ setPhase s n0 ph with log := s.log ++ app } : ExecState) m =
        get_task_status (setPhase s n0 ph) m := rfl
    rw [h1, status_setPhase]
  have hwn0 : workerOf
      ({ setPhase s n0 ph with log := s.log ++ app } : ExecState) n0 =
      some { w0 with phase := ph } := by
    show workerOf (setPhase s n0 ph) n0 = _
    rw [workerOf_setPhase, if_pos rfl, hw0]
    rfl
  refine
    { keys := ?_, fresh_not_started := ?_, fin_start := ?_, phase_fin := ?_
      phase_le := ?_, err_fin := ?_, err_not_fin := ?_, started_deps := ?_
      start_count := ?_, start_count_none := ?_, log_no_cb := ?_
      log_false_sound := ?_, log_true_sound := ?_, false_complete := ?_
      true_complete := ?_, ready_pending := ?_ }
  · show (setPhase s n0 ph).workers.map (fun p => p.1) = g.names
    rw [keys_setPhase]
    exact hinv.keys
  · intro h
    rw [show ({ setPhase s n0 ph with log := s.log ++ app } :
      ExecState).execStarted = s.execStarted from rfl, hexec] at h
    cases h
  · intro n w hw hfin
    rcases workerOf_setPhase_cases s n0 ph n w hw with
      ⟨w1, hws, rfl, rfl⟩ | ⟨hws, _⟩
    · exact hinv.fin_start n w1 hws hfin
    · exact hinv.fin_start n w hws hfin
  · intro n w hw hph
    rcases workerOf_setPhase_cases s n0 ph n w hw with
      ⟨w1, hws, rfl, rfl⟩ | ⟨hws, _⟩
    · rw [hws] at hw0
      have he : w1 = w0 := Option.some.inj hw0
      subst he
      exact hfin0
    · exact hinv.phase_fin n w hws hph
  · intro n w hw
    rcases workerOf_setPhase_cases s n0 ph n w hw with
      ⟨w1, hws, rfl, rfl⟩ | ⟨hws, _⟩
    · exact hple
    · exact hinv.phase_le n w hws
  · intro n w hw hfin
    rcases workerOf_setPhase_cases s n0 ph n w hw with
      ⟨w1, hws, rfl, rfl⟩ | ⟨hws, _⟩
    · exact hinv.err_fin n w1 hws hfin
    · exact hinv.err_fin n w hws hfin
  · intro n w hw hfin
    rcases workerOf_setPhase_cases s n0 ph n w hw with
      ⟨w1, hws, rfl, rfl⟩ | ⟨hws, _⟩
    · exact hinv.err_not_fin n w1 hws hfin
    · exact hinv.err_not_fin n w hws hfin
  · intro n w hw hst ds hds d hd
    rw [hstat d.name]
    rcases workerOf_setPhase_cases s n0 ph n w hw with
      ⟨w1, hws, rfl, rfl⟩ | ⟨hws, _⟩
    · exact hinv.started_deps n w1 hws hst ds hds d hd
    · exact hinv.started_deps n w hws hst ds hds d hd
  · intro n w hw
    rw [show ({ setPhase s n0 ph with log := s.log ++ app } :
      ExecState).startLog = s.startLog from rfl]
    rcases workerOf_setPhase_cases s n0 ph n w hw with
      ⟨w1, hws, rfl, rfl⟩ | ⟨hws, _⟩
    · exact hinv.start_count n w1 hws
    · exact hinv.start_count n w hws
  · intro n hw
    rw [show ({ setPhase s n0 ph with log := s.log ++ app } :
      ExecState).startLog = s.startLog from rfl]
    have hw' : workerOf s n = none := by
      have h1 : workerOf ({ setPhase s n0 ph with log := s.log ++ app } :
        ExecState) n = workerOf (setPhase s n0 ph) n := rfl
      rw [h1, workerOf_setPhase] at hw
      by_cases hn : n = n0
      · rw [if_pos hn] at hw
        rcases hws : workerOf s n with _ | w1
        · rfl
        · rw [hws] at hw
          cases hw
      · rw [if_neg hn] at hw
        exact hw
    exact hinv.start_count_none n hw'
  · intro hcb
    rw [show ({ setPhase s n0 ph with log := s.log ++ app } :
      ExecState).log = s.log ++ app from rfl, hinv.log_no_cb hcb,
      happCb hcb]
    rfl
  · intro hb
    rw [show ({ setPhase s n0 ph with log := s.log ++ app } :
      ExecState).log = s.log ++ app from rfl] at hb
    rcases List.mem_append.mp hb with hb | hb
    · rcases hinv.log_false_sound hb with ⟨m, hm⟩
      exact ⟨m, by rw [hstat m]; exact hm⟩
    · rcases happF hb with ⟨m, hm⟩
      exact ⟨m, by rw [hstat m]; exact hm⟩
  · intro hb t ht
    rw [show ({ setPhase s n0 ph with log := s.log ++ app } :
      ExecState).log = s.log ++ app from rfl] at hb
    rw [hstat t.name]
    rcases List.mem_append.mp hb with hb | hb
    · exact hinv.log_true_sound hb t ht
    · exact happT hb t ht
  · intro hcb n w hw herr hph'
    show false ∈ s.log ++ app
    rcases workerOf_setPhase_cases s n0 ph n w hw with
      ⟨w1, hws, rfl, rfl⟩ | ⟨hws, _⟩
    · rw [hws] at hw0
      have he : w1 = w0 := Option.some.inj hw0
      subst he
      exact hfc hcb herr
    · exact List.mem_append.mpr
        (Or.inl (hinv.false_complete hcb n w hws herr hph'))
  · intro hcb hne hsucc hph'
    show true ∈ s.log ++ app
    have hsuccs : ∀ t ∈ g.tasks, get_task_status s t.name = .ok .Success := by
      intro t ht
      rw [← hstat t.name]
      exact hsucc t ht
    have h2 := hph' n0 _ hwn0
    exact htc hcb hsuccs h2
  · intro _ n w hw hnst ds hds hsucc
    exact ⟨n0, _, hwn0, hfin0, hphlt⟩

theorem name_task_of_worker (g : TaskGraph) (s : ExecState)
    (hkeys : s.workers.map (fun p => p.1) = g.names) (n : String)
    (w : Worker) (hw : workerOf s n = some w) :
    ∃ t ∈ g.tasks, t.name = n := by
  have hmem : n ∈ g.names := by
    rw [← hkeys]
    exact List.mem_map.mpr ⟨(n, w), dictGet_pair_mem s.workers n w hw, rfl⟩
  rcases List.mem_map.mp hmem with ⟨t, ht, hn⟩
  exact ⟨t, ht, hn⟩

theorem inv_step_failCheck (g : TaskGraph) (body : String → Option String)
    (hasCb : Bool) (s s' : ExecState) (hinv : Inv g body hasCb s)
    (n0 : String) (w0 : Worker) (hw0 : workerOf s n0 = some w0)
    (hfin0 : w0.finished = true) (_hph0 : w0.phase = 0)
    (heq : failCheckStep g hasCb s n0 = .ok s') : Inv g body hasCb s' := by
  rcases hb : if_any_failed_task g s with e | b
  · rw [failCheckStep, hb] at heq
    cases heq
  · rw [failCheckStep, hb] at heq
    have hs' := (Except.ok.inj heq).symm
    have hfail0 : w0.error.isSome = true → get_task_status s n0 = .ok .Failure := by
      intro herr
      rw [get_task_status_eq_status s n0 w0 hw0,
        (status_failure_iff w0).mpr ⟨hinv.fin_start n0 w0 hw0 hfin0, hfin0, herr⟩]
    have hbtrue : w0.error.isSome = true → b = true := by
      intro herr
      rcases name_task_of_worker g s hinv.keys n0 w0 hw0 with ⟨t, ht, hn⟩
      exact (if_any_ok_iff g s b hb).mpr ⟨t, ht, by rw [hn]; exact hfail0 herr⟩
    by_cases hbb : (b && hasCb) = true
    · rw [if_pos hbb] at hs'
      subst hs'
      exact inv_watcher_phase g body hasCb s hinv n0 w0 hw0 hfin0 1
        (by omega) (by omega) (by omega) [false]
        (fun _ => by
          rcases (if_any_ok_iff g s b hb).mp
            ((Bool.and_eq_true b hasCb).mp hbb).1 with ⟨t, _, hf⟩
          exact ⟨t.name, hf⟩)
        (fun hmem => by simp at hmem)
        (fun hcb => by
          rw [hcb] at hbb
          simp at hbb)
        (fun _ _ => List.mem_append.mpr (Or.inr (by simp)))
        (fun _ _ h2 => by omega)
    · rw [if_neg hbb] at hs'
      subst hs'
      have heqs : ({ setPhase s n0 1 with log := s.log ++ [] } : ExecState) =
          setPhase s n0 1 := by
        rw [List.append_nil]
        rfl
      rw [← heqs]
      exact inv_watcher_phase g body hasCb s hinv n0 w0 hw0 hfin0 1
        (by omega) (by omega) (by omega) []
        (fun hmem => by simp at hmem)
        (fun hmem => by simp at hmem)
        (fun _ => rfl)
        (fun hcb herr => by
          rw [hbtrue herr, hcb] at hbb
          simp at hbb)
        (fun _ _ h2 => by omega)

theorem inv_step_succCheck (g : TaskGraph) (body : String → Option String)
    (hasCb : Bool) (s s' : ExecState) (hinv : Inv g body hasCb s)
    (n0 : String) (w0 : Worker) (hw0 : workerOf s n0 = some w0)
    (hfin0 : w0.finished = true) (hph0 : w0.phase = 1)
    (heq : succCheckStep g hasCb s n0 = .ok s') : Inv g body hasCb s' := by
  rcases hb : if_all_tasks_success s g.tasks with e | b
  · rw [succCheckStep, hb] at heq
    cases heq
  · rw [succCheckStep, hb] at heq
    have hs' := (Except.ok.inj heq).symm
    have hfc0 : hasCb = true → w0.error.isSome = true → false ∈ s.log := by
      intro hcb herr
      exact hinv.false_complete hcb n0 w0 hw0 herr (by omega)
    by_cases hbb : (b && hasCb) = true
    · rw [if_pos hbb] at hs'
      subst hs'
      exact inv_watcher_phase g body hasCb s hinv n0 w0 hw0 hfin0 2
        (by omega) (by omega) (by omega) [true]
        (fun hmem => by simp at hmem)
        (fun _ => (if_all_ok_iff s g.tasks b hb).mp
          ((Bool.and_eq_true b hasCb).mp hbb).1)
        (fun hcb => by
          rw [hcb] at hbb
          simp at hbb)
        (fun hcb herr => List.mem_append.mpr (Or.inl (hfc0 hcb herr)))
        (fun _ _ _ => List.mem_append.mpr (Or.inr (by simp)))
    · rw [if_neg hbb] at hs'
      subst hs'
      have heqs : ({ setPhase s n0 2 with log := s.log ++ [] } : ExecState) =
          setPhase s n0 2 := by
        rw [List.append_nil]
        rfl
      rw [← heqs]
      exact inv_watcher_phase g body hasCb s hinv n0 w0 hw0 hfin0 2
        (by omega) (by omega) (by omega) []
        (fun hmem => by simp at hmem)
        (fun hmem => by simp at hmem)
        (fun _ => rfl)
        (fun hcb herr => by
          rw [List.append_nil]
          exact hfc0 hcb herr)
        (fun hcb hsucc _ => by
          have hbt : b = true := (if_all_ok_iff s g.tasks b hb).mpr hsucc
          rw [hbt, hcb] at hbb
          simp at hbb)


theorem inv_step_lockSection (g : TaskGraph) (body : String → Option String)
    (hasCb : Bool) (hwf : g.WF) (s s' : ExecState)
    (hinv : Inv g body hasCb s) (n0 : String) (w0 : Worker)
    (hw0 : workerOf s n0 = some w0) (hfin0 : w0.finished = true)
    (hph0 : w0.phase = 2)
    (heq : lockSectionStep g s n0 = .ok s') : Inv g body hasCb s' := by
  rcases startReady_spec g s hwf hinv.keys with
    ⟨ready, hready, hsr, hnodup, hmem⟩
  rw [lockSectionStep, hsr] at heq
  have hs' : s' = setPhase (ready.foldl startWorker s) n0 3 :=
    (Except.ok.inj heq).symm
  subst hs'
  have hst0 : w0.started = true := hinv.fin_start n0 w0 hw0 hfin0
  have hexec : s.execStarted = true :=
    exec_started_of_worker g body hasCb s hinv n0 w0 hw0 hst0
  have hreadyW : ∀ m ∈ ready, get_task_status s m = .ok .Waiting := by
    intro m hm
    rcases (hmem m).mp hm with ⟨ws, _, hw, _⟩
    exact hw
  have hn0r : n0 ∉ ready := by
    intro hmemr
    rcases get_task_status_ok_elim s n0 _ (hreadyW n0 hmemr) with
      ⟨w1, hw1, hwst⟩
    rw [hw0] at hw1
    have he : w1 = w0 := (Option.some.inj hw1).symm
    subst he
    rw [(status_waiting_iff w1).mp hwst] at hst0
    cases hst0
  have hwf0 : workerOf (ready.foldl startWorker s) n0 = some w0 := by
    rw [workerOf_foldl_start, if_neg hn0r]
    exact hw0
  have hstat : ∀ m, get_task_status
      (setPhase (ready.foldl startWorker s) n0 3) m =
      get_task_status (ready.foldl startWorker s) m :=
    fun m => status_setPhase _ n0 3 m
  have hfold := workerOf_foldl_cases ready s
  have hwn0 : workerOf (setPhase (ready.foldl startWorker s) n0 3) n0 =
      some { w0 with phase := 3 } := by
    rw [workerOf_setPhase, if_pos rfl, hwf0]
    rfl
  refine
    { keys := ?_, fresh_not_started := ?_, fin_start := ?_, phase_fin := ?_
      phase_le := ?_, err_fin := ?_, err_not_fin := ?_, started_deps := ?_
      start_count := ?_, start_count_none := ?_, log_no_cb := ?_
      log_false_sound := ?_, log_true_sound := ?_, false_complete := ?_
      true_complete := ?_, ready_pending := ?_ }
  · rw [keys_setPhase, keys_foldl_start]
    exact hinv.keys
  · intro h
    rw [show (setPhase (ready.foldl startWorker s) n0 3).execStarted =
      s.execStarted from (exec_foldl_start ready s), hexec] at h
    cases h
  · intro n w hw hfin
    rcases workerOf_setPhase_cases _ n0 3 n w hw with
      ⟨w1, hws, rfl, rfl⟩ | ⟨hws, _⟩
    · rw [hwf0] at hws
      have he := Option.some.inj hws
      subst he
      exact hst0
    · rcases hfold n w hws with ⟨w2, hws2, _, rfl⟩ | ⟨hws2, _⟩
      · rfl
      · exact hinv.fin_start n w hws2 hfin
  · intro n w hw hph
    rcases workerOf_setPhase_cases _ n0 3 n w hw with
      ⟨w1, hws, rfl, rfl⟩ | ⟨hws, _⟩
    · rw [hwf0] at hws
      have he := Option.some.inj hws
      subst he
      exact hfin0
    · rcases hfold n w hws with ⟨w2, hws2, _, rfl⟩ | ⟨hws2, _⟩
      · exact hinv.phase_fin n w2 hws2 hph
      · exact hinv.phase_fin n w hws2 hph
  · intro n w hw
    rcases workerOf_setPhase_cases _ n0 3 n w hw with
      ⟨w1, hws, rfl, rfl⟩ | ⟨hws, _⟩
    · exact Nat.le_refl 3
    · rcases hfold n w hws with ⟨w2, hws2, _, rfl⟩ | ⟨hws2, _⟩
      · exact hinv.phase_le n w2 hws2
      · exact hinv.phase_le n w hws2
  · intro n w hw hfin
    rcases workerOf_setPhase_cases _ n0 3 n w hw with
      ⟨w1, hws, rfl, rfl⟩ | ⟨hws, _⟩
    · rw [hwf0] at hws
      have he := Option.some.inj hws
      subst he
      exact hinv.err_fin n w0 hw0 hfin0
    · rcases hfold n w hws with ⟨w2, hws2, _, rfl⟩ | ⟨hws2, _⟩
      · exact hinv.err_fin n w2 hws2 hfin
      · exact hinv.err_fin n w hws2 hfin
  · intro n w hw hfin
    rcases workerOf_setPhase_cases _ n0 3 n w hw with
      ⟨w1, hws, rfl, rfl⟩ | ⟨hws, _⟩
    · rw [hwf0] at hws
      have he := Option.some.inj hws
      subst he
      rw [hfin0] at hfin
      cases hfin
    · rcases hfold n w hws with ⟨w2, hws2, _, rfl⟩ | ⟨hws2, _⟩
      · exact hinv.err_not_fin n w2 hws2 hfin
      · exact hinv.err_not_fin n w hws2 hfin
  · intro n w hw hst ds hds d hd
    rw [hstat d.name]
    rcases workerOf_setPhase_cases _ n0 3 n w hw with
      ⟨w1, hws, rfl, rfl⟩ | ⟨hws, _⟩
    · rw [hwf0] at hws
      have he := Option.some.inj hws
      subst he
      exact started_deps_fold g body hasCb s hinv ready hmem n w0 hwf0
        hst0 ds hds d hd
    · exact started_deps_fold g body hasCb s hinv ready hmem n w hws
        hst ds hds d hd
  · intro n w hw
    rw [show (setPhase (ready.foldl startWorker s) n0 3).startLog =
      (ready.foldl startWorker s).startLog from rfl]
    rcases workerOf_setPhase_cases _ n0 3 n w hw with
      ⟨w1, hws, rfl, rfl⟩ | ⟨hws, _⟩
    · exact (start_count_fold g body hasCb s hinv ready hnodup hmem).1
        n w1 hws
    · exact (start_count_fold g body hasCb s hinv ready hnodup hmem).1
        n w hws
  · intro n hw
    rw [show (setPhase (ready.foldl startWorker s) n0 3).startLog =
      (ready.foldl startWorker s).startLog from rfl]
    have hw' : workerOf (ready.foldl startWorker s) n = none := by
      rw [workerOf_setPhase] at hw
      by_cases hn : n = n0
      · rw [if_pos hn] at hw
        rcases hws : workerOf (ready.foldl startWorker s) n with _ | w1
        · rfl
        · rw [hws] at hw
          cases hw
      · rw [if_neg hn] at hw
        exact hw
    exact (start_count_fold g body hasCb s hinv ready hnodup hmem).2 n hw'
  · intro hcb
    rw [show (setPhase (ready.foldl startWorker s) n0 3).log = s.log from
      (log_foldl_start ready s)]
    exact hinv.log_no_cb hcb
  · intro hb
    rw [show (setPhase (ready.foldl startWorker s) n0 3).log = s.log from
      (log_foldl_start ready s)] at hb
    rcases hinv.log_false_sound hb with ⟨m, hm⟩
    refine ⟨m, ?_⟩
    rw [hstat m]
    exact (failure_foldl_iff ready s m hreadyW hinv.fin_start).mpr hm
  · intro hb t ht
    rw [show (setPhase (ready.foldl startWorker s) n0 3).log = s.log from
      (log_foldl_start ready s)] at hb
    rw [hstat t.name]
    exact (success_foldl_iff ready s t.name hreadyW hinv.fin_start).mpr
      (hinv.log_true_sound hb t ht)
  · intro hcb n w hw herr hph'
    show false ∈ (setPhase (ready.foldl startWorker s) n0 3).log
    rw [show (setPhase (ready.foldl startWorker s) n0 3).log = s.log from
      (log_foldl_start ready s)]
    rcases workerOf_setPhase_cases _ n0 3 n w hw with
      ⟨w1, hws, rfl, rfl⟩ | ⟨hws, _⟩
    · rw [hwf0] at hws
      have he := Option.some.inj hws
      subst he
      exact hinv.false_complete hcb n w0 hw0 herr (by omega)
    · rcases hfold n w hws with ⟨w2, hws2, _, rfl⟩ | ⟨hws2, _⟩
      · exact hinv.false_complete hcb n w2 hws2 herr hph'
      · exact hinv.false_complete hcb n w hws2 herr hph'
  · intro hcb hne hsucc hph'
    show true ∈ (setPhase (ready.foldl startWorker s) n0 3).log
    rw [show (setPhase (ready.foldl startWorker s) n0 3).log = s.log from
      (log_foldl_start ready s)]
    apply hinv.true_complete hcb hne
    · intro t ht
      have := hsucc t ht
      rw [hstat t.name] at this
      exact (success_foldl_iff ready s t.name hreadyW hinv.fin_start).mp this
    · intro n w hws
      by_cases hn : n = n0
      · subst hn
        rw [hws] at hw0
        have he : w = w0 := Option.some.inj hw0
        subst he
        omega
      · have hwsp : workerOf (setPhase (ready.foldl startWorker s) n0 3) n =
            workerOf (ready.foldl startWorker s) n := by
          rw [workerOf_setPhase, if_neg hn]
        by_cases hnr : n ∈ ready
        · have hwaitn := hreadyW n hnr
          rcases get_task_status_ok_elim s n _ hwaitn with ⟨w1, hw1, hwst⟩
          rw [hws] at hw1
          have he : w1 = w := (Option.some.inj hw1).symm
          subst he
          have hphw := hph' n _ (by
            rw [hwsp, workerOf_foldl_start, if_pos hnr, hws]
            rfl)
          simpa using hphw
        · have := hph' n w (by
            rw [hwsp, workerOf_foldl_start, if_neg hnr]
            exact hws)
          exact this
  · intro _ n w hw hnst ds hds hsucc
    exfalso
    have hwait : get_task_status (ready.foldl startWorker s) n =
        .ok .Waiting := by
      have h2 := get_task_status_eq_status
        (setPhase (ready.foldl startWorker s) n0 3) n w hw
      rw [(status_waiting_iff w).mpr hnst] at h2
      rw [← status_setPhase (ready.foldl startWorker s) n0 3 n]
      exact h2
    have hsucc' : ∀ d ∈ ds, get_task_status (ready.foldl startWorker s)
        d.name = .ok .Success := by
      intro d hd
      rw [← status_setPhase (ready.foldl startWorker s) n0 3 d.name]
      exact hsucc d hd
    exact no_ready_after_fold g s ready hinv.fin_start hinv.keys
      hwf.deps_registered hmem n ds hds hwait hsucc'


theorem inv_step (g : TaskGraph) (body : String → Option String)
    (hasCb : Bool) (hwf : g.WF) (s s' : ExecState)
    (hinv : Inv g body hasCb s) (hstep : Step g body hasCb s s') :
    Inv g body hasCb s' := by
  cases hstep with
  | startExec _ hexec heq =>
      exact inv_step_startExec g body hasCb hwf s s' hinv hexec heq
  | finish n w hw hst hnf =>
      exact inv_step_finish g body hasCb s hinv n w hw hst hnf
  | failCheck _ n w hw hfin hph heq =>
      exact inv_step_failCheck g body hasCb s s' hinv n w hw hfin hph heq
  | succCheck _ n w hw hfin hph heq =>
      exact inv_step_succCheck g body hasCb s s' hinv n w hw hfin hph heq
  | lockSection _ n w hw hfin hph heq =>
      exact inv_step_lockSection g body hasCb hwf s s' hinv n w hw hfin
        hph heq

theorem inv_init (g : TaskGraph) (body : String → Option String)
    (hasCb : Bool) : Inv g body hasCb (initState g) := by
  have hkeys : (initState g).workers.map (fun p => p.1) = g.names := by
    show (g.tasks.map (fun t => (t.name, Worker.fresh))).map (fun p => p.1) =
      g.tasks.map (fun t => t.name)
    rw [List.map_map]
    rfl
  have hfreshw : ∀ n w, workerOf (initState g) n = some w →
      w = Worker.fresh := by
    intro n w hw
    have hv := mem_values_of_dictGet _ n w hw
    rw [show (initState g).workers = g.tasks.map
      (fun t => (t.name, Worker.fresh)) from rfl, List.map_map] at hv
    rcases List.mem_map.mp hv with ⟨t, _, he⟩
    exact he.symm
  refine
    { keys := hkeys, fresh_not_started := ?_, fin_start := ?_
      phase_fin := ?_, phase_le := ?_, err_fin := ?_, err_not_fin := ?_
      started_deps := ?_, start_count := ?_, start_count_none := ?_
      log_no_cb := ?_, log_false_sound := ?_, log_true_sound := ?_
      false_complete := ?_, true_complete := ?_, ready_pending := ?_ }
  · intro _
    exact ⟨hfreshw, rfl, rfl⟩
  · intro n w hw hfin
    rw [hfreshw n w hw] at hfin
    cases hfin
  · intro n w hw hph
    rw [hfreshw n w hw] at hph
    simp [Worker.fresh] at hph
  · intro n w hw
    rw [hfreshw n w hw]
    show (0 : Nat) ≤ 3
    omega
  · intro n w hw hfin
    rw [hfreshw n w hw] at hfin
    cases hfin
  · intro n w hw _
    rw [hfreshw n w hw]
    exact ⟨rfl, rfl⟩
  · intro n w hw hst
    rw [hfreshw n w hw] at hst
    cases hst
  · intro n w hw
    rw [hfreshw n w hw]
    rfl
  · intro n _
    rfl
  · intro _
    rfl
  · intro hb
    simp [initState] at hb
  · intro hb
    simp [initState] at hb
  · intro _ n w hw _ hph
    rw [hfreshw n w hw] at hph
    simp [Worker.fresh] at hph
  · intro _ hne _ hph
    rcases List.exists_mem_of_ne_nil g.tasks hne with ⟨t, ht⟩
    rcases worker_exists_of_name (initState g) g hkeys t.name
      (List.mem_map.mpr ⟨t, ht, rfl⟩) with ⟨w, hw⟩
    have := hph t.name w hw
    rw [hfreshw t.name w hw] at this
    simp [Worker.fresh] at this
  · intro h
    cases h

theorem reachable_inv (g : TaskGraph) (body : String → Option String)
    (hasCb : Bool) (hwf : g.WF) (s : ExecState)
    (hr : Reachable g body hasCb s) : Inv g body hasCb s := by
  induction hr with
  | init => exact inv_init g body hasCb
  | step hr hstep ih => exact inv_step g body hasCb hwf _ _ ih hstep

theorem applyAct_step (g : TaskGraph) (body : String → Option String)
    (hasCb : Bool) (a : Act) (s s' : ExecState)
    (h : applyAct g body hasCb a s = some s') : Step g body hasCb s s' := by
  cases a with
  | aStart =>
      rw [applyAct] at h
      rcases hse : s.execStarted
      · rw [hse] at h
        simp only [Bool.false_eq_true, if_false] at h
        rcases hst : start_execution g s with e | s1
        · rw [hst] at h
          cases h
        · rw [hst] at h
          have hss : s1 = s' := by
            simpa [Except.toOption] using h
          cases hss
          exact Step.startExec s _ hse hst
      · rw [hse] at h
        simp at h
  | aFinish n =>
      rw [applyAct] at h
      rcases hw : workerOf s n with _ | w
      · simp only [hw] at h
        cases h
      · simp only [hw] at h
        by_cases hc : (w.started && !w.finished) = true
        · rw [if_pos hc] at h
          rcases (Bool.and_eq_true _ _).mp hc with ⟨h1, h2⟩
          have hss : finishStep body s n = s' := Option.some.inj h
          cases hss
          exact Step.finish s n w hw h1 (by simpa using h2)
        · rw [if_neg hc] at h
          cases h
  | aFail n =>
      rw [applyAct] at h
      rcases hw : workerOf s n with _ | w
      · simp only [hw] at h
        cases h
      · simp only [hw] at h
        by_cases hc : (w.finished && w.phase == 0) = true
        · rw [if_pos hc] at h
          rcases (Bool.and_eq_true _ _).mp hc with ⟨h1, h2⟩
          rcases hst : failCheckStep g hasCb s n with e | s1
          · rw [hst] at h
            cases h
          · rw [hst] at h
            have hss : s1 = s' := by
              simpa [Except.toOption] using h
            cases hss
            exact Step.failCheck s _ n w hw h1 (by simpa using h2) hst
        · rw [if_neg hc] at h
          cases h
  | aSucc n =>
      rw [applyAct] at h
      rcases hw : workerOf s n with _ | w
      · simp only [hw] at h
        cases h
      · simp only [hw] at h
        by_cases hc : (w.finished && w.phase == 1) = true
        · rw [if_pos hc] at h
          rcases (Bool.and_eq_true _ _).mp hc with ⟨h1, h2⟩
          rcases hst : succCheckStep g hasCb s n with e | s1
          · rw [hst] at h
            cases h
          · rw [hst] at h
            have hss : s1 = s' := by
              simpa [Except.toOption] using h
            cases hss
            exact Step.succCheck s _ n w hw h1 (by simpa using h2) hst
        · rw [if_neg hc] at h
          cases h
  | aLock n =>
      rw [applyAct] at h
      rcases hw : workerOf s n with _ | w
      · simp only [hw] at h
        cases h
      · simp only [hw] at h
        by_cases hc : (w.finished && w.phase == 2) = true
        · rw [if_pos hc] at h
          rcases (Bool.and_eq_true _ _).mp hc with ⟨h1, h2⟩
          rcases hst : lockSectionStep g s n with e | s1
          · rw [hst] at h
            cases h
          · rw [hst] at h
            have hss : s1 = s' := by
              simpa [Except.toOption] using h
            cases hss
            exact Step.lockSection s _ n w hw h1 (by simpa using h2) hst
        · rw [if_neg hc] at h
          cases h

theorem runScript_reachable (g : TaskGraph) (body : String → Option String)
    (hasCb : Bool) (acts : List Act) (s s' : ExecState)
    (hr : Reachable g body hasCb s)
    (h : runScript g body hasCb acts s = some s') :
    Reachable g body hasCb s' := by
  induction acts generalizing s with
  | nil =>
      rw [runScript] at h
      have hss : s = s' := Option.some.inj h
      cases hss
      exact hr
  | cons a rest ih =>
      rw [runScript] at h
      rcases ha : applyAct g body hasCb a s with _ | s1
      · rw [ha] at h
        cases h
      · rw [ha] at h
        exact ih s1 (Reachable.step hr (applyAct_step g body hasCb a s s1 ha)) h

theorem maximal_rest (g : TaskGraph) (body : String → Option String)
    (hasCb : Bool) (hwf : g.WF) (s : ExecState) (hinv : Inv g body hasCb s)
    (hmax : Maximal g body hasCb s) :
    s.execStarted = true ∧
    ∀ n w, workerOf s n = some w →
      (w.started = true → w.finished = true) ∧
      (w.finished = true → w.phase = 3) := by
  have hworkers : ∀ t ∈ g.tasks, ∃ w, workerOf s t.name = some w := by
    intro t ht
    exact worker_exists_of_name s g hinv.keys t.name
      (List.mem_map.mpr ⟨t, ht, rfl⟩)
  have hexec : s.execStarted = true := by
    by_contra h
    rw [Bool.not_eq_true] at h
    rcases startReady_spec g s hwf hinv.keys with ⟨ready, _, hsr, _, _⟩
    have hok : start_execution g s =
        .ok { ready.foldl startWorker s with execStarted := true } := by
      rw [start_execution, hsr]
    exact hmax _ (Step.startExec s _ h hok)
  refine ⟨hexec, ?_⟩
  intro n w hw
  constructor
  · intro hst
    by_contra hnf
    rw [Bool.not_eq_true] at hnf
    exact hmax _ (Step.finish s n w hw hst hnf)
  · intro hfin
    have hle := hinv.phase_le n w hw
    rcases hph : w.phase with _ | p1
    · rcases if_any_ok_of_workers g s (fun t ht => hworkers t ht) with ⟨b, hb⟩
      have hok : ∃ s1, failCheckStep g hasCb s n = .ok s1 :=
        ⟨_, by rw [failCheckStep, hb]⟩
      rcases hok with ⟨s1, hs1⟩
      exact absurd (Step.failCheck s s1 n w hw hfin hph hs1) (hmax s1)
    · rcases p1 with _ | p2
      · rcases if_all_ok_of_workers s g.tasks (fun t ht => hworkers t ht)
          with ⟨b, hb⟩
        have hok : ∃ s1, succCheckStep g hasCb s n = .ok s1 :=
          ⟨_, by rw [succCheckStep, hb]⟩
        rcases hok with ⟨s1, hs1⟩
        exact absurd (Step.succCheck s s1 n w hw hfin hph hs1) (hmax s1)
      · rcases p2 with _ | p3
        · rcases startReady_spec g s hwf hinv.keys with ⟨ready, _, hsr, _, _⟩
          have hok : lockSectionStep g s n =
              .ok (setPhase (ready.foldl startWorker s) n 3) := by
            rw [lockSectionStep, hsr]
          exact absurd (Step.lockSection s _ n w hw hfin hph hok) (hmax _)
        · omega


/-! ### Well-formedness and reachability of the concrete test inputs -/

theorem wf_of_entries (g : TaskGraph)
    (hkeys : g.task2waiting_for.map (fun p => p.1) = g.names)
    (hnd : g.names.Nodup)
    (hds : ∀ p ∈ g.task2waiting_for, ∀ d ∈ p.2, d.name ∈ g.names) :
    g.WF := by
  refine ⟨hkeys, hnd, ?_⟩
  intro n ds hget d hd
  exact hds (n, ds) (dictGet_pair_mem _ _ _ hget) d hd

theorem gChain_wf : gChain.WF :=
  wf_of_entries gChain rfl (by decide) (by decide)

theorem gPair_wf : gPair.WF :=
  wf_of_entries gPair rfl (by decide) (by decide)

theorem gDia_wf : gDia.WF :=
  wf_of_entries gDia rfl (by decide) (by decide)

theorem sChainW_reach : Reachable gChain bodyOk false sChainW :=
  runScript_reachable gChain bodyOk false
    [.aStart, .aFinish "A", .aFail "A", .aSucc "A", .aLock "A"]
    (initState gChain) sChainW Reachable.init (by rfl)

theorem sChainFail_reach : Reachable gChain bodyAFails false sChainFail :=
  runScript_reachable gChain bodyAFails false
    [.aStart, .aFinish "A", .aFail "A", .aSucc "A", .aLock "A"]
    (initState gChain) sChainFail Reachable.init (by rfl)

theorem sPair2_reach : Reachable gPair bodyAFails true sPair2 :=
  runScript_reachable gPair bodyAFails true
    [.aStart, .aFinish "A", .aFinish "B", .aFail "A", .aFail "B"]
    (initState gPair) sPair2 Reachable.init (by rfl)

theorem sDiaF_reach : Reachable gDia bodyOk false sDiaF :=
  runScript_reachable gDia bodyOk false
    [.aStart, .aFinish "A", .aFail "A", .aSucc "A", .aLock "A",
     .aFinish "B", .aFail "B", .aSucc "B", .aLock "B",
     .aFinish "C", .aFail "C", .aSucc "C", .aLock "C",
     .aFinish "D", .aFail "D", .aSucc "D", .aLock "D"]
    (initState gDia) sDiaF Reachable.init (by rfl)

/-- C1: in every reachable state of an executor over a well-formed
graph, a task with a non-empty dependency list whose status has left
`Waiting` (in particular a `Running` task) has every one of its direct
dependencies at status `Success`.  Since `Success` is stable along the
transition relation, the dependencies were `Success` from the moment
the task was started. -/
theorem C1_deps_success_before_running
    (g : TaskGraph) (body : String → Option String) (hasCb : Bool)
    (hwf : g.WF) (s : ExecState) (hr : Reachable g body hasCb s)
    (n : String) (ds : List Task) (hds : g.depsOf n = some ds)
    (_hne : ds ≠ []) (st : TaskStatus)
    (hst : get_task_status s n = .ok st) (hnw : st ≠ .Waiting) :
    ∀ d ∈ ds, get_task_status s d.name = .ok .Success := by
  have hinv := reachable_inv g body hasCb hwf s hr
  rcases get_task_status_ok_elim s n st hst with ⟨w, hw, hwst⟩
  have hstarted : w.started = true := by
    by_contra hc
    rw [Bool.not_eq_true] at hc
    have hwa : st = .Waiting := by
      rw [← hwst]
      exact (status_waiting_iff w).mpr hc
    exact hnw hwa
  exact hinv.started_deps n w hw hstarted ds hds

/-- C1 witness: in the concrete chain execution where `B` is running,
its dependency `A` is `Success`. -/
theorem C1_witness :
    get_task_status sChainW tA.name = .ok .Success :=
  C1_deps_success_before_running gChain bodyOk false gChain_wf sChainW
    sChainW_reach "B" [tA] rfl (by simp) .Running rfl (by simp)
    tA (by simp)


/-- C7: for every task of the graph, in every reachable state,
`get_task_status` returns exactly the status derived from its worker's
lifecycle: `Waiting` when never started, `Running` when started and
the thread still alive, `Success` when started, finished and no
failure captured, `Failure` when started, finished and a failure
captured — and the returned value is always one of these four. -/
theorem C7_status_derived_from_worker
    (g : TaskGraph) (body : String → Option String) (hasCb : Bool)
    (hwf : g.WF) (s : ExecState) (hr : Reachable g body hasCb s)
    (t : Task) (ht : t ∈ g.tasks) :
    ∃ w, workerOf s t.name = some w ∧
      get_task_status s t.name = .ok w.status ∧
      (w.started = false → w.status = .Waiting) ∧
      (w.started = true → w.finished = false → w.status = .Running) ∧
      (w.started = true → w.finished = true → w.error = none →
        w.status = .Success) ∧
      (w.started = true → w.finished = true → w.error.isSome = true →
        w.status = .Failure) ∧
      (w.status = .Waiting ∨ w.status = .Running ∨ w.status = .Success ∨
        w.status = .Failure) := by
  have hinv := reachable_inv g body hasCb hwf s hr
  rcases worker_exists_of_name s g hinv.keys t.name
    (List.mem_map.mpr ⟨t, ht, rfl⟩) with ⟨w, hw⟩
  refine ⟨w, hw, get_task_status_eq_status s t.name w hw, ?_, ?_, ?_, ?_, ?_⟩
  · intro h
    exact (status_waiting_iff w).mpr h
  · intro h1 h2
    exact (status_running_iff w).mpr ⟨h1, h2⟩
  · intro h1 h2 h3
    exact (status_success_iff w).mpr ⟨h1, h2, h3⟩
  · intro h1 h2 h3
    exact (status_failure_iff w).mpr ⟨h1, h2, h3⟩
  · rcases hst : w.status with _ | _ | _ | _
    · exact Or.inl rfl
    · exact Or.inr (Or.inl rfl)
    · exact Or.inr (Or.inr (Or.inl rfl))
    · exact Or.inr (Or.inr (Or.inr rfl))

/-- C7 witness: the status derivation at the running task `B` of the
concrete chain state. -/
theorem C7_witness :
    ∃ w, workerOf sChainW "B" = some w ∧
      get_task_status sChainW "B" = .ok w.status ∧
      (w.started = false → w.status = .Waiting) ∧
      (w.started = true → w.finished = false → w.status = .Running) ∧
      (w.started = true → w.finished = true → w.error = none →
        w.status = .Success) ∧
      (w.started = true → w.finished = true → w.error.isSome = true →
        w.status = .Failure) ∧
      (w.status = .Waiting ∨ w.status = .Running ∨ w.status = .Success ∨
        w.status = .Failure) :=
  C7_status_derived_from_worker gChain bodyOk false gChain_wf sChainW
    sChainW_reach tB (by decide)

/-- C6: when a task's body raises, the error value and a
human-readable traceback are captured on that task's worker record and
its derived status becomes `Failure`; its finish transition is an
ordinary (non-propagating) transition that leaves every other worker's
record untouched; and every task that transitively waits for the
failed task has status `Waiting` in every reachable state — it is
never started. -/
theorem C6_failure_captured_and_contained
    (g : TaskGraph) (body : String → Option String) (hasCb : Bool)
    (hwf : g.WF) (s : ExecState) (hr : Reachable g body hasCb s)
    (f e : String) (hbody : body f = some e) :
    (∀ w, workerOf s f = some w → w.finished = true →
      w.error = some e ∧
      w.traceback = some (String.append "Traceback: " e) ∧
      get_task_status s f = .ok .Failure) ∧
    (∀ m, m ≠ f → workerOf (finishStep body s f) m = workerOf s m) ∧
    (∀ n, WaitsFor g n f → get_task_status s n = .ok .Waiting) := by
  have hinv := reachable_inv g body hasCb hwf s hr
  have hnstart : ∀ n, WaitsFor g n f →
      ∀ w, workerOf s n = some w → w.started = false := by
    intro n hwaits
    induction hwaits with
    | direct hedge =>
        rename_i x y
        intro w hw
        by_contra hc
        rw [Bool.not_eq_false] at hc
        rcases hedge with ⟨ds, hds, d, hd, hdn⟩
        have hsucc := hinv.started_deps x w hw hc ds hds d hd
        rw [hdn] at hsucc
        rcases get_task_status_ok_elim s y _ hsucc with ⟨wy, hwy, hwys⟩
        rcases (status_success_iff wy).mp hwys with ⟨_, hyfin, hyerr⟩
        have := (hinv.err_fin y wy hwy hyfin).1
        rw [hbody] at this
        rw [this] at hyerr
        cases hyerr
    | trans hedge hwaits ih =>
        rename_i x y z
        intro w hw
        by_contra hc
        rw [Bool.not_eq_false] at hc
        rcases hedge with ⟨ds, hds, d, hd, hdn⟩
        have hsucc := hinv.started_deps x w hw hc ds hds d hd
        rw [hdn] at hsucc
        rcases get_task_status_ok_elim s y _ hsucc with ⟨wy, hwy, hwys⟩
        rcases (status_success_iff wy).mp hwys with ⟨hyst, _, _⟩
        rw [ih hbody wy hwy] at hyst
        cases hyst
  refine ⟨?_, ?_, ?_⟩
  · intro w hw hfin
    rcases hinv.err_fin f w hw hfin with ⟨he, htb⟩
    rw [hbody] at he htb
    refine ⟨he, htb, ?_⟩
    rw [get_task_status_eq_status s f w hw,
      (status_failure_iff w).mpr
        ⟨hinv.fin_start f w hw hfin, hfin, by rw [he]; rfl⟩]
  · intro m hm
    rw [workerOf_finishStep, if_neg hm]
  · intro n hwaits
    have hreg : ∃ ds, g.depsOf n = some ds := by
      cases hwaits with
      | direct hedge => exact ⟨hedge.choose, hedge.choose_spec.1⟩
      | trans hedge _ => exact ⟨hedge.choose, hedge.choose_spec.1⟩
    rcases hreg with ⟨ds, hds⟩
    have hnames : n ∈ g.names := by
      rw [← hwf.keys]
      exact List.mem_map.mpr
        ⟨(n, ds), dictGet_pair_mem _ _ _ hds, rfl⟩
    rcases worker_exists_of_name s g hinv.keys n hnames with ⟨w, hw⟩
    rw [get_task_status_eq_status s n w hw,
      (status_waiting_iff w).mpr (hnstart n hwaits w hw)]

/-- C6 witness: in the concrete chain execution where the body of `A`
raised `boom`, the error and traceback are captured on the worker of
`A`, whose status is `Failure`, and the transitive dependent `C` is
still `Waiting`. -/
theorem C6_witness :
    (wFailA.error = some "boom" ∧
      wFailA.traceback = some (String.append "Traceback: " "boom") ∧
      get_task_status sChainFail "A" = .ok .Failure) ∧
    get_task_status sChainFail "C" = .ok .Waiting := by
  have h := C6_failure_captured_and_contained gChain bodyAFails false
    gChain_wf sChainFail sChainFail_reach "A" "boom" rfl
  refine ⟨h.1 wFailA rfl rfl, ?_⟩
  refine h.2.2 "C" (WaitsFor.trans ⟨[tB], rfl, tB, ?_, rfl⟩
    (WaitsFor.direct ⟨[tA], rfl, tA, ?_, rfl⟩))
  · exact List.mem_singleton.mpr rfl
  · exact List.mem_singleton.mpr rfl


theorem sDiaF_workers_done (n : String) (w : Worker)
    (hw : workerOf sDiaF n = some w) : w = wDone := by
  have hv := mem_values_of_dictGet sDiaF.workers n w hw
  simp [sDiaF] at hv
  exact hv

theorem sDiaF_maximal : Maximal gDia bodyOk false sDiaF := by
  intro s' h
  cases h with
  | startExec _ hexec heq =>
      simp [sDiaF] at hexec
  | finish n w hw hst hnf =>
      rw [sDiaF_workers_done n w hw] at hnf
      simp [wDone] at hnf
  | failCheck _ n w hw hfin hph heq =>
      rw [sDiaF_workers_done n w hw] at hph
      simp [wDone] at hph
  | succCheck _ n w hw hfin hph heq =>
      rw [sDiaF_workers_done n w hw] at hph
      simp [wDone] at hph
  | lockSection _ n w hw hfin hph heq =>
      rw [sDiaF_workers_done n w hw] at hph
      simp [wDone] at hph

/-- C5: in every reachable state of an executor over a well-formed
graph, every task's worker has been started at most once (the start
log counts each name at most once); and for the diamond graph, in any
execution that has come to rest, the worker of `D` was started exactly
once, even though the completions of both `B` and `C` trigger
readiness recomputations. -/
theorem C5_no_duplicate_start :
    (∀ (g : TaskGraph) (body : String → Option String) (hasCb : Bool),
      g.WF → ∀ s, Reachable g body hasCb s →
      ∀ n, s.startLog.count n ≤ 1) ∧
    (∀ s, Reachable gDia bodyOk false s → Maximal gDia bodyOk false s →
      s.startLog.count "D" = 1) := by
  constructor
  · intro g body hasCb hwf s hr n
    have hinv := reachable_inv g body hasCb hwf s hr
    rcases hws : workerOf s n with _ | w
    · rw [hinv.start_count_none n hws]
      omega
    · rw [hinv.start_count n w hws]
      by_cases h : w.started = true
      · rw [h]
        simp
      · rw [Bool.not_eq_true] at h
        rw [h]
        simp
  · intro s hr hmax
    have hinv := reachable_inv gDia bodyOk false gDia_wf s hr
    rcases maximal_rest gDia bodyOk false gDia_wf s hinv hmax with
      ⟨hexec, hrest⟩
    have hforce : ∀ n w ds, workerOf s n = some w →
        gDia.depsOf n = some ds →
        (∀ d ∈ ds, get_task_status s d.name = .ok .Success) →
        get_task_status s n = .ok .Success := by
      intro n w ds hw hds hsucc
      have hst : w.started = true := by
        by_contra hc
        rw [Bool.not_eq_true] at hc
        rcases hinv.ready_pending hexec n w hw hc ds hds hsucc with
          ⟨m, wm, hm, hfin, hph⟩
        have := (hrest m wm hm).2 hfin
        omega
      have hfin := (hrest n w hw).1 hst
      have herr := (hinv.err_fin n w hw hfin).1
      rw [get_task_status_eq_status s n w hw,
        (status_success_iff w).mpr ⟨hst, hfin, by rw [herr]; rfl⟩]
    rcases worker_exists_of_name s gDia hinv.keys "A" (by decide) with
      ⟨wA, hwA⟩
    rcases worker_exists_of_name s gDia hinv.keys "B" (by decide) with
      ⟨wB, hwB⟩
    rcases worker_exists_of_name s gDia hinv.keys "C" (by decide) with
      ⟨wC, hwC⟩
    rcases worker_exists_of_name s gDia hinv.keys "D" (by decide) with
      ⟨wD, hwD⟩
    have hA := hforce "A" wA [] hwA rfl (by
      intro d hd
      cases hd)
    have hB := hforce "B" wB [tA] hwB rfl (by
      intro d hd
      rcases List.mem_singleton.mp hd with rfl
      exact hA)
    have hC := hforce "C" wC [tA] hwC rfl (by
      intro d hd
      rcases List.mem_singleton.mp hd with rfl
      exact hA)
    have hD := hforce "D" wD [tB, tC] hwD rfl (by
      intro d hd
      rcases List.mem_cons.mp hd with rfl | hd2
      · exact hB
      · rcases List.mem_singleton.mp hd2 with rfl
        exact hC)
    rcases get_task_status_ok_elim s "D" _ hD with ⟨wD2, hwD2, hsD⟩
    rcases (status_success_iff wD2).mp hsD with ⟨hstD, _, _⟩
    rw [hinv.start_count "D" wD2 hwD2, hstD]
    simp

/-- C5 witness: the statement at the fully-run diamond execution. -/
theorem C5_witness :
    (∀ n, sDiaF.startLog.count n ≤ 1) ∧ sDiaF.startLog.count "D" = 1 :=
  ⟨fun n => C5_no_duplicate_start.1 gDia bodyOk false gDia_wf sDiaF
      sDiaF_reach n,
   C5_no_duplicate_start.2 sDiaF sDiaF_reach sDiaF_maximal⟩


theorem foldl_start_log_irrel (l : List String) (s : ExecState)
    (L : List Bool) :
    l.foldl startWorker { s with log := L } =
      { l.foldl startWorker s with log := L } := by
  induction l generalizing s with
  | nil => rfl
  | cons m rest ih =>
      simp only [List.foldl_cons]
      rw [show startWorker { s with log := L } m =
        { startWorker s m with log := L } from rfl]
      exact ih (startWorker s m)

theorem get_task_status_congr (s t : ExecState) (h : s.workers = t.workers)
    (n : String) : get_task_status s n = get_task_status t n := by
  rw [get_task_status, get_task_status, workerOf, workerOf, h]

theorem statusList_congr (s t : ExecState) (h : s.workers = t.workers)
    (ts : List Task) : statusList s ts = statusList t ts := by
  induction ts with
  | nil => rfl
  | cons u us ih =>
      simp only [statusList]
      rw [get_task_status_congr s t h, ih]

theorem if_all_congr (s t : ExecState) (h : s.workers = t.workers)
    (ts : List Task) :
    if_all_tasks_success s ts = if_all_tasks_success t ts := by
  simp only [if_all_tasks_success]
  rw [statusList_congr s t h]

theorem if_any_congr (g : TaskGraph) (s t : ExecState)
    (h : s.workers = t.workers) :
    if_any_failed_task g s = if_any_failed_task g t := by
  simp only [if_any_failed_task]
  rw [statusList_congr s t h]

theorem readyCond_congr (s t : ExecState) (h : s.workers = t.workers)
    (n : String) (ws : List Task) : readyCond s n ws = readyCond t n ws := by
  simp only [readyCond]
  rw [get_task_status_congr s t h, if_all_congr s t h]

theorem readyFilter_congr (s t : ExecState) (h : s.workers = t.workers)
    (items : List (String × List Task)) :
    readyFilter s items = readyFilter t items := by
  induction items with
  | nil => rfl
  | cons p rest ih =>
      rcases p with ⟨n, ws⟩
      simp only [readyFilter]
      rw [readyCond_congr s t h, ih]

theorem ready_congr (g : TaskGraph) (s t : ExecState)
    (h : s.workers = t.workers) :
    get_tasks_ready_to_run g s = get_tasks_ready_to_run g t := by
  simp only [get_tasks_ready_to_run]
  exact readyFilter_congr s t h g.task2waiting_for

theorem step_log_transfer (g : TaskGraph) (body : String → Option String)
    (b1 b2 : Bool) (s s2 : ExecState) (L : List Bool)
    (hstep : Step g body b1 s s2) :
    ∃ L2, Step g body b2 { s with log := L } { s2 with log := L2 } ∧
      (b2 = false → L2 = L) := by
  cases hstep with
  | startExec _ hexec heq =>
      rcases hready : get_tasks_ready_to_run g s with e | ready
      · rw [start_execution, startReady, hready] at heq
        cases heq
      · simp only [start_execution, startReady, hready] at heq
        have hs2 : s2 = { ready.foldl startWorker s with
            execStarted := true } := (Except.ok.inj heq).symm
        subst hs2
        refine ⟨L, ?_, fun _ => rfl⟩
        apply Step.startExec
        · exact hexec
        · have hreadyL : get_tasks_ready_to_run g { s with log := L } =
              .ok ready := by
            rw [ready_congr g { s with log := L } s rfl]
            exact hready
          simp only [start_execution, startReady, hreadyL,
            foldl_start_log_irrel]
  | finish n w hw hst hnf =>
      refine ⟨L, ?_, fun _ => rfl⟩
      have hstep2 := @Step.finish g body b2
        { s with log := L } n w hw hst hnf
      rw [show finishStep body { s with log := L } n =
        { finishStep body s n with log := L } from rfl] at hstep2
      exact hstep2
  | failCheck _ n w hw hfin hph heq =>
      rcases hb : if_any_failed_task g s with e | bb
      · rw [failCheckStep, hb] at heq
        cases heq
      · simp only [failCheckStep, hb] at heq
        have hbL : if_any_failed_task g { s with log := L } = .ok bb := by
          rw [if_any_congr g { s with log := L } s rfl]
          exact hb
        refine ⟨if (bb && b2) = true then L ++ [false] else L, ?_, ?_⟩
        · have hok : failCheckStep g b2 { s with log := L } n =
              .ok { setPhase s n 1 with
                log := if (bb && b2) = true then L ++ [false] else L } := by
            simp only [failCheckStep, hbL]
            by_cases h2 : (bb && b2) = true
            · rw [if_pos h2, if_pos h2]
              rfl
            · rw [if_neg h2, if_neg h2]
              rfl
          by_cases h1 : (bb && b1) = true
          · rw [if_pos h1] at heq
            have hs2 : s2 = { setPhase s n 1 with
                log := (setPhase s n 1).log ++ [false] } :=
              (Except.ok.inj heq).symm
            subst hs2
            exact Step.failCheck _ _ n w hw hfin hph hok
          · rw [if_neg h1] at heq
            have hs2 : s2 = setPhase s n 1 := (Except.ok.inj heq).symm
            subst hs2
            exact Step.failCheck _ _ n w hw hfin hph hok
        · intro hb2
          rw [hb2]
          simp
  | succCheck _ n w hw hfin hph heq =>
      rcases hb : if_all_tasks_success s g.tasks with e | bb
      · rw [succCheckStep, hb] at heq
        cases heq
      · simp only [succCheckStep, hb] at heq
        have hbL : if_all_tasks_success { s with log := L } g.tasks =
            .ok bb := by
          rw [if_all_congr { s with log := L } s rfl]
          exact hb
        refine ⟨if (bb && b2) = true then L ++ [true] else L, ?_, ?_⟩
        · have hok : succCheckStep g b2 { s with log := L } n =
              .ok { setPhase s n 2 with
                log := if (bb && b2) = true then L ++ [true] else L } := by
            simp only [succCheckStep, hbL]
            by_cases h2 : (bb && b2) = true
            · rw [if_pos h2, if_pos h2]
              rfl
            · rw [if_neg h2, if_neg h2]
              rfl
          by_cases h1 : (bb && b1) = true
          · rw [if_pos h1] at heq
            have hs2 : s2 = { setPhase s n 2 with
                log := (setPhase s n 2).log ++ [true] } :=
              (Except.ok.inj heq).symm
            subst hs2
            exact Step.succCheck _ _ n w hw hfin hph hok
          · rw [if_neg h1] at heq
            have hs2 : s2 = setPhase s n 2 := (Except.ok.inj heq).symm
            subst hs2
            exact Step.succCheck _ _ n w hw hfin hph hok
        · intro hb2
          rw [hb2]
          simp
  | lockSection _ n w hw hfin hph heq =>
      rcases hready : get_tasks_ready_to_run g s with e | ready
      · rw [lockSectionStep, startReady, hready] at heq
        cases heq
      · simp only [lockSectionStep, startReady, hready] at heq
        have hs2 : s2 = setPhase (ready.foldl startWorker s) n 3 :=
          (Except.ok.inj heq).symm
        subst hs2
        refine ⟨L, ?_, fun _ => rfl⟩
        have hreadyL : get_tasks_ready_to_run g { s with log := L } =
            .ok ready := by
          rw [ready_congr g { s with log := L } s rfl]
          exact hready
        have hok : lockSectionStep g { s with log := L } n =
            .ok { setPhase (ready.foldl startWorker s) n 3 with
              log := L } := by
          simp only [lockSectionStep, startReady, hreadyL,
            foldl_start_log_irrel]
          rfl
        exact Step.lockSection _ _ n w hw hfin hph hok

theorem reach_strip (g : TaskGraph) (body : String → Option String)
    (s : ExecState) (hr : Reachable g body true s) :
    Reachable g body false { s with log := [] } := by
  induction hr with
  | init =>
      rw [show ({ initState g with log := [] } : ExecState) = initState g
        from rfl]
      exact Reachable.init
  | step hr hstep ih =>
      rcases step_log_transfer g body true false _ _ [] hstep with
        ⟨L2, hstepL, hL2⟩
      rw [hL2 rfl] at hstepL
      exact Reachable.step ih hstepL

theorem reach_addlog (g : TaskGraph) (body : String → Option String)
    (s : ExecState) (hr : Reachable g body false s) :
    ∃ L, Reachable g body true { s with log := L } := by
  induction hr with
  | init =>
      refine ⟨[], ?_⟩
      rw [show ({ initState g with log := [] } : ExecState) = initState g
        from rfl]
      exact Reachable.init
  | step hr hstep ih =>
      rcases ih with ⟨L, hL⟩
      rcases step_log_transfer g body false true _ _ L hstep with
        ⟨L2, hstepL, _⟩
      exact ⟨L2, Reachable.step hL hstepL⟩


/-- C2 counterexample: the terminal callback is not invoked exactly
once per execution.  For the two independent tasks of `gPair` under a
body where `A` raises, there is a reachable state of the executor with
a registered callback in which the callback has already been invoked
twice (both watchers observed `if_any_failed_task` and each called
`callback(False)`). -/
theorem C2_counterexample :
    ∃ s, Reachable gPair bodyAFails true s ∧ s.log = [false, false] :=
  ⟨sPair2, sPair2_reach, rfl⟩

/-- C2 (amended): each callback invocation is sound — every `False`
invocation happens in a state with a `Failure` task and every `True`
invocation in a state where all tasks are `Success`; in an execution
that has come to rest with every task at a terminal status, the
callback has been invoked at least once (but possibly more than once
when several completions race); and registering no callback does not
change which tasks are started or in what order: the reachable
worker states, start logs and control flags are the same with and
without a callback. -/
theorem C2_amended_callback_behaviour :
    (∀ (g : TaskGraph) (body : String → Option String) (hasCb : Bool),
      g.WF → ∀ s, Reachable g body hasCb s →
      (false ∈ s.log → ∃ n, get_task_status s n = .ok .Failure) ∧
      (true ∈ s.log →
        ∀ t ∈ g.tasks, get_task_status s t.name = .ok .Success)) ∧
    (∀ (g : TaskGraph) (body : String → Option String),
      g.WF → g.tasks ≠ [] → ∀ s, Reachable g body true s →
      Maximal g body true s →
      (∀ t ∈ g.tasks, get_task_status s t.name = .ok .Success ∨
        get_task_status s t.name = .ok .Failure) →
      s.log ≠ []) ∧
    (∀ (g : TaskGraph) (body : String → Option String) (s : ExecState),
      Reachable g body true s →
      Reachable g body false { s with log := [] }) ∧
    (∀ (g : TaskGraph) (body : String → Option String) (s : ExecState),
      Reachable g body false s → ∃ s', Reachable g body true s' ∧
        s'.workers = s.workers ∧ s'.startLog = s.startLog ∧
        s'.execStarted = s.execStarted) := by
  refine ⟨?_, ?_, ?_, ?_⟩
  · intro g body hasCb hwf s hr
    have hinv := reachable_inv g body hasCb hwf s hr
    exact ⟨hinv.log_false_sound, hinv.log_true_sound⟩
  · intro g body hwf hne s hr hmax hterm
    have hinv := reachable_inv g body true hwf s hr
    rcases maximal_rest g body true hwf s hinv hmax with ⟨hexec, hrest⟩
    by_cases hfail : ∃ t ∈ g.tasks, get_task_status s t.name = .ok .Failure
    · rcases hfail with ⟨t, ht, hf⟩
      rcases get_task_status_ok_elim s t.name _ hf with ⟨w, hw, hws⟩
      rcases (status_failure_iff w).mp hws with ⟨hst, hfin, herr⟩
      have hph := (hrest t.name w hw).2 hfin
      have hmem : false ∈ s.log :=
        hinv.false_complete rfl t.name w hw herr (by omega)
      exact List.ne_nil_of_mem hmem
    · have hsucc : ∀ t ∈ g.tasks, get_task_status s t.name =
          .ok .Success := by
        intro t ht
        rcases hterm t ht with h | h
        · exact h
        · exact absurd ⟨t, ht, h⟩ hfail
      have hph : ∀ n w, workerOf s n = some w → 2 ≤ w.phase := by
        intro n w hw
        rcases name_task_of_worker g s hinv.keys n w hw with ⟨t, ht, hn⟩
        have hs := hsucc t ht
        rw [hn] at hs
        rcases get_task_status_ok_elim s n _ hs with ⟨w2, hw2, hw2s⟩
        rw [hw] at hw2
        have he : w2 = w := (Option.some.inj hw2).symm
        subst he
        rcases (status_success_iff w2).mp hw2s with ⟨hst, hfin, _⟩
        have := (hrest n w2 hw).2 hfin
        omega
      have hmem : true ∈ s.log := hinv.true_complete rfl hne hsucc hph
      exact List.ne_nil_of_mem hmem
  · intro g body s hr
    exact reach_strip g body s hr
  · intro g body s hr
    rcases reach_addlog g body s hr with ⟨L, hL⟩
    exact ⟨{ s with log := L }, hL, rfl, rfl, rfl⟩

/-- C2 witness: the amended statement applied at the concrete
double-invocation state of `gPair`: the `False` invocations are sound
(some task has failed there), and the same execution with no callback
is reachable with identical workers and start order. -/
theorem C2_witness :
    (∃ n, get_task_status sPair2 n = .ok .Failure) ∧
    Reachable gPair bodyAFails false { sPair2 with log := [] } :=
  ⟨(C2_amended_callback_behaviour.1 gPair bodyAFails true gPair_wf sPair2
      sPair2_reach).1 (by decide),
   C2_amended_callback_behaviour.2.2.1 gPair bodyAFails sPair2 sPair2_reach⟩


/-! ### Lemmas about `dictSet`, `lookupOrKey` and counting -/

theorem dictGet_map_upd_self {α : Type} (d : List (String × α)) (k : String)
    (v : α) (hf : (d.find? (fun p => p.1 == k)).isSome = true) :
    dictGet (d.map (fun p => if p.1 == k then (k, v) else p)) k = some v := by
  induction d with
  | nil => simp at hf
  | cons p rest ih =>
      by_cases hp : p.1 = k
      · simp [dictGet, List.find?, hp]
      · have hb : (p.1 == k) = false := by simpa using hp
        simp only [List.find?, hb] at hf
        have := ih hf
        simpa [dictGet, List.find?, hb] using this

theorem dictGet_append_self {α : Type} (d : List (String × α)) (k : String)
    (v : α) (hf : d.find? (fun p => p.1 == k) = none) :
    dictGet (d ++ [(k, v)]) k = some v := by
  induction d with
  | nil => simp [dictGet, List.find?]
  | cons p rest ih =>
      by_cases hp : p.1 = k
      · simp [List.find?, hp] at hf
      · have hb : (p.1 == k) = false := by simpa using hp
        simp only [List.find?, hb] at hf
        have := ih hf
        simpa [dictGet, List.find?, hb] using this

theorem dictGet_dictSet_self {α : Type} (d : List (String × α)) (k : String)
    (v : α) : dictGet (dictSet d k v) k = some v := by
  unfold dictSet
  by_cases hf : (d.find? (fun p => p.1 == k)).isSome = true
  · rw [if_pos hf]
    exact dictGet_map_upd_self d k v hf
  · rw [if_neg hf]
    exact dictGet_append_self d k v (Option.not_isSome_iff_eq_none.mp
      (by simpa using hf))

theorem dictGet_cons {α : Type} (p : String × α) (d : List (String × α))
    (n : String) :
    dictGet (p :: d) n = if p.1 == n then some p.2 else dictGet d n := by
  unfold dictGet
  cases hpn : (p.1 == n) <;> simp [List.find?, hpn]

theorem dictGet_map_upd_ne {α : Type} (d : List (String × α)) (k n : String)
    (v : α) (h : n ≠ k) :
    dictGet (d.map (fun p => if p.1 == k then (k, v) else p)) n =
      dictGet d n := by
  induction d with
  | nil => simp [dictGet]
  | cons p rest ih =>
      rw [List.map_cons, dictGet_cons, dictGet_cons]
      by_cases hp : p.1 = k
      · have hb : (p.1 == k) = true := by simpa using hp
        have hkn : (k == n) = false := by
          simp only [beq_eq_false_iff_ne, ne_eq]
          exact fun e => h e.symm
        have hpn : (p.1 == n) = false := by
          rw [hp]
          exact hkn
        rw [hb]
        simp only [if_true, hkn, hpn, if_false]
        exact ih
      · have hb : (p.1 == k) = false := by simpa using hp
        rw [hb]
        simp only [Bool.false_eq_true, if_false]
        cases hpn : (p.1 == n)
        · simp only [Bool.false_eq_true, if_false]
          exact ih
        · simp

theorem dictGet_append_ne {α : Type} (d : List (String × α)) (k n : String)
    (v : α) (h : n ≠ k) :
    dictGet (d ++ [(k, v)]) n = dictGet d n := by
  induction d with
  | nil =>
      have hkn : (k == n) = false := by
        simp only [beq_eq_false_iff_ne, ne_eq]
        exact fun e => h e.symm
      simp [dictGet, List.find?, hkn]
  | cons p rest ih =>
      by_cases hpn : p.1 = n
      · simp [dictGet, List.find?, hpn]
      · have hpn' : (p.1 == n) = false := by simpa using hpn
        simpa [dictGet, List.find?, hpn'] using ih

theorem dictGet_dictSet_ne {α : Type} (d : List (String × α)) (k n : String)
    (v : α) (h : n ≠ k) : dictGet (dictSet d k v) n = dictGet d n := by
  unfold dictSet
  by_cases hf : (d.find? (fun p => p.1 == k)).isSome = true
  · rw [if_pos hf]
    exact dictGet_map_upd_ne d k n v h
  · rw [if_neg hf]
    exact dictGet_append_ne d k n v h

theorem mem_keys_of_dictGet {α : Type} (d : List (String × α)) (k : String)
    (v : α) (h : dictGet d k = some v) : k ∈ d.map (fun p => p.1) := by
  unfold dictGet at h
  rcases hf : d.find? (fun p => p.1 == k) with _ | p0
  · rw [hf] at h
    simp at h
  · have hk : p0.1 = k := by simpa using List.find?_some hf
    have hmem : p0 ∈ d := List.mem_of_find?_eq_some hf
    have hm2 : p0.1 ∈ d.map (fun p => p.1) :=
      List.mem_map_of_mem (fun p => p.1) hmem
    rwa [hk] at hm2

theorem map_fst_dictSet {α : Type} (d : List (String × α)) (k : String)
    (v : α) (h : k ∈ d.map (fun p => p.1)) :
    (dictSet d k v).map (fun p => p.1) = d.map (fun p => p.1) := by
  rcases dictGet_some_of_mem_keys d k h with ⟨w, hw⟩
  unfold dictGet at hw
  have hf : (d.find? (fun p => p.1 == k)).isSome = true := by
    rcases hfind : d.find? (fun p => p.1 == k) with _ | p0
    · rw [hfind] at hw
      simp at hw
    · rw [hfind]
      rfl
  unfold dictSet
  rw [if_pos hf, List.map_map]
  congr 1
  funext p
  by_cases hp : p.1 = k <;> simp [hp]

theorem dictGet_of_lookupOrKey_ok {α : Type} (d : List (String × α))
    (k : String) (v : α) (h : lookupOrKey d k = .ok v) :
    dictGet d k = some v := by
  unfold lookupOrKey at h
  rcases hd : dictGet d k with _ | w <;> rw [hd] at h
  · cases h
  · simpa using h

theorem lookupOrKey_ok_of_dictGet {α : Type} (d : List (String × α))
    (k : String) (v : α) (h : dictGet d k = some v) :
    lookupOrKey d k = .ok v := by
  simp [lookupOrKey, h]

theorem countP_le_of_imp {α : Type} (l : List α) (p q : α → Bool)
    (h : ∀ a ∈ l, p a = true → q a = true) : l.countP p ≤ l.countP q := by
  induction l with
  | nil => simp
  | cons a l ih =>
      rw [List.countP_cons, List.countP_cons]
      have hl := ih (fun a ha => h a (List.mem_cons_of_mem _ ha))
      by_cases hpa : p a = true
      · rw [if_pos hpa, if_pos (h a (List.mem_cons_self a l) hpa)]
        omega
      · rw [if_neg hpa]
        by_cases hqa : q a = true
        · rw [if_pos hqa]
          omega
        · rw [if_neg hqa]
          omega

theorem countP_lt_of_witness {α : Type} (l : List α) (p q : α → Bool)
    (h : ∀ a ∈ l, p a = true → q a = true) (w : α) (hw : w ∈ l)
    (hq : q w = true) (hp : p w = false) : l.countP p < l.countP q := by
  rcases List.append_of_mem hw with ⟨s, t2, rfl⟩
  rw [List.countP_append, List.countP_append, List.countP_cons,
    List.countP_cons, hp, hq]
  have hs := countP_le_of_imp s p q
    (fun a ha hpa => h a (List.mem_append_left _ ha) hpa)
  have ht := countP_le_of_imp t2 p q
    (fun a ha hpa => h a (List.mem_append_right _
      (List.mem_cons_of_mem _ ha)) hpa)
  simp only [if_true, if_false, Bool.false_eq_true]
  omega

theorem le_foldr_max (l : List Nat) : ∀ x ∈ l, x ≤ l.foldr max 0 := by
  induction l with
  | nil =>
      intro x hx
      simp at hx
  | cons a l ih =>
      intro x hx
      rcases List.mem_cons.mp hx with rfl | hx
      · exact le_max_left _ _
      · exact (ih x hx).trans (le_max_right _ _)

theorem dictGet_const_map {α : Type} (ts : List Task) (c : α) (n : String)
    (h : n ∈ ts.map Task.name) :
    dictGet (ts.map (fun t => (t.name, c))) n = some c := by
  induction ts with
  | nil => simp at h
  | cons t rest ih =>
      rw [List.map_cons, dictGet_cons]
      by_cases ht : t.name = n
      · have hb : (t.name == n) = true := by simpa using ht
        rw [hb]
        simp
      · have hb : (t.name == n) = false := by simpa using ht
        rw [hb]
        simp only [Bool.false_eq_true, if_false]
        have hrest : n ∈ rest.map Task.name := by
          rcases List.mem_map.mp h with ⟨u, hu, hun⟩
          rcases List.mem_cons.mp hu with rfl | hu2
          · exact absurd hun ht
          · exact hun ▸ List.mem_map_of_mem Task.name hu2
        exact ih hrest

theorem unvis_le_names (g : TaskGraph) (st : DfsState) :
    unvis g st ≤ g.names.length := List.countP_le_length _

theorem unvis_mono (g : TaskGraph) (st st2 : DfsState)
    (h : ∀ n, visN st n → visN st2 n) : unvis g st2 ≤ unvis g st := by
  refine countP_le_of_imp _ _ _ ?_
  intro a _ hp
  simp only [decide_eq_true_eq] at hp ⊢
  intro hvis
  exact hp (h a hvis)

theorem unvis_strict (g : TaskGraph) (st st2 : DfsState)
    (h : ∀ n, visN st n → visN st2 n) (m : String) (hm : m ∈ g.names)
    (hold : dictGet st.visited m = some false) (hnew : visN st2 m) :
    unvis g st2 < unvis g st := by
  refine countP_lt_of_witness _ _ _ ?_ m hm ?_ ?_
  · intro a _ hp
    simp only [decide_eq_true_eq] at hp ⊢
    intro hvis
    exact hp (h a hvis)
  · simp [hold]
  · simpa [visN] using hnew


/-! ### Chain lemmas for the DFS recursion stack -/

theorem waitsFor_snoc (g : TaskGraph) :
    ∀ {a b : String}, WaitsFor g a b → ∀ {c : String}, EdgeN g b c →
      WaitsFor g a c := by
  intro a b h
  induction h with
  | direct hxy =>
      intro c he
      exact .trans hxy (.direct he)
  | trans hxy _ ih =>
      intro c he
      exact .trans hxy (ih he)

theorem stackChain_congr (g : TaskGraph)
    (dep1 dep2 : List (String × Option Task)) :
    ∀ σ : List Task, (∀ u ∈ σ, dictGet dep2 u.name = dictGet dep1 u.name) →
      StackChain g dep1 σ → StackChain g dep2 σ := by
  intro σ
  induction σ with
  | nil =>
      intro _ _
      trivial
  | cons a rest ih =>
      intro hpt hch
      cases rest with
      | nil => trivial
      | cons b rest2 =>
          simp only [StackChain] at hch ⊢
          obtain ⟨h1, h2, h3⟩ := hch
          refine ⟨?_, h2, ?_⟩
          · rw [hpt a (List.mem_cons_self _ _)]
            exact h1
          · exact ih (fun u hu => hpt u (List.mem_cons_of_mem _ hu)) h3

theorem stackChain_snoc (g : TaskGraph) (dep : List (String × Option Task))
    (w : Task) :
    ∀ (l : List Task) (t : Task), StackChain g dep (l ++ [t]) →
      t.name ∉ l.map Task.name → EdgeN g t.name w.name →
      StackChain g (dictSet dep t.name (some w)) ((l ++ [t]) ++ [w]) := by
  intro l
  induction l with
  | nil =>
      intro t _ _ he
      simp only [List.nil_append, List.cons_append, StackChain]
      exact ⟨dictGet_dictSet_self dep t.name (some w), he, trivial⟩
  | cons a l ih =>
      intro t hch hnm he
      simp only [List.map_cons, List.mem_cons, not_or] at hnm
      rcases hlt : l ++ [t] with _ | ⟨b, rest⟩
      · exact absurd (List.append_eq_nil.mp hlt).2 (by simp)
      · have hch2 : StackChain g dep (a :: b :: rest) := by
          rw [List.cons_append, hlt] at hch
          exact hch
        simp only [StackChain] at hch2
        obtain ⟨h1, h2, h3⟩ := hch2
        have goal2 : StackChain g (dictSet dep t.name (some w))
            ((b :: rest) ++ [w]) := by
          rw [← hlt]
          refine ih t ?_ hnm.2 he
          rw [hlt]
          exact h3
        show StackChain g (dictSet dep t.name (some w))
          (a :: ((l ++ [t]) ++ [w]))
        rw [hlt]
        simp only [List.cons_append, StackChain]
        refine ⟨?_, h2, ?_⟩
        · rw [dictGet_dictSet_ne dep t.name a.name (some w)
            (fun e => hnm.1 e.symm)]
          exact h1
        · simpa [List.cons_append] using goal2

theorem stackChain_depChain (g : TaskGraph)
    (dep : List (String × Option Task)) :
    ∀ (σ : List Task) (t w : Task), StackChain g dep σ →
      σ.getLast? = some t → w ∈ σ → (σ.map Task.name).Nodup →
      ∃ suf, DepChainTo dep t w suf ∧ suf.length < σ.length := by
  intro σ
  induction σ with
  | nil =>
      intro t w _ _ hw _
      simp at hw
  | cons a rest ih =>
      intro t w hch hlast hw hnd
      cases rest with
      | nil =>
          have ht : a = t := by simpa using hlast
          have hwa : w = a := by simpa using hw
          refine ⟨[], ?_, by simp⟩
          simp only [DepChainTo]
          rw [hwa, ht]
      | cons b rest2 =>
          rw [List.getLast?_cons_cons] at hlast
          simp only [StackChain] at hch
          obtain ⟨h1, h2, h3⟩ := hch
          simp only [List.map_cons, List.nodup_cons] at hnd
          rcases List.mem_cons.mp hw with rfl | hw2
          · obtain ⟨suf', hd', hlen'⟩ :=
              ih t b h3 hlast (List.mem_cons_self _ _) (by
                simp only [List.map_cons, List.nodup_cons]
                exact hnd.2)
            refine ⟨b :: suf', ?_, ?_⟩
            · simp only [DepChainTo]
              refine ⟨?_, h1, hd'⟩
              have htmem : t ∈ b :: rest2 := List.mem_of_getLast?_eq_some hlast
              have htn : t.name ∈ (b :: rest2).map Task.name :=
                List.mem_map_of_mem _ htmem
              intro he
              rw [he] at hnd
              exact hnd.1 (by simpa using htn)
            · simp only [List.length_cons] at hlen' ⊢
              omega
          · obtain ⟨suf', hd', hlen'⟩ := ih t w h3 hlast hw2 (by
              simp only [List.map_cons, List.nodup_cons]
              exact hnd.2)
            refine ⟨suf', hd', ?_⟩
            simp only [List.length_cons] at hlen' ⊢
            omega

theorem stackChain_waitsFor (g : TaskGraph)
    (dep : List (String × Option Task)) :
    ∀ (σ : List Task) (t w : Task), StackChain g dep σ →
      σ.getLast? = some t → w ∈ σ →
      w = t ∨ WaitsFor g w.name t.name := by
  intro σ
  induction σ with
  | nil =>
      intro t w _ _ hw
      simp at hw
  | cons a rest ih =>
      intro t w hch hlast hw
      cases rest with
      | nil =>
          have ht : a = t := by simpa using hlast
          have hwa : w = a := by simpa using hw
          exact Or.inl (hwa.trans ht)
      | cons b rest2 =>
          rw [List.getLast?_cons_cons] at hlast
          simp only [StackChain] at hch
          obtain ⟨_, h2, h3⟩ := hch
          rcases List.mem_cons.mp hw with rfl | hw2
          · rcases ih t b h3 hlast (List.mem_cons_self _ _) with rfl | hbt
            · exact Or.inr (.direct h2)
            · exact Or.inr (.trans h2 hbt)
          · exact ih t w h3 hlast hw2

theorem depChainTo_congr (dep : List (String × Option Task)) (t : Task)
    (v u : Task) (h : u.name = v.name) :
    ∀ l, DepChainTo dep t v l → DepChainTo dep t u l := by
  intro l
  cases l with
  | nil =>
      intro hd
      simp only [DepChainTo] at hd ⊢
      rw [h]
      exact hd
  | cons v2 rest =>
      intro hd
      simp only [DepChainTo] at hd ⊢
      obtain ⟨h1, h2, h3⟩ := hd
      refine ⟨?_, ?_, h3⟩
      · rw [h]
        exact h1
      · rw [h]
        exact h2

theorem cycleWalk_ok (dep : List (String × Option Task)) (t : Task) :
    ∀ (suf : List Task) (v : Task) (acc : List Task) (fuel : Nat),
      DepChainTo dep t v suf → suf.length < fuel →
      ∃ c, cycleWalk dep fuel v t acc = .ok c := by
  intro suf
  induction suf with
  | nil =>
      intro v acc fuel hd hf
      simp only [DepChainTo] at hd
      cases fuel with
      | zero => exact absurd hf (by simp)
      | succ f =>
          refine ⟨acc, ?_⟩
          have hpe : v.pyEq t = true := by simp [Task.pyEq, hd]
          simp only [cycleWalk, hpe, if_true]
  | cons v2 rest ih =>
      intro v acc fuel hd hf
      simp only [DepChainTo] at hd
      obtain ⟨hne, hlk, hrest⟩ := hd
      cases fuel with
      | zero => exact absurd hf (Nat.not_lt_zero _)
      | succ f =>
          have hpe : v.pyEq t = false := by simp [Task.pyEq, hne]
          obtain ⟨c, hc⟩ := ih v2 (acc ++ [v]) f hrest (by simpa using hf)
          refine ⟨c, ?_⟩
          simp only [cycleWalk, hpe, Bool.false_eq_true, if_false]
          rw [hlk]
          exact hc

theorem blackN_congr (st st2 : DfsState)
    (hv : ∀ n, dictGet st2.visited n = dictGet st.visited n)
    (hs : ∀ n, dictGet st2.on_stack n = dictGet st.on_stack n) (n : String) :
    BlackN st2 n ↔ BlackN st n := by
  unfold BlackN visN
  rw [hv n, hs n]

theorem blackRank_congr (g : TaskGraph) (st st2 : DfsState)
    (hb : ∀ n, BlackN st2 n ↔ BlackN st n) (h : BlackRank g st) :
    BlackRank g st2 := by
  obtain ⟨r, hr⟩ := h
  refine ⟨r, fun n hn m hm => ?_⟩
  obtain ⟨hbm, hlt⟩ := hr n ((hb n).mp hn) m hm
  exact ⟨(hb m).mpr hbm, hlt⟩


/-! ### Reduction equations for the DFS functions -/

theorem nodup_snoc_notin {α : Type} (l : List α) (x : α)
    (h : (l ++ [x]).Nodup) : x ∉ l := by
  rw [List.nodup_append] at h
  intro hm
  exact h.2.2 hm (List.mem_singleton_self x)

theorem stackChain_prefix (g : TaskGraph)
    (dep : List (String × Option Task)) :
    ∀ (l : List Task) (x : Task), StackChain g dep (l ++ [x]) →
      StackChain g dep l := by
  intro l
  induction l with
  | nil =>
      intro x _
      trivial
  | cons a rest ih =>
      intro x hch
      cases rest with
      | nil => trivial
      | cons b rest2 =>
          have hch2 : StackChain g dep (a :: b :: (rest2 ++ [x])) := hch
          simp only [StackChain] at hch2 ⊢
          exact ⟨hch2.1, hch2.2.1, ih x hch2.2.2⟩

theorem dfsLoop_cycleSome (visit : Task → DfsState → Except DfsErr DfsState)
    (t w : Task) (ws : List Task) (st : DfsState)
    (h : st.cycle.isSome = true) :
    dfsLoop visit t (w :: ws) st = .ok (st, false) := by
  simp [dfsLoop, h]

theorem dfsLoop_unvisited (visit : Task → DfsState → Except DfsErr DfsState)
    (t w : Task) (ws : List Task) (st : DfsState)
    (hc : st.cycle.isSome = false)
    (hv : lookupOrKey st.visited w.name = .ok false) :
    dfsLoop visit t (w :: ws) st =
      match visit w { st with
          on_stack_dep := dictSet st.on_stack_dep t.name (some w) } with
      | .error e => .error e
      | .ok st2 => dfsLoop visit t ws st2 := by
  simp [dfsLoop, hc, hv]

theorem dfsLoop_offstack (visit : Task → DfsState → Except DfsErr DfsState)
    (t w : Task) (ws : List Task) (st : DfsState)
    (hc : st.cycle.isSome = false)
    (hv : lookupOrKey st.visited w.name = .ok true)
    (hs : lookupOrKey st.on_stack w.name = .ok false) :
    dfsLoop visit t (w :: ws) st = dfsLoop visit t ws st := by
  simp [dfsLoop, hc, hv, hs]

theorem dfsLoop_onstack (visit : Task → DfsState → Except DfsErr DfsState)
    (t w : Task) (ws : List Task) (st : DfsState)
    (hc : st.cycle.isSome = false)
    (hv : lookupOrKey st.visited w.name = .ok true)
    (hs : lookupOrKey st.on_stack w.name = .ok true)
    (c : List Task)
    (hw : cycleWalk st.on_stack_dep (st.on_stack_dep.length + 1) w t [] =
      .ok c) :
    dfsLoop visit t (w :: ws) st =
      dfsLoop visit t ws { st with cycle := some (c ++ [t, w]) } := by
  simp [dfsLoop, hc, hv, hs, hw]

theorem dfsVisit_eq (g : TaskGraph) (fuel : Nat) (t : Task) (st : DfsState)
    (ws : List Task)
    (hlk : lookupOrKey g.task2waiting_for t.name = .ok ws) :
    dfsVisit g (fuel + 1) t st =
      match dfsLoop (dfsVisit g fuel) t ws
          { st with visited := dictSet st.visited t.name true,
                    on_stack := dictSet st.on_stack t.name true } with
      | .error e => .error e
      | .ok r =>
          if r.2 then
            .ok { r.1 with on_stack := dictSet r.1.on_stack t.name false }
          else .ok r.1 := by
  simp [dfsVisit, hlk]

theorem dfsOuter_skip (g : TaskGraph) (t : Task) (ts : List Task)
    (st : DfsState) (hv : lookupOrKey st.visited t.name = .ok true) :
    dfsOuter g (t :: ts) st = dfsOuter g ts st := by
  simp [dfsOuter, hv]

theorem dfsOuter_visit (g : TaskGraph) (t : Task) (ts : List Task)
    (st : DfsState) (hv : lookupOrKey st.visited t.name = .ok false) :
    dfsOuter g (t :: ts) st =
      match dfsVisit g (g.tasks.length + 1) t st with
      | .error e => .error e
      | .ok st1 => dfsOuter g ts st1 := by
  simp [dfsOuter, hv]


/-! ### Success and invariant preservation of the DFS dependency loop -/

theorem dfsLoop_ok (g : TaskGraph) (_hwf : g.WF) (fuel : Nat)
    (hvisit : ∀ t st σ, VisitPre g fuel t st σ →
      ∃ st2, dfsVisit g fuel t st = .ok st2 ∧ VisitPost g t st st2)
    (t : Task) (σ : List Task) :
    ∀ (ws : List Task) (st : DfsState), LoopPre g fuel t ws st σ →
      ∃ st2 flag, dfsLoop (dfsVisit g fuel) t ws st = .ok (st2, flag) ∧
        LoopPost g t st st2 flag ws := by
  intro ws
  induction ws with
  | nil =>
      intro st hpre
      obtain ⟨hk, htn, hvt, hu, hws, hcyc, hnone⟩ := hpre
      refine ⟨st, true, rfl, hk, fun n h => h, le_rfl, fun c hc => hc, hcyc,
        ?_, ?_⟩
      · intro h
        cases h
      · intro hc
        obtain ⟨hex, hvis, hnd, hreg, hch, hbr⟩ := hnone hc
        refine ⟨fun n => rfl, fun n _ _ => rfl, hbr, ?_⟩
        intro w hw
        exact absurd hw (List.not_mem_nil _)
  | cons w ws ih =>
      intro st hpre
      obtain ⟨hk, htn, hvt, hu, hws, hcyc, hnone⟩ := hpre
      obtain ⟨hwname, hwedge⟩ := hws w (List.mem_cons_self _ _)
      have hwstail : ∀ u ∈ ws, u.name ∈ g.names ∧ EdgeN g t.name u.name :=
        fun u hu2 => hws u (List.mem_cons_of_mem _ hu2)
      by_cases hcyS : st.cycle.isSome = true
      · refine ⟨st, false, dfsLoop_cycleSome _ _ _ _ _ hcyS, hk,
          fun n h => h, le_rfl, fun c hc => hc, hcyc, fun _ => hcyS, ?_⟩
        intro hc
        rw [hc] at hcyS
        simp at hcyS
      · have hcF : st.cycle.isSome = false := by
          simpa using hcyS
        have hcn : st.cycle = none := Option.not_isSome_iff_eq_none.mp hcyS
        obtain ⟨hex, hvisσ, hnd, hreg, hch, hbr⟩ := hnone hcn
        have hwkey : w.name ∈ st.visited.map (fun p => p.1) := by
          rw [hk.1]
          exact hwname
        obtain ⟨bv, hbv⟩ := dictGet_some_of_mem_keys _ _ hwkey
        cases bv with
        | false =>
            have hlook : lookupOrKey st.visited w.name = .ok false :=
              lookupOrKey_ok_of_dictGet _ _ _ hbv
            have hnotσt : t.name ∉ σ.map Task.name := by
              have hnd2 := hnd
              rw [List.map_append] at hnd2
              exact nodup_snoc_notin _ _ (by simpa using hnd2)
            have hchsnoc : StackChain g
                (dictSet st.on_stack_dep t.name (some w))
                ((σ ++ [t]) ++ [w]) :=
              stackChain_snoc g st.on_stack_dep w σ t hch hnotσt hwedge
            have hpre1 : VisitPre g fuel w
                { st with on_stack_dep :=
                    dictSet st.on_stack_dep t.name (some w) } (σ ++ [t]) := by
              refine ⟨⟨hk.1, hk.2.1, ?_⟩, hwname, hbv, hu, hcyc, ?_⟩
              · show (dictSet st.on_stack_dep t.name (some w)).map
                  (fun p => p.1) = g.names
                rw [map_fst_dictSet _ _ _ (by rw [hk.2.2]; exact htn)]
                exact hk.2.2
              · intro _
                exact ⟨hex, hvisσ, hnd, hreg, hchsnoc, hbr⟩
            obtain ⟨st2', hvEq, hk2, hmono2, hvw2, hu2, hpers2, hwit2,
              hnone2⟩ := hvisit w _ (σ ++ [t]) hpre1
            have hch1 : StackChain g
                (dictSet st.on_stack_dep t.name (some w)) (σ ++ [t]) :=
              stackChain_prefix g _ (σ ++ [t]) w hchsnoc
            have hpretail : LoopPre g fuel t ws st2' σ := by
              refine ⟨hk2, htn, hmono2 t.name hvt, lt_trans hu2 hu,
                hwstail, hwit2, ?_⟩
              intro hc2
              obtain ⟨hsame, hdeppres, hbr2, hblackw⟩ := hnone2 hc2
              refine ⟨?_, ?_, hnd, hreg, ?_, hbr2⟩
              · intro n hn
                rw [hsame n]
                exact hex n hn
              · intro u hu3
                exact hmono2 u.name (hvisσ u hu3)
              · refine stackChain_congr g _ _ (σ ++ [t]) ?_ hch1
                intro u hu3
                exact hdeppres u.name (hvisσ u hu3)
            obtain ⟨st3, flag, hloopEq, hk3, hmono3, hu3, hpers3, hwit3,
              hflag3, hnone3⟩ := ih st2' hpretail
            refine ⟨st3, flag, ?_, hk3,
              fun n hv2 => hmono3 n (hmono2 n hv2),
              le_trans hu3 (le_of_lt hu2), ?_, hwit3, hflag3, ?_⟩
            · rw [dfsLoop_unvisited _ _ _ _ _ hcF hlook, hvEq]
              exact hloopEq
            · intro c hcx
              rw [hcn] at hcx
              cases hcx
            · intro hc3
              have h2c : st2'.cycle = none := by
                rcases h2 : st2'.cycle with _ | c
                · rfl
                · rw [hpers3 c h2] at hc3
                  cases hc3
              obtain ⟨hsame, hdeppres, hbr2, hblackw⟩ := hnone2 h2c
              obtain ⟨hsame3, hdep3, hbr3, hblack3⟩ := hnone3 hc3
              refine ⟨?_, ?_, hbr3, ?_⟩
              · intro n
                rw [hsame3 n, hsame n]
              · intro n hv2 hnt
                rw [hdep3 n (hmono2 n hv2) hnt, hdeppres n hv2]
                exact dictGet_dictSet_ne _ _ _ _ hnt
              · intro u hu4
                rcases List.mem_cons.mp hu4 with rfl | hu5
                · refine ⟨hmono3 _ hblackw.1, ?_⟩
                  rw [hsame3]
                  exact hblackw.2
                · exact hblack3 u hu5
        | true =>
            have hlook : lookupOrKey st.visited w.name = .ok true :=
              lookupOrKey_ok_of_dictGet _ _ _ hbv
            have hskey : w.name ∈ st.on_stack.map (fun p => p.1) := by
              rw [hk.2.1]
              exact hwname
            obtain ⟨bs, hbs⟩ := dictGet_some_of_mem_keys _ _ hskey
            cases bs with
            | false =>
                have hslook : lookupOrKey st.on_stack w.name = .ok false :=
                  lookupOrKey_ok_of_dictGet _ _ _ hbs
                obtain ⟨st3, flag, hloopEq, hk3, hmono3, hu3, hpers3,
                  hwit3, hflag3, hnone3⟩ := ih st
                  ⟨hk, htn, hvt, hu, hwstail, hcyc, hnone⟩
                refine ⟨st3, flag, ?_, hk3, hmono3, hu3, hpers3, hwit3,
                  hflag3, ?_⟩
                · rw [dfsLoop_offstack _ _ _ _ _ hcF hlook hslook]
                  exact hloopEq
                · intro hc3
                  obtain ⟨hsame3, hdep3, hbr3, hblack3⟩ := hnone3 hc3
                  refine ⟨hsame3, hdep3, hbr3, ?_⟩
                  intro u hu4
                  rcases List.mem_cons.mp hu4 with rfl | hu5
                  · refine ⟨hmono3 _ hbv, ?_⟩
                    rw [hsame3]
                    exact hbs
                  · exact hblack3 u hu5
            | true =>
                have hslook : lookupOrKey st.on_stack w.name = .ok true :=
                  lookupOrKey_ok_of_dictGet _ _ _ hbs
                have hwmem : w.name ∈ (σ ++ [t]).map Task.name :=
                  (hex w.name hwname).mp hbs
                obtain ⟨w', hw'mem, hw'name⟩ := List.mem_map.mp hwmem
                have hlastσ : (σ ++ [t]).getLast? = some t := by
                  simp
                obtain ⟨suf, hdc', hsuflen⟩ := stackChain_depChain g
                  st.on_stack_dep (σ ++ [t]) t w' hch hlastσ hw'mem hnd
                have hdc : DepChainTo st.on_stack_dep t w suf :=
                  depChainTo_congr st.on_stack_dep t w' w hw'name.symm suf
                    hdc'
                have hlenb : (σ ++ [t]).length ≤ st.on_stack_dep.length := by
                  have hsub : List.Subperm ((σ ++ [t]).map Task.name)
                      g.names := by
                    refine List.subperm_of_subset hnd ?_
                    intro x hx
                    obtain ⟨u, hu4, rfl⟩ := List.mem_map.mp hx
                    exact hreg u hu4
                  have h1 := hsub.length_le
                  rw [List.length_map] at h1
                  have h2 : st.on_stack_dep.length = g.names.length := by
                    have h3 := congrArg List.length hk.2.2
                    rwa [List.length_map] at h3
                  omega
                obtain ⟨c, hcw⟩ := cycleWalk_ok st.on_stack_dep t suf w []
                  (st.on_stack_dep.length + 1) hdc (by omega)
                have hwit : ∃ n, WaitsFor g n n := by
                  rcases stackChain_waitsFor g st.on_stack_dep (σ ++ [t]) t
                    w' hch hlastσ hw'mem with rfl | hwt
                  · refine ⟨w.name, .direct ?_⟩
                    rw [hw'name] at hwedge
                    exact hwedge
                  · have hedge' : EdgeN g t.name w'.name := by
                      rw [hw'name]
                      exact hwedge
                    exact ⟨w'.name, waitsFor_snoc g hwt hedge'⟩
                have hpretail : LoopPre g fuel t ws
                    { st with cycle := some (c ++ [t, w]) } σ := by
                  refine ⟨hk, htn, hvt, hu, hwstail, fun _ => hwit, ?_⟩
                  intro hcc
                  cases hcc
                obtain ⟨st3, flag, hloopEq, hk3, hmono3, hu3, hpers3,
                  hwit3, hflag3, hnone3⟩ := ih _ hpretail
                refine ⟨st3, flag, ?_, hk3, hmono3, hu3, ?_, hwit3,
                  hflag3, ?_⟩
                · rw [dfsLoop_onstack _ _ _ _ _ hcF hlook hslook c hcw]
                  exact hloopEq
                · intro c0 hc0
                  rw [hcn] at hc0
                  cases hc0
                · intro hc3
                  have hsome3 := hpers3 (c ++ [t, w]) rfl
                  rw [hsome3] at hc3
                  cases hc3


/-! ### Success and invariant preservation of the embedded `dfs` -/

theorem dfsVisit_ok (g : TaskGraph) (hwf : g.WF) :
    ∀ (fuel : Nat) (t : Task) (st : DfsState) (σ : List Task),
      VisitPre g fuel t st σ →
      ∃ st2, dfsVisit g fuel t st = .ok st2 ∧ VisitPost g t st st2 := by
  intro fuel
  induction fuel with
  | zero =>
      intro t st σ hpre
      exact absurd hpre.2.2.2.1 (Nat.not_lt_zero _)
  | succ f ih =>
      intro t st σ hpre
      obtain ⟨hk, htn, hvF, hu, hcyc, hnone⟩ := hpre
      have hdk : t.name ∈ g.task2waiting_for.map (fun p => p.1) := by
        rw [hwf.keys]
        exact htn
      obtain ⟨ws, hws⟩ := dictGet_some_of_mem_keys _ _ hdk
      have hlkws : lookupOrKey g.task2waiting_for t.name = .ok ws :=
        lookupOrKey_ok_of_dictGet _ _ _ hws
      have hvis1 : ∀ n, dictGet (dictSet st.visited t.name true) n =
          if n = t.name then some true else dictGet st.visited n := by
        intro n
        by_cases hnt : n = t.name
        · subst hnt
          rw [if_pos rfl]
          exact dictGet_dictSet_self _ _ _
        · rw [if_neg hnt]
          exact dictGet_dictSet_ne _ _ _ _ hnt
      have hstk1 : ∀ n, dictGet (dictSet st.on_stack t.name true) n =
          if n = t.name then some true else dictGet st.on_stack n := by
        intro n
        by_cases hnt : n = t.name
        · subst hnt
          rw [if_pos rfl]
          exact dictGet_dictSet_self _ _ _
        · rw [if_neg hnt]
          exact dictGet_dictSet_ne _ _ _ _ hnt
      have hmono1 : ∀ n, visN st n →
          visN { st with
            visited := dictSet st.visited t.name true
            on_stack := dictSet st.on_stack t.name true } n := by
        intro n hv
        show dictGet (dictSet st.visited t.name true) n = some true
        rw [hvis1 n]
        by_cases hnt : n = t.name
        · rw [if_pos hnt]
        · rw [if_neg hnt]
          exact hv
      have hvt1 : visN { st with
          visited := dictSet st.visited t.name true
          on_stack := dictSet st.on_stack t.name true } t.name :=
        dictGet_dictSet_self _ _ _
      have hu1 : unvis g
          { st with
            visited := dictSet st.visited t.name true
            on_stack := dictSet st.on_stack t.name true } <
          unvis g st :=
        unvis_strict g st _ hmono1 t.name htn hvF hvt1
      have hwsfacts : ∀ w ∈ ws, w.name ∈ g.names ∧ EdgeN g t.name w.name := by
        intro w hwm
        exact ⟨hwf.deps_registered t.name ws hws w hwm, ws, hws, w, hwm, rfl⟩
      have hpreloop : LoopPre g f t ws
          { st with
            visited := dictSet st.visited t.name true
            on_stack := dictSet st.on_stack t.name true } σ := by
        refine ⟨⟨?_, ?_, hk.2.2⟩, htn, hvt1, ?_, hwsfacts, hcyc, ?_⟩
        · show (dictSet st.visited t.name true).map (fun p => p.1) = g.names
          rw [map_fst_dictSet _ _ _ (by rw [hk.1]; exact htn)]
          exact hk.1
        · show (dictSet st.on_stack t.name true).map (fun p => p.1) =
            g.names
          rw [map_fst_dictSet _ _ _ (by rw [hk.2.1]; exact htn)]
          exact hk.2.1
        · have hle : unvis g st ≤ f := Nat.lt_succ_iff.mp hu
          omega
        · intro hc1
          have hcn : st.cycle = none := hc1
          obtain ⟨hex, hvisσ, hnd, hreg, hch, hbr⟩ := hnone hcn
          have hnotin : t.name ∉ σ.map Task.name := by
            intro hmem
            obtain ⟨u, hum, hun⟩ := List.mem_map.mp hmem
            have hvu := hvisσ u hum
            unfold visN at hvu
            rw [hun, hvF] at hvu
            simp at hvu
          refine ⟨?_, ?_, ?_, ?_, hch, ?_⟩
          · intro n hn
            show dictGet (dictSet st.on_stack t.name true) n = some true ↔ _
            rw [hstk1 n, List.map_append]
            by_cases hnt : n = t.name
            · subst hnt
              rw [if_pos rfl]
              simp
            · rw [if_neg hnt]
              constructor
              · intro hsome
                exact List.mem_append_left _ ((hex n hn).mp hsome)
              · intro hmm
                rcases List.mem_append.mp hmm with hmm1 | hmm2
                · exact (hex n hn).mpr hmm1
                · simp at hmm2
                  exact absurd hmm2 hnt
          · intro u hu2
            rcases List.mem_append.mp hu2 with h1 | h2
            · exact hmono1 u.name (hvisσ u h1)
            · have heq : u = t := by simpa using h2
              subst heq
              exact hvt1
          · rw [List.map_append, List.nodup_append]
            refine ⟨hnd, by simp, ?_⟩
            intro a ha hb
            simp at hb
            subst hb
            exact hnotin ha
          · intro u hu2
            rcases List.mem_append.mp hu2 with h1 | h2
            · exact hreg u h1
            · have heq : u = t := by simpa using h2
              subst heq
              exact htn
          · refine blackRank_congr g st _ ?_ hbr
            intro n
            unfold BlackN visN
            show (dictGet (dictSet st.visited t.name true) n = some true ∧
                dictGet (dictSet st.on_stack t.name true) n = some false) ↔ _
            rw [hvis1 n, hstk1 n]
            by_cases hnt : n = t.name
            · subst hnt
              rw [if_pos rfl, if_pos rfl]
              constructor
              · intro hcontr
                simp at hcontr
              · intro hcontr
                rw [hvF] at hcontr
                simp at hcontr
            · rw [if_neg hnt, if_neg hnt]
      obtain ⟨st2, flag, hloopEq, hk2, hmono2, hu2, hpers2, hwit2, hflag2,
        hnone2⟩ := dfsLoop_ok g hwf f ih t σ ws _ hpreloop
      cases flag with
      | true =>
          refine ⟨{ st2 with on_stack := dictSet st2.on_stack t.name false },
            ?_, ?_⟩
          · rw [dfsVisit_eq g f t st ws hlkws, hloopEq]
            rfl
          · refine ⟨⟨hk2.1, ?_, hk2.2.2⟩,
              fun n hv => hmono2 n (hmono1 n hv),
              hmono2 t.name hvt1, lt_of_le_of_lt hu2 hu1,
              fun c hcx => hpers2 c hcx, hwit2, ?_⟩
            · show (dictSet st2.on_stack t.name false).map (fun p => p.1) =
                g.names
              rw [map_fst_dictSet _ _ _ (by rw [hk2.2.1]; exact htn)]
              exact hk2.2.1
            · intro hcN
              have h2c : st2.cycle = none := hcN
              have hcn : st.cycle = none := by
                rcases hcs : st.cycle with _ | c0
                · rfl
                · rw [hpers2 c0 hcs] at h2c
                  cases h2c
              obtain ⟨hex, hvisσ, hnd, hreg, hch, hbr⟩ := hnone hcn
              obtain ⟨hsame2, hdep2, hbr2, hblackws⟩ := hnone2 h2c
              have hnotin : t.name ∉ σ.map Task.name := by
                intro hmem
                obtain ⟨u, hum, hun⟩ := List.mem_map.mp hmem
                have hvu := hvisσ u hum
                unfold visN at hvu
                rw [hun, hvF] at hvu
                simp at hvu
              have hstF : dictGet st.on_stack t.name = some false := by
                obtain ⟨b, hb⟩ := dictGet_some_of_mem_keys st.on_stack t.name
                  (by rw [hk.2.1]; exact htn)
                cases b with
                | false => exact hb
                | true => exact absurd ((hex t.name htn).mp hb) hnotin
              have hstk2t : dictGet st2.on_stack t.name = some true := by
                rw [hsame2 t.name]
                exact dictGet_dictSet_self _ _ _
              refine ⟨?_, ?_, ?_, ?_⟩
              · intro n
                by_cases hnt : n = t.name
                · subst hnt
                  show dictGet (dictSet st2.on_stack t.name false) t.name = _
                  rw [dictGet_dictSet_self, hstF]
                · show dictGet (dictSet st2.on_stack t.name false) n = _
                  rw [dictGet_dictSet_ne _ _ _ _ hnt, hsame2 n]
                  exact dictGet_dictSet_ne _ _ _ _ hnt
              · intro n hv
                have hnt : n ≠ t.name := by
                  intro he
                  unfold visN at hv
                  rw [he, hvF] at hv
                  simp at hv
                exact hdep2 n (hmono1 n hv) hnt
              · obtain ⟨r, hr⟩ := hbr2
                refine ⟨fun n => if n = t.name
                  then (g.names.map r).foldr max 0 + 1 else r n, ?_⟩
                intro n hbn m hem
                by_cases hnt : n = t.name
                · subst hnt
                  obtain ⟨ds, hds, d, hdm, hdname⟩ := hem
                  subst hdname
                  have hdsws : ds = ws :=
                    Option.some.inj (hds.symm.trans hws)
                  subst hdsws
                  have hbd := hblackws d hdm
                  have hdnt : d.name ≠ t.name := by
                    intro he
                    rw [he] at hbd
                    exact absurd hbd.2 (by rw [hstk2t]; simp)
                  refine ⟨⟨hbd.1, ?_⟩, ?_⟩
                  · show dictGet (dictSet st2.on_stack t.name false) _ = _
                    rw [dictGet_dictSet_ne _ _ _ _ hdnt]
                    exact hbd.2
                  · have hdn : d.name ∈ g.names :=
                      hwf.deps_registered t.name ds hds d hdm
                    have hle := le_foldr_max (g.names.map r) (r d.name)
                      (List.mem_map_of_mem r hdn)
                    simp only [hdnt, if_false, if_true]
                    simp [hdnt]
                    omega
                · have hbn2 : BlackN st2 n := by
                    refine ⟨hbn.1, ?_⟩
                    have hb2 : dictGet (dictSet st2.on_stack t.name false) n =
                        some false := hbn.2
                    rw [dictGet_dictSet_ne st2.on_stack t.name n false hnt]
                      at hb2
                    exact hb2
                  obtain ⟨hbm, hlt⟩ := hr n hbn2 m hem
                  have hmnt : m ≠ t.name := by
                    intro he
                    rw [he] at hbm
                    exact absurd hbm.2 (by rw [hstk2t]; simp)
                  refine ⟨⟨hbm.1, ?_⟩, ?_⟩
                  · show dictGet (dictSet st2.on_stack t.name false) _ = _
                    rw [dictGet_dictSet_ne _ _ _ _ hmnt]
                    exact hbm.2
                  · simp only [hmnt, hnt, if_false]
                    exact hlt
              · exact ⟨hmono2 t.name hvt1, dictGet_dictSet_self _ _ _⟩
      | false =>
          have hcyS2 := hflag2 rfl
          refine ⟨st2, ?_, ?_⟩
          · rw [dfsVisit_eq g f t st ws hlkws, hloopEq]
            rfl
          · refine ⟨hk2, fun n hv => hmono2 n (hmono1 n hv),
              hmono2 t.name hvt1, lt_of_le_of_lt hu2 hu1,
              fun c hcx => hpers2 c hcx, hwit2, ?_⟩
            intro hcN
            rw [hcN] at hcyS2
            simp at hcyS2


/-! ### The outer loop and the `has_cycle` specification -/

theorem dfsOuter_ok (g : TaskGraph) (hwf : g.WF) :
    ∀ (ts : List Task) (st : DfsState), (∀ t ∈ ts, t.name ∈ g.names) →
      OuterInv g st →
      ∃ st2, dfsOuter g ts st = .ok st2 ∧ OuterInv g st2 ∧
        (∀ n, visN st n → visN st2 n) ∧ (∀ t ∈ ts, visN st2 t.name) ∧
        (∀ c, st.cycle = some c → st2.cycle = some c) := by
  intro ts
  induction ts with
  | nil =>
      intro st _ hinv
      exact ⟨st, rfl, hinv, fun n h => h,
        fun t ht => absurd ht (List.not_mem_nil _), fun c hc => hc⟩
  | cons t ts ih =>
      intro st hts hinv
      obtain ⟨hk, hcyc, hnone⟩ := hinv
      have htn : t.name ∈ g.names := hts t (List.mem_cons_self _ _)
      have htstail : ∀ u ∈ ts, u.name ∈ g.names :=
        fun u hu => hts u (List.mem_cons_of_mem _ hu)
      obtain ⟨bv, hbv⟩ := dictGet_some_of_mem_keys st.visited t.name
        (by rw [hk.1]; exact htn)
      cases bv with
      | true =>
          have hlook : lookupOrKey st.visited t.name = .ok true :=
            lookupOrKey_ok_of_dictGet _ _ _ hbv
          obtain ⟨st2, hEq, hinv2, hmono, hvis, hpers⟩ :=
            ih st htstail ⟨hk, hcyc, hnone⟩
          refine ⟨st2, ?_, hinv2, hmono, ?_, hpers⟩
          · rw [dfsOuter_skip g t ts st hlook]
            exact hEq
          · intro u hu
            rcases List.mem_cons.mp hu with rfl | hu2
            · exact hmono u.name hbv
            · exact hvis u hu2
      | false =>
          have hlook : lookupOrKey st.visited t.name = .ok false :=
            lookupOrKey_ok_of_dictGet _ _ _ hbv
          have hpre : VisitPre g (g.tasks.length + 1) t st [] := by
            refine ⟨hk, htn, hbv, ?_, hcyc, ?_⟩
            · have h1 := unvis_le_names g st
              have h2 : g.names.length = g.tasks.length := by
                unfold TaskGraph.names
                rw [List.length_map]
              omega
            · intro hcn
              obtain ⟨hstk, hbr⟩ := hnone hcn
              refine ⟨?_, ?_, by simp, ?_,
                (by simp only [List.nil_append, StackChain]), hbr⟩
              · intro n hn
                rw [hstk n hn]
                simp
              · intro u hu
                exact absurd hu (List.not_mem_nil _)
              · intro u hu
                exact absurd hu (List.not_mem_nil _)
          obtain ⟨st1, hvEq, hpost⟩ :=
            dfsVisit_ok g hwf (g.tasks.length + 1) t st [] hpre
          obtain ⟨hk1, hmono1, hvt1, hu1, hpers1, hwit1, hnone1⟩ := hpost
          have hinv1 : OuterInv g st1 := by
            refine ⟨hk1, hwit1, ?_⟩
            intro hc1
            obtain ⟨hsame1, hdep1, hbr1, hblk1⟩ := hnone1 hc1
            have hcn : st.cycle = none := by
              rcases hcs : st.cycle with _ | c0
              · rfl
              · rw [hpers1 c0 hcs] at hc1
                cases hc1
            obtain ⟨hstk, hbr⟩ := hnone hcn
            refine ⟨?_, hbr1⟩
            intro n hn
            rw [hsame1 n]
            exact hstk n hn
          obtain ⟨st2, hEq, hinv2, hmono, hvis, hpers⟩ := ih st1 htstail hinv1
          refine ⟨st2, ?_, hinv2, fun n hv => hmono n (hmono1 n hv), ?_, ?_⟩
          · rw [dfsOuter_visit g t ts st hlook, hvEq]
            exact hEq
          · intro u hu
            rcases List.mem_cons.mp hu with rfl | hu2
            · exact hmono u.name hvt1
            · exact hvis u hu2
          · intro c hc
            exact hpers c (hpers1 c hc)

theorem has_cycle_spec (g : TaskGraph) (hwf : g.WF) :
    ∃ r, g.has_cycle = .ok r ∧
      (∀ c, r = some c → ¬ Acyclic g) ∧
      (r = none → Acyclic g) := by
  have hinit : OuterInv g (dfsInit g) := by
    refine ⟨⟨?_, ?_, ?_⟩, ?_, ?_⟩
    · unfold dfsInit TaskGraph.names
      rw [List.map_map]
      rfl
    · unfold dfsInit TaskGraph.names
      rw [List.map_map]
      rfl
    · unfold dfsInit TaskGraph.names
      rw [List.map_map]
      rfl
    · intro h
      simp [dfsInit] at h
    · intro _
      refine ⟨?_, ?_⟩
      · intro n hn
        exact dictGet_const_map g.tasks false n hn
      · refine ⟨fun _ => 0, ?_⟩
        intro n hbn m hem
        exfalso
        have hmem := mem_keys_of_dictGet _ _ _ hbn.1
        unfold dfsInit at hmem
        rw [List.map_map] at hmem
        have hnn : n ∈ g.tasks.map Task.name := hmem
        have hfalse := dictGet_const_map g.tasks false n hnn
        have htrue := hbn.1
        unfold dfsInit visN at htrue
        rw [hfalse] at htrue
        simp at htrue
  obtain ⟨stF, hEq, hinvF, hmonoF, hvisAll, hpersF⟩ :=
    dfsOuter_ok g hwf g.tasks (dfsInit g)
      (fun t ht => List.mem_map_of_mem Task.name ht) hinit
  refine ⟨stF.cycle, ?_, ?_, ?_⟩
  · unfold TaskGraph.has_cycle
    rw [hEq]
    rfl
  · intro c hc hacy
    obtain ⟨hkF, hwitF, hnoneF⟩ := hinvF
    obtain ⟨n, hn⟩ := hwitF (by rw [hc]; rfl)
    exact hacy n hn
  · intro hc
    obtain ⟨hkF, hwitF, hnoneF⟩ := hinvF
    obtain ⟨hstkF, hbrF⟩ := hnoneF hc
    obtain ⟨r, hr⟩ := hbrF
    have hblackAll : ∀ n, n ∈ g.names → BlackN stF n := by
      intro n hn
      obtain ⟨u, hu, hun⟩ := List.mem_map.mp hn
      refine ⟨?_, hstkF n hn⟩
      rw [← hun]
      exact hvisAll u hu
    have hdesc : ∀ x y, WaitsFor g x y → BlackN stF x → r y < r x := by
      intro x y hxy
      induction hxy with
      | direct hxy2 =>
          intro hbx
          exact (hr _ hbx _ hxy2).2
      | trans hxy2 hyz ihd =>
          intro hbx
          have hby := (hr _ hbx _ hxy2).1
          have h1 := (hr _ hbx _ hxy2).2
          have h2 := ihd hby
          omega
    intro x hxx
    have hxmem : x ∈ g.names := by
      cases hxx with
      | direct he =>
          obtain ⟨ds, hds, -⟩ := he
          have hm := mem_keys_of_dictGet _ _ _ hds
          rwa [hwf.keys] at hm
      | trans he h2 =>
          obtain ⟨ds, hds, -⟩ := he
          have hm := mem_keys_of_dictGet _ _ _ hds
          rwa [hwf.keys] at hm
    have hlt := hdesc x x hxx (hblackAll x hxmem)
    omega


/-- C3: for every well-formed graph (the `TaskGraph` API invariant, in
particular all dependency targets registered), `has_cycle` returns
`None` exactly when the waits-for relation is acyclic; and on the
single 3-cycle A→B→C→A it returns the sequence [A, B, C, A]: exactly
the tasks {A, B, C}, with consecutive entries joined by waits-for
edges and the loop closed (first element = last element). -/
theorem C3_has_cycle_correct :
    (∀ g : TaskGraph, g.WF → (g.has_cycle = .ok none ↔ Acyclic g)) ∧
    g3.has_cycle = .ok (some [tA, tB, tC, tA]) ∧
    (([tA, tB, tC, tA].map Task.name).dedup).Perm ["A", "B", "C"] ∧
    List.Chain' (fun a b => EdgeN g3 a.name b.name) [tA, tB, tC, tA] ∧
    [tA, tB, tC, tA].head? = some tA ∧
    [tA, tB, tC, tA].getLast? = some tA := by
  refine ⟨?_, by rfl, by decide, ?_, rfl, by rfl⟩
  · intro g hwf
    obtain ⟨r, hEq, hsome, hnone⟩ := has_cycle_spec g hwf
    constructor
    · intro h
      have hr : r = none := by
        have h2 := hEq.symm.trans h
        exact Except.ok.inj h2
      exact hnone hr
    · intro hacy
      rcases hr : r with _ | c
      · rw [hr] at hEq
        exact hEq
      · exact absurd hacy (hsome c hr)
  · simp only [List.chain'_cons, List.chain'_singleton, and_true]
    refine ⟨⟨[tB], rfl, tB, by simp, rfl⟩, ⟨[tC], rfl, tC, by simp, rfl⟩,
      ⟨[tA], rfl, tA, by simp, rfl⟩⟩

/-- C3 witness: the equivalence applied at the concrete three-task
chain graph `gChain`, whose `has_cycle` evaluates to `None`: its
waits-for relation is therefore acyclic. -/
theorem C3_witness : Acyclic gChain :=
  (C3_has_cycle_correct.1 gChain gChain_wf).mp (by rfl)


/-! ### A completed cycle-free traversal touched every dependency -/

theorem dfsLoop_visited_err
    (visit : Task → DfsState → Except DfsErr DfsState) (t w : Task)
    (ws : List Task) (st : DfsState) (e : DfsErr)
    (hc : st.cycle.isSome = false)
    (hv : lookupOrKey st.visited w.name = .error e) :
    dfsLoop visit t (w :: ws) st = .error e := by
  simp [dfsLoop, hc, hv]

theorem dfsLoop_visit_err
    (visit : Task → DfsState → Except DfsErr DfsState) (t w : Task)
    (ws : List Task) (st : DfsState) (e : DfsErr)
    (hc : st.cycle.isSome = false)
    (hv : lookupOrKey st.visited w.name = .ok false)
    (he : visit w { st with
        on_stack_dep := dictSet st.on_stack_dep t.name (some w) } =
      .error e) :
    dfsLoop visit t (w :: ws) st = .error e := by
  simp [dfsLoop, hc, hv, he]

theorem dfsLoop_onstack_err
    (visit : Task → DfsState → Except DfsErr DfsState) (t w : Task)
    (ws : List Task) (st : DfsState) (e : DfsErr)
    (hc : st.cycle.isSome = false)
    (hv : lookupOrKey st.visited w.name = .ok true)
    (hs : lookupOrKey st.on_stack w.name = .error e) :
    dfsLoop visit t (w :: ws) st = .error e := by
  simp [dfsLoop, hc, hv, hs]

theorem dfsLoop_walk_err
    (visit : Task → DfsState → Except DfsErr DfsState) (t w : Task)
    (ws : List Task) (st : DfsState) (e : DfsErr)
    (hc : st.cycle.isSome = false)
    (hv : lookupOrKey st.visited w.name = .ok true)
    (hs : lookupOrKey st.on_stack w.name = .ok true)
    (hw : cycleWalk st.on_stack_dep (st.on_stack_dep.length + 1) w t [] =
      .error e) :
    dfsLoop visit t (w :: ws) st = .error e := by
  simp [dfsLoop, hc, hv, hs, hw]

theorem dfsVisit_deps_err (g : TaskGraph) (fuel : Nat) (t : Task)
    (st : DfsState) (e : DfsErr)
    (hlk : lookupOrKey g.task2waiting_for t.name = .error e) :
    dfsVisit g (fuel + 1) t st = .error e := by
  simp [dfsVisit, hlk]

theorem dfsOuter_vis_err (g : TaskGraph) (t : Task) (ts : List Task)
    (st : DfsState) (e : DfsErr)
    (hv : lookupOrKey st.visited t.name = .error e) :
    dfsOuter g (t :: ts) st = .error e := by
  simp [dfsOuter, hv]

theorem depsKeyed_congr (g : TaskGraph) (st1 st2 : DfsState) (n : String)
    (hk : st2.visited.map (fun p => p.1) = st1.visited.map (fun p => p.1))
    (h : depsKeyed g st1 n) : depsKeyed g st2 n := by
  obtain ⟨ds, hds, hdk⟩ := h
  refine ⟨ds, hds, ?_⟩
  intro d hd
  rw [hk]
  exact hdk d hd

theorem dfsLoop_regs (g : TaskGraph) (fuel : Nat) (t : Task)
    (hvisit : ∀ (t2 : Task) (st st2 : DfsState),
      dfsVisit g fuel t2 st = .ok st2 →
      t2.name ∈ st.visited.map (fun p => p.1) →
      st2.visited.map (fun p => p.1) = st.visited.map (fun p => p.1) ∧
      (∀ n, visN st n → visN st2 n) ∧ visN st2 t2.name ∧
      (∀ c, st.cycle = some c → st2.cycle = some c) ∧
      (st2.cycle = none →
        ∀ n, visN st2 n → visN st n ∨ depsKeyed g st2 n)) :
    ∀ (ws : List Task) (st st2 : DfsState) (flag : Bool),
      dfsLoop (dfsVisit g fuel) t ws st = .ok (st2, flag) →
      st2.visited.map (fun p => p.1) = st.visited.map (fun p => p.1) ∧
      (∀ n, visN st n → visN st2 n) ∧
      (∀ c, st.cycle = some c → st2.cycle = some c) ∧
      (st2.cycle = none →
        (∀ w ∈ ws, w.name ∈ st.visited.map (fun p => p.1)) ∧
        (∀ n, visN st2 n → visN st n ∨ n = t.name ∨ depsKeyed g st2 n)) := by
  intro ws
  induction ws with
  | nil =>
      intro st st2 flag h
      have h2 : (st, true) = (st2, flag) := by
        have h3 : dfsLoop (dfsVisit g fuel) t [] st = .ok (st, true) := rfl
        exact Except.ok.inj (h3.symm.trans h)
      obtain ⟨rfl, rfl⟩ := Prod.mk.injEq .. |>.mp h2
      exact ⟨rfl, fun n hn => hn, fun c hc => hc, fun _ =>
        ⟨fun w hw => absurd hw (List.not_mem_nil _),
         fun n hn => Or.inl hn⟩⟩
  | cons w ws ih =>
      intro st st2 flag h
      by_cases hcy : st.cycle.isSome = true
      · rw [dfsLoop_cycleSome _ _ _ _ _ hcy] at h
        have h2 := Except.ok.inj h
        obtain ⟨rfl, rfl⟩ := Prod.mk.injEq .. |>.mp h2
        refine ⟨rfl, fun n hn => hn, fun c hc => hc, ?_⟩
        intro hc
        rw [hc] at hcy
        simp at hcy
      · have hcF : st.cycle.isSome = false := by simpa using hcy
        rcases hlk : lookupOrKey st.visited w.name with e | bv
        · rw [dfsLoop_visited_err _ _ _ _ _ _ hcF hlk] at h
          cases h
        · have hwkey : w.name ∈ st.visited.map (fun p => p.1) :=
            mem_keys_of_dictGet _ _ _ (dictGet_of_lookupOrKey_ok _ _ _ hlk)
          cases bv with
          | false =>
              rcases hv : dfsVisit g fuel w { st with
                  on_stack_dep := dictSet st.on_stack_dep t.name (some w) }
                with e | stv
              · rw [dfsLoop_visit_err _ _ _ _ _ _ hcF hlk hv] at h
                cases h
              · rw [dfsLoop_unvisited _ _ _ _ _ hcF hlk, hv] at h
                obtain ⟨hkv, hmv, hvw, hpv, hregv⟩ := hvisit w _ stv hv hwkey
                obtain ⟨hk3, hm3, hp3, hr3⟩ := ih stv st2 flag h
                refine ⟨hk3.trans hkv, fun n hn => hm3 n (hmv n hn),
                  fun c hc => hp3 c (hpv c hc), ?_⟩
                intro hc2
                obtain ⟨hws3, hnew3⟩ := hr3 hc2
                have hvnone : stv.cycle = none := by
                  rcases hsv : stv.cycle with _ | c0
                  · rfl
                  · rw [hp3 c0 hsv] at hc2
                    cases hc2
                refine ⟨?_, ?_⟩
                · intro u hu
                  rcases List.mem_cons.mp hu with rfl | hu2
                  · exact hwkey
                  · have hkk := hws3 u hu2
                    rwa [hkv] at hkk
                · intro n hn2
                  rcases hnew3 n hn2 with hvstv | hrest
                  · rcases hregv hvnone n hvstv with hvst | hds
                    · exact Or.inl hvst
                    · refine Or.inr (Or.inr ?_)
                      exact depsKeyed_congr g stv st2 n hk3 hds
                  · exact Or.inr hrest
          | true =>
              rcases hs : lookupOrKey st.on_stack w.name with e | bs
              · rw [dfsLoop_onstack_err _ _ _ _ _ _ hcF hlk hs] at h
                cases h
              · cases bs with
                | false =>
                    have hlk2 : lookupOrKey st.visited w.name = .ok true :=
                      hlk
                    have hs2 : lookupOrKey st.on_stack w.name = .ok false :=
                      hs
                    rw [dfsLoop_offstack _ _ _ _ _ hcF hlk2 hs2] at h
                    obtain ⟨hk3, hm3, hp3, hr3⟩ := ih st st2 flag h
                    refine ⟨hk3, hm3, hp3, ?_⟩
                    intro hc2
                    obtain ⟨hws3, hnew3⟩ := hr3 hc2
                    exact ⟨fun u hu => by
                      rcases List.mem_cons.mp hu with rfl | hu2
                      · exact hwkey
                      · exact hws3 u hu2, hnew3⟩
                | true =>
                    rcases hw : cycleWalk st.on_stack_dep
                        (st.on_stack_dep.length + 1) w t [] with e | c
                    · rw [dfsLoop_walk_err _ _ _ _ _ _ hcF hlk hs hw] at h
                      cases h
                    · rw [dfsLoop_onstack _ _ _ _ _ hcF hlk hs c hw] at h
                      obtain ⟨hk3, hm3, hp3, hr3⟩ := ih _ st2 flag h
                      refine ⟨hk3, hm3, ?_, ?_⟩
                      · intro c0 hc0
                        rw [hc0] at hcF
                        simp at hcF
                      · intro hc2
                        have := hp3 (c ++ [t, w]) rfl
                        rw [this] at hc2
                        cases hc2

theorem dfsVisit_regs (g : TaskGraph) :
    ∀ (fuel : Nat) (t2 : Task) (st st2 : DfsState),
      dfsVisit g fuel t2 st = .ok st2 →
      t2.name ∈ st.visited.map (fun p => p.1) →
      st2.visited.map (fun p => p.1) = st.visited.map (fun p => p.1) ∧
      (∀ n, visN st n → visN st2 n) ∧ visN st2 t2.name ∧
      (∀ c, st.cycle = some c → st2.cycle = some c) ∧
      (st2.cycle = none →
        ∀ n, visN st2 n → visN st n ∨ depsKeyed g st2 n) := by
  intro fuel
  induction fuel with
  | zero =>
      intro t2 st st2 h _
      simp [dfsVisit] at h
  | succ f ih =>
      intro t2 st st2 h htk
      rcases hlk : lookupOrKey g.task2waiting_for t2.name with e | ws
      · rw [dfsVisit_deps_err g f t2 st e hlk] at h
        cases h
      · rw [dfsVisit_eq g f t2 st ws hlk] at h
        rcases hloop : dfsLoop (dfsVisit g f) t2 ws
            { st with visited := dictSet st.visited t2.name true,
                      on_stack := dictSet st.on_stack t2.name true }
          with e | r
        · rw [hloop] at h
          cases h
        · rw [hloop] at h
          obtain ⟨stl, flag⟩ := r
          have hk1 : (dictSet st.visited t2.name true).map (fun p => p.1) =
              st.visited.map (fun p => p.1) := map_fst_dictSet _ _ _ htk
          have hmono1 : ∀ n, visN st n →
              dictGet (dictSet st.visited t2.name true) n = some true := by
            intro n hn
            by_cases hnt : n = t2.name
            · subst hnt
              exact dictGet_dictSet_self _ _ _
            · rw [dictGet_dictSet_ne _ _ _ _ hnt]
              exact hn
          have hsplit1 : ∀ n,
              dictGet (dictSet st.visited t2.name true) n = some true →
              n = t2.name ∨ visN st n := by
            intro n hn
            by_cases hnt : n = t2.name
            · exact Or.inl hnt
            · rw [dictGet_dictSet_ne _ _ _ _ hnt] at hn
              exact Or.inr hn
          obtain ⟨hkl, hml, hpl, hrl⟩ :=
            dfsLoop_regs g f t2 ih ws _ stl flag hloop
          have hkeys : stl.visited.map (fun p => p.1) =
              st.visited.map (fun p => p.1) := hkl.trans hk1
          have hvlt : visN stl t2.name :=
            hml t2.name (dictGet_dictSet_self _ _ _)
          cases flag with
          | true =>
              have h2 : { stl with
                  on_stack := dictSet stl.on_stack t2.name false } = st2 :=
                Except.ok.inj h
              subst h2
              refine ⟨hkeys, fun n hn => hml n (hmono1 n hn), hvlt,
                fun c hc => hpl c hc, ?_⟩
              intro hc2 n hn
              obtain ⟨hws2, hnew2⟩ := hrl hc2
              rcases hnew2 n hn with hv1 | hteq | hdk
              · rcases hsplit1 n hv1 with rfl | hv0
                · refine Or.inr ⟨ws, dictGet_of_lookupOrKey_ok _ _ _ hlk, ?_⟩
                  intro d hd
                  have := hws2 d hd
                  rwa [← hkl] at this
                · exact Or.inl hv0
              · subst hteq
                refine Or.inr ⟨ws, dictGet_of_lookupOrKey_ok _ _ _ hlk, ?_⟩
                intro d hd
                have := hws2 d hd
                rwa [← hkl] at this
              · exact Or.inr hdk
          | false =>
              have h2 : stl = st2 := Except.ok.inj h
              subst h2
              refine ⟨hkeys, fun n hn => hml n (hmono1 n hn), hvlt,
                fun c hc => hpl c hc, ?_⟩
              intro hc2 n hn
              obtain ⟨hws2, hnew2⟩ := hrl hc2
              rcases hnew2 n hn with hv1 | hteq | hdk
              · rcases hsplit1 n hv1 with rfl | hv0
                · refine Or.inr ⟨ws, dictGet_of_lookupOrKey_ok _ _ _ hlk, ?_⟩
                  intro d hd
                  have := hws2 d hd
                  rwa [← hkl] at this
                · exact Or.inl hv0
              · subst hteq
                refine Or.inr ⟨ws, dictGet_of_lookupOrKey_ok _ _ _ hlk, ?_⟩
                intro d hd
                have := hws2 d hd
                rwa [← hkl] at this
              · exact Or.inr hdk


theorem dfsOuter_regs (g : TaskGraph) :
    ∀ (ts : List Task) (st st2 : DfsState),
      dfsOuter g ts st = .ok st2 →
      st2.visited.map (fun p => p.1) = st.visited.map (fun p => p.1) ∧
      (∀ n, visN st n → visN st2 n) ∧
      (∀ c, st.cycle = some c → st2.cycle = some c) ∧
      (st2.cycle = none →
        (∀ t ∈ ts, visN st2 t.name) ∧
        (∀ n, visN st2 n → visN st n ∨ depsKeyed g st2 n)) := by
  intro ts
  induction ts with
  | nil =>
      intro st st2 h
      have h2 : st = st2 := Except.ok.inj h
      subst h2
      exact ⟨rfl, fun n hn => hn, fun c hc => hc, fun _ =>
        ⟨fun t ht => absurd ht (List.not_mem_nil _),
         fun n hn => Or.inl hn⟩⟩
  | cons t ts ih =>
      intro st st2 h
      rcases hlk : lookupOrKey st.visited t.name with e | b
      · rw [dfsOuter_vis_err g t ts st e hlk] at h
        cases h
      · have htk : t.name ∈ st.visited.map (fun p => p.1) :=
          mem_keys_of_dictGet _ _ _ (dictGet_of_lookupOrKey_ok _ _ _ hlk)
        cases b with
        | true =>
            rw [dfsOuter_skip g t ts st hlk] at h
            obtain ⟨hk2, hm2, hp2, hr2⟩ := ih st st2 h
            refine ⟨hk2, hm2, hp2, ?_⟩
            intro hc2
            obtain ⟨hvis2, hnew2⟩ := hr2 hc2
            refine ⟨?_, hnew2⟩
            intro u hu
            rcases List.mem_cons.mp hu with rfl | hu2
            · exact hm2 u.name (dictGet_of_lookupOrKey_ok _ _ _ hlk)
            · exact hvis2 u hu2
        | false =>
            rcases hv : dfsVisit g (g.tasks.length + 1) t st with e | st1
            · rw [dfsOuter_visit g t ts st hlk, hv] at h
              cases h
            · rw [dfsOuter_visit g t ts st hlk, hv] at h
              obtain ⟨hkv, hmv, hvt, hpv, hregv⟩ :=
                dfsVisit_regs g (g.tasks.length + 1) t st st1 hv htk
              obtain ⟨hk2, hm2, hp2, hr2⟩ := ih st1 st2 h
              refine ⟨hk2.trans hkv, fun n hn => hm2 n (hmv n hn),
                fun c hc => hp2 c (hpv c hc), ?_⟩
              intro hc2
              obtain ⟨hvis2, hnew2⟩ := hr2 hc2
              have hvnone : st1.cycle = none := by
                rcases hsv : st1.cycle with _ | c0
                · rfl
                · rw [hp2 c0 hsv] at hc2
                  cases hc2
              refine ⟨?_, ?_⟩
              · intro u hu
                rcases List.mem_cons.mp hu with rfl | hu2
                · exact hm2 u.name hvt
                · exact hvis2 u hu2
              · intro n hn
                rcases hnew2 n hn with hv1 | hdk
                · rcases hregv hvnone n hv1 with hv0 | hdk1
                  · exact Or.inl hv0
                  · exact Or.inr (depsKeyed_congr g st1 st2 n hk2 hdk1)
                · exact Or.inr hdk

theorem has_cycle_none_deps_registered (g : TaskGraph)
    (h : g.has_cycle = .ok none) :
    ∀ t ∈ g.tasks, ∃ ds, g.depsOf t.name = some ds ∧
      ∀ d ∈ ds, d.name ∈ g.names := by
  unfold TaskGraph.has_cycle at h
  rcases hO : dfsOuter g g.tasks (dfsInit g) with e | stF
  · rw [hO] at h
    cases h
  · rw [hO] at h
    have hcyc : stF.cycle = none := Except.ok.inj h
    obtain ⟨hkeys, hmono, hpers, hreg⟩ :=
      dfsOuter_regs g g.tasks (dfsInit g) stF hO
    obtain ⟨hvisAll, hclass⟩ := hreg hcyc
    intro t ht
    have hvt : visN stF t.name := hvisAll t ht
    rcases hclass t.name hvt with hvinit | ⟨ds, hds, hdk⟩
    · exfalso
      have hnn : t.name ∈ g.tasks.map Task.name :=
        List.mem_map_of_mem Task.name ht
      have hfalse := dictGet_const_map g.tasks false t.name hnn
      have htrue : dictGet (dfsInit g).visited t.name = some true := hvinit
      unfold dfsInit at htrue
      rw [hfalse] at htrue
      simp at htrue
    · refine ⟨ds, hds, ?_⟩
      intro d hd
      have hmem := hdk d hd
      rw [hkeys] at hmem
      unfold dfsInit at hmem
      rw [List.map_map] at hmem
      exact hmem

/-- C8 counterexample: in `gMask` the task `A` depends on the
never-registered task `U`; the dependency is silently recorded at
construction, and `run` raises the cycle `ValueError` naming only `B`
and `C` — there is no `UnknownDependency` failure and the unknown
dependency is never reported at all. -/
theorem C8_counterexample :
    gMask.depsOf "A" = some [tU] ∧ "U" ∉ gMask.names ∧
    gMask.run = .valueError ["B", "C", "B"] := by
  refine ⟨by rfl, by decide, by rfl⟩

/-- C8 (amended): `add_dependency` records a dependency on an
unregistered task silently — there is no `UnknownDependency` error in
the code, at construction or anywhere else.  At validation time the
unknown name surfaces as an uncaught `KeyError` from the cycle DFS
(`gUnk`), unless a cycle found first masks it entirely (the
counterexample); in every case a graph containing an unregistered
dependency is never launched: `run` stops with `KeyError` or
`ValueError` before any task starts. -/
theorem C8_amended_unknown_dependency :
    (∀ (g : TaskGraph) (t u : Task) (ds : List Task),
      g.depsOf t.name = some ds →
      g.add_dependency t (.task u) =
        .ok { g with
          task2waiting_for :=
            dictSet g.task2waiting_for t.name (ds ++ [u]) }) ∧
    (∀ g : TaskGraph,
      (∃ t ∈ g.tasks, ∃ ds, g.depsOf t.name = some ds ∧
        ∃ d ∈ ds, d.name ∉ g.names) →
      ∀ s, g.run ≠ .launched s) ∧
    gUnk.run = .keyError "U" := by
  refine ⟨?_, ?_, by rfl⟩
  · intro g t u ds hds
    unfold TaskGraph.add_dependency
    unfold TaskGraph.depsOf at hds
    rw [hds]
  · intro g hex s hrun
    rcases hhc : g.has_cycle with e | r
    · cases e with
      | keyError k =>
          have hval : g.run = .keyError k := by
            unfold TaskGraph.run
            rw [hhc]
          rw [hval] at hrun
          cases hrun
      | noFuel =>
          have hval : g.run = .internalNoFuel := by
            unfold TaskGraph.run
            rw [hhc]
          rw [hval] at hrun
          cases hrun
    · rcases r with _ | c
      · obtain ⟨t, ht, ds, hds, d, hd, hdn⟩ := hex
        obtain ⟨ds2, hds2, hreg⟩ := has_cycle_none_deps_registered g hhc t ht
        have hdseq : ds2 = ds := Option.some.inj (hds2.symm.trans hds)
        subst hdseq
        exact hdn (hreg d hd)
      · have hval : g.run = .valueError (c.map (fun t => t.name)) := by
          unfold TaskGraph.run
          rw [hhc]
        rw [hval] at hrun
        cases hrun

/-- C8 witness: the amended statement at concrete inputs — the silent
recording applied to `gMask` (appending the unknown `U` once more),
and the no-launch guarantee applied to `gUnk`. -/
theorem C8_witness :
    gMask.add_dependency tA (.task tU) =
      .ok { gMask with
        task2waiting_for :=
          dictSet gMask.task2waiting_for tA.name ([tU] ++ [tU]) } ∧
    gUnk.run ≠ .launched (initState gUnk) :=
  ⟨C8_amended_unknown_dependency.1 gMask tA tU [tU] (by rfl),
   C8_amended_unknown_dependency.2.1 gUnk
     ⟨tA, List.mem_cons_self tA [], [tU], by rfl, tU,
       List.mem_cons_self tU [], by decide⟩
     (initState gUnk)⟩

end Gtui
